import Mathlib

/-!
Verification development for the MarkdownIME core (src/VDom.ts and
src/Renderer/BlockRenderer.ts), a shallow embedding in Lean 4.

Strings are embedded as `List Char`.  The JavaScript regular expressions
appearing in the source are embedded as dedicated matching functions, one
per regex, reproducing the semantics of the concrete pattern (greedy and
lazy quantifiers, anchoring, global scan position).  The mutable `DomChaos`
object is embedded as a state record threaded explicitly.
-/

namespace MarkdownIME


/-- Character strings, embedded as lists of characters. -/
abbrev Str : Type := List Char

/-- Digit character used by JavaScript `Number.prototype.toString(radix)`:
0-9 then lowercase a-z. -/
def digitChar (n : Nat) : Char :=
  if n < 10 then Char.ofNat (48 + n) else Char.ofNat (87 + n)

/-- Fueled positional rendering; `toBase` supplies sufficient fuel. -/
def toBaseAux (b : Nat) : Nat → Nat → Str
  | 0, n => [digitChar n]
  | fuel + 1, n =>
    if n < b ∨ b ≤ 1 then [digitChar n]
    else toBaseAux b fuel (n / b) ++ [digitChar (n % b)]

/-- Positional base-`b` rendering of a natural number, most significant digit
first, as produced by JavaScript `Number.prototype.toString(b)` (no leading
zeros for positive numbers; `0` renders as "0").  The `b ≤ 1` guard only
serves totality; all uses have `b = 36` or `b = 10`. -/
def toBase (b : Nat) (n : Nat) : Str :=
  toBaseAux b (n + 1) n

/-- Mark string for counter value `k`: the reserved delimiter pair
U+FFFC U+FFF9 around the base-36 counter, closed by U+FFFB
(fields `markPrefix`/`markSuffix` of `DomChaos`, VDom.ts lines 85-86,
assembled in `nextMark`, line 93). -/
def mkMark (k : Nat) : Str :=
  Char.ofNat 0xFFFC :: Char.ofNat 0xFFF9 :: (toBase 36 k ++ [Char.ofNat 0xFFFB])

/-- Substring test, the embedding of JavaScript `text.indexOf(mark) !== -1`. -/
def containsSub (p : Str) : Str → Bool
  | [] => p.isEmpty
  | c :: s => p.isPrefixOf (c :: s) || containsSub p s

/-- Fueled search for the first counter value `k' ≥ k` whose mark does not
occur in `text`.  Fuel exhaustion returns the current candidate; the fuel
chosen in `findMark` is proved sufficient below. -/
def findMarkAux (text : Str) : Nat → Nat → Nat
  | 0, k => k
  | fuel + 1, k => if containsSub (mkMark k) text then findMarkAux text fuel (k + 1) else k

/-- First collision-free mark counter at or after `k`: the embedding of the
do-while loop of `DomChaos.nextMark` (VDom.ts lines 91-94), which increments
the counter while the candidate mark occurs in `this.text`. -/
def findMark (text : Str) (k : Nat) : Nat :=
  findMarkAux text (36 ^ text.length + 1) k

/-- State of a `DomChaos` object: the markup-free `text`, the proxy storage
as an insertion-ordered association list, and the mark counter. -/
structure Chaos where
  text : Str
  storage : List (Str × Str)
  markCount : Nat
deriving DecidableEq, Repr

/-- Generated mark together with the new counter value: `DomChaos.nextMark`
(VDom.ts lines 89-96).  The collision check runs against the current value
of `this.text`. -/
def nextMark (st : Chaos) : Str × Nat :=
  let k := findMark st.text (st.markCount + 1)
  (mkMark k, k)

/-- Store a fragment under a fresh mark: `DomChaos.createProxy`
(VDom.ts lines 78-82). -/
def createProxy (st : Chaos) (reality : Str) : Str × Chaos :=
  let p := nextMark st
  (p.1, { st with storage := st.storage ++ [(p.1, reality)], markCount := p.2 })

/-- Every character of a base-36 rendering is a digit or lowercase letter. -/
def isB36Digit (c : Char) : Bool :=
  (48 ≤ c.val && c.val ≤ 57) || (97 ≤ c.val && c.val ≤ 122)

/-! Character classes of the JavaScript regexes involved. -/

/-- Line terminators, the characters NOT matched by `.` in a JavaScript
regex without the `s` flag: LF, CR, LS, PS. -/
def isLineTerm (c : Char) : Bool :=
  c.val = 10 || c.val = 13 || c.val = 0x2028 || c.val = 0x2029

/-- Word characters `\w` of JavaScript regexes: `[A-Za-z0-9_]`. -/
def isWordChar (c : Char) : Bool :=
  (48 ≤ c.val && c.val ≤ 57) || (65 ≤ c.val && c.val ≤ 90) ||
  (97 ≤ c.val && c.val ≤ 122) || c.val = 95

/-- Whitespace `\s` of JavaScript regexes: space, tab, LF, VT, FF, CR, NBSP,
and the Unicode space separators, line separators and BOM. -/
def isJsSpace (c : Char) : Bool :=
  c.val = 32 || c.val = 9 || c.val = 10 || c.val = 11 || c.val = 12 ||
  c.val = 13 || c.val = 0xA0 || c.val = 0x1680 ||
  (0x2000 ≤ c.val && c.val ≤ 0x200A) || c.val = 0x2028 || c.val = 0x2029 ||
  c.val = 0x202F || c.val = 0x205F || c.val = 0x3000 || c.val = 0xFEFF

/-! Embedding of the three extraction regexes of `digestHTML`
(VDom.ts lines 29-31).  Each matcher tries the regex anchored at the start
of the given string and returns the matched span and the remainder. -/

/-- Head test helper: whether the string is non-empty and its first character
satisfies the given class. -/
def headIs (p : Char → Bool) : Str → Bool
  | [] => false
  | c :: _ => p c

/-- Lazy body scan of the comment regex: the shortest non-empty run of
non-line-terminator characters followed by the literal terminator.
Returns the body and the text after the terminator. -/
def commentBody : Str → Option (Str × Str)
  | [] => none
  | c :: t =>
    if isLineTerm c then none
    else if (['-', '-', '>']).isPrefixOf t then some ([c], t.drop 3)
    else
      match commentBody t with
      | some p => some (c :: p.1, p.2)
      | none => none

/-- Match of the comment regex at the start of the string:
the lazy pattern matching comment spans. -/
def commentMatch (s : Str) : Option (Str × Str) :=
  if (['<', '!', '-', '-']).isPrefixOf s then
    match commentBody (s.drop 4) with
    | some p => some ('<' :: '!' :: '-' :: '-' :: (p.1 ++ ['-', '-', '>']), p.2)
    | none => none
  else none

/-- Maximal run of word characters at the start of the string. -/
def wordRun : Str → Str × Str
  | [] => ([], [])
  | c :: t =>
    if isWordChar c then
      let p := wordRun t
      (c :: p.1, p.2)
    else ([], c :: t)

/-- Optional leading slash of the tag regex. -/
def slashSplit : Str → Str × Str
  | [] => ([], [])
  | c :: t => if c = '/' then (['/'], t) else ([], c :: t)

/-- Split at the first literal greater-than sign: the characters before it and
the text after it. -/
def splitBeforeGt : Str → Option (Str × Str)
  | [] => none
  | c :: t =>
    if c = '>' then some ([], t)
    else
      match splitBeforeGt t with
      | some p => some (c :: p.1, p.2)
      | none => none

/-- Match of the tag regex at the start of the string.  After the optional
slash and the mandatory greedy word run, the pattern matches either an
immediate closing bracket, or an attribute part of at least two characters
starting with whitespace and running to the first closing bracket (the
backtracking semantics of the greedy optional group). -/
def tagMatch : Str → Option (Str × Str)
  | [] => none
  | a :: t =>
    if a = '<' then
      let sl := slashSplit t
      let w := wordRun sl.2
      if w.1 = [] then none
      else if headIs (· = '>') w.2 then
        some ('<' :: (sl.1 ++ w.1 ++ ['>']), w.2.drop 1)
      else
        match splitBeforeGt w.2 with
        | some p =>
          if 2 ≤ p.1.length && headIs isJsSpace p.1 then
            some ('<' :: (sl.1 ++ w.1 ++ p.1 ++ ['>']), p.2)
          else none
        | none => none
    else none

/-- Match of the escape regex at the start of the string: a backslash
followed by one non-line-terminator character. -/
def escMatch : Str → Option (Str × Str)
  | a :: c :: t => if a = '\\' && !isLineTerm c then some ([a, c], t) else none
  | _ => none

/-! Scan loops: the embedding of the three global regex replaces of
`digestHTML` (VDom.ts lines 29-31).  A JavaScript global replace scans left
to right, substituting every non-overlapping match and continuing right
after it; here every match is replaced by a freshly created proxy mark.
The loop is written with explicit fuel (so that it computes by kernel
reduction); `scanPass` supplies fuel proved sufficient below. -/

/-- Fueled left-to-right scan replacing every match of the matcher by a
freshly created proxy mark. -/
def scanAux (M : Str → Option (Str × Str)) : Nat → Chaos → Str → Str × Chaos
  | 0, st, s => (s, st)
  | _ + 1, st, [] => ([], st)
  | fuel + 1, st, c :: t =>
    match M (c :: t) with
    | some p =>
      let q := createProxy st p.1
      let rest := scanAux M fuel q.2 p.2
      (q.1 ++ rest.1, rest.2)
    | none =>
      let rest := scanAux M fuel st t
      (c :: rest.1, rest.2)

/-- Global regex replace by proxy marks (one of the three `html.replace`
lines of `digestHTML`). -/
def scanPass (M : Str → Option (Str × Str)) (st : Chaos) (s : Str) : Str × Chaos :=
  scanAux M (s.length + 1) st s

/-- Matchers whose successful matches split their input into a non-empty
matched part and the remainder: this holds for the three regexes of
`digestHTML` and makes the scan fuel sufficient. -/
def Splits (M : Str → Option (Str × Str)) : Prop :=
  ∀ s m r, M s = some (m, r) → s = m ++ r ∧ m ≠ []

/-- Fueled entity-decoding loop; `html_entity_decode` supplies fuel proved
sufficient below. -/
def entDecodeAux : Nat → Str → Str
  | 0, s => s
  | _ + 1, [] => []
  | fuel + 1, c :: t =>
    if c = '&' then
      if (['l', 't', ';']).isPrefixOf t then '<' :: entDecodeAux fuel (t.drop 3)
      else if (['g', 't', ';']).isPrefixOf t then '>' :: entDecodeAux fuel (t.drop 3)
      else if (['a', 'm', 'p', ';']).isPrefixOf t then '&' :: entDecodeAux fuel (t.drop 4)
      else if (['n', 'b', 's', 'p', ';']).isPrefixOf t then
        Char.ofNat 160 :: entDecodeAux fuel (t.drop 5)
      else c :: entDecodeAux fuel t
    else c :: entDecodeAux fuel t

/-- Modelled from the spec: `Utils.html_entity_decode` (the file Utils.ts is
not part of the given sources).  Per the markup representation contract, it
decodes named character references into literal characters — the bracket and
ampersand entities plus the non-breaking-space reference — scanning left to
right and continuing after each replacement. -/
def html_entity_decode (s : Str) : Str :=
  entDecodeAux (s.length + 1) s

/-- Modelled from the spec: `Utils.text2html` (the file Utils.ts is not part
of the given sources).  Per the spec it re-encodes text into markup-safe
form, encoding the literal bracket and ampersand characters, and renders the
non-breaking space as its named reference. -/
def text2html : Str → Str
  | [] => []
  | c :: t =>
    if c = '&' then '&' :: 'a' :: 'm' :: 'p' :: ';' :: text2html t
    else if c = '<' then '&' :: 'l' :: 't' :: ';' :: text2html t
    else if c = '>' then '&' :: 'g' :: 't' :: ';' :: text2html t
    else if c = Char.ofNat 160 then '&' :: 'n' :: 'b' :: 's' :: 'p' :: ';' :: text2html t
    else c :: text2html t

/-- Extraction of strange things into proxy marks: `DomChaos.digestHTML`
(VDom.ts lines 26-36).  Comments, then tags, then escaped characters are
replaced by fresh marks; afterwards the remaining character entities are
decoded. -/
def digestHTML (st : Chaos) (html : Str) : Str × Chaos :=
  let p1 := scanPass commentMatch st html
  let p2 := scanPass tagMatch p1.2 p1.1
  let p3 := scanPass escMatch p2.2 p2.1
  (html_entity_decode p3.1, p3.2)

/-- Load of new markup content: `DomChaos.setHTML` (VDom.ts lines 39-44).
The mark counter and the proxy storage are reset, the input is digested
(during which the collision checks of `nextMark` still consult the previous
`text`), and the digested output becomes the new `text`. -/
def setHTML (st : Chaos) (html : Str) : Chaos :=
  let st0 : Chaos := { text := st.text, storage := [], markCount := 0 }
  let p := digestHTML st0 html
  { p.2 with text := p.1 }

/-- Leftmost occurrence of a pattern string: the search step of a JavaScript
`String.prototype.replace` with a string pattern.  Returns the parts before
and after the first occurrence. -/
def splitFirst (pat : Str) : Str → Option (Str × Str)
  | [] => if pat.isEmpty then some ([], []) else none
  | c :: t =>
    if pat.isPrefixOf (c :: t) then some ([], (c :: t).drop pat.length)
    else
      match splitFirst pat t with
      | some q => some (c :: q.1, q.2)
      | none => none

/-- Replacement-pattern expansion of JavaScript `String.prototype.replace`
(the GetSubstitution algorithm with no capture groups): dollar-dollar yields
a dollar, dollar-ampersand the matched text, dollar-backquote the part
before the match, dollar-quote the part after; everything else is copied
literally. -/
def expand (matched pre post : Str) : Str → Str
  | [] => []
  | [c] => [c]
  | c :: d :: t =>
    if c = '$' then
      if d = '$' then '$' :: expand matched pre post t
      else if d = '&' then matched ++ expand matched pre post t
      else if d = Char.ofNat 96 then pre ++ expand matched pre post t
      else if d = Char.ofNat 39 then post ++ expand matched pre post t
      else c :: expand matched pre post (d :: t)
    else c :: expand matched pre post (d :: t)

/-- Single substitution `rtn.replace(mark, fragment)` with a string pattern:
only the first occurrence is replaced, and the replacement string undergoes
dollar-pattern expansion. -/
def replaceOnce (pat rep s : Str) : Str :=
  match splitFirst pat s with
  | none => s
  | some q => q.1 ++ expand pat q.1 q.2 rep ++ q.2

/-- Recovery loop of `getHTML` (VDom.ts lines 50-52): every stored mark is
substituted back, in storage insertion order. -/
def substMarks (storage : List (Str × Str)) (s : Str) : Str :=
  match storage with
  | [] => s
  | (m, frag) :: rest => substMarks rest (replaceOnce m frag s)

/-- Materialization: `DomChaos.getHTML` (VDom.ts lines 47-55).  The text is
re-encoded and the stored fragments are substituted back for their marks. -/
def getHTML (st : Chaos) : Str :=
  substMarks st.storage (text2html st.text)

/-! State invariant: storage keys are marks of strictly increasing counter
values bounded by the current mark counter. -/

/-- Storage well-formedness of a `Chaos` state. -/
def StInv (st : Chaos) : Prop :=
  ∃ ks : List Nat, st.storage.map Prod.fst = ks.map mkMark ∧
    ks.Chain' (· < ·) ∧ ∀ j ∈ ks, j ≤ st.markCount

/-- Sequence of marks produced by successive `nextMark` calls, each against
the model text current at the moment of the call, with the counter threaded
through (the storage content is irrelevant to `nextMark`). -/
def markSeq (k : Nat) : List Str → List Str
  | [] => []
  | t :: ts =>
    let p := nextMark { text := t, storage := [], markCount := k }
    p.1 :: markSeq p.2 ts

/-! C3: idempotence of digestion. -/

/-- Scan cleanliness: no suffix of the string begins a match of the given
matcher, so the corresponding global replace is the identity. -/
def scanClean (M : Str → Option (Str × Str)) : Str → Bool
  | [] => true
  | c :: t => (M (c :: t)).isNone && scanClean M t

/-- Digest cleanliness: no comment, tag or escape pattern occurs anywhere,
and entity decoding does not alter the string. -/
def cleanStr (s : Str) : Bool :=
  scanClean commentMatch s && scanClean tagMatch s && scanClean escMatch s &&
  (html_entity_decode s == s)

/-! DOM tree model.  The host document's mutable node tree is embedded as a
mutually inductive value type; the `id` field models object identity
(`isEqualNode` ignores it, reference equality respects it).  Children are a
`DomForest` (a cons-list fused into the mutual block) so that all recursions
stay structural. -/

mutual

inductive DomNode where
  | elem (id : Nat) (tag : Str) (children : DomForest)
  | text (id : Nat) (s : Str)
deriving DecidableEq, Repr

inductive DomForest where
  | nil : DomForest
  | cons : DomNode → DomForest → DomForest
deriving DecidableEq, Repr

end

/-- Sibling-sequence concatenation. -/
def DomForest.append : DomForest → DomForest → DomForest
  | .nil, g => g
  | .cons n f, g => .cons n (f.append g)

/-- Forest built from a list of nodes. -/
def ofList : List DomNode → DomForest
  | [] => .nil
  | n :: ns => .cons n (ofList ns)

/-- List of the nodes of a forest. -/
def toList : DomForest → List DomNode
  | .nil => []
  | .cons n f => n :: toList f

mutual

/-- Flattened text of a node: the DOM `textContent`. -/
def textContent : DomNode → Str
  | .text _ s => s
  | .elem _ _ cs => textContentF cs

def textContentF : DomForest → Str
  | .nil => []
  | .cons n f => textContent n ++ textContentF f

end

mutual

/-- Structural equality of nodes ignoring object identity: the DOM
`isEqualNode` (same node kind, tag and text, equal children, recursively). -/
def structEq : DomNode → DomNode → Bool
  | .text _ s, .text _ t => s == t
  | .elem _ tg cs, .elem _ tg2 cs2 => tg == tg2 && structEqF cs cs2
  | _, _ => false

def structEqF : DomForest → DomForest → Bool
  | .nil, .nil => true
  | .cons n f, .cons m g => structEq n m && structEqF f g
  | _, _ => false

end

mutual

/-- Markup serialization of a node, as produced by the host `innerHTML`
getter: text is entity-encoded with `text2html`, elements render as a tag
pair (the model carries no attributes). -/
def serializeNode : DomNode → Str
  | .text _ s => text2html s
  | .elem _ tg cs => '<' :: (tg ++ '>' :: serializeF cs) ++ '<' :: '/' :: (tg ++ ['>'])

def serializeF : DomForest → Str
  | .nil => []
  | .cons n f => serializeNode n ++ serializeF f

end

/-- Child forest of a node (empty for text nodes). -/
def childrenOf : DomNode → DomForest
  | .text _ _ => .nil
  | .elem _ _ cs => cs

/-- Tag of a node; text nodes carry no element tag. -/
def nodeTag : DomNode → Str
  | .text _ _ => []
  | .elem _ tg _ => tg

/-- Object identity of a node. -/
def nodeId : DomNode → Nat
  | .text i _ => i
  | .elem i _ _ => i

/-- Element-node test. -/
def isElem : DomNode → Bool
  | .elem _ _ _ => true
  | .text _ _ => false

/-- Node with its children replaced (identity and tag kept). -/
def setChildren : DomNode → DomForest → DomNode
  | .text i s, _ => .text i s
  | .elem i tg _, cs => .elem i tg cs

/-- Markup content of a node: the `innerHTML` getter. -/
def innerHTML (n : DomNode) : Str :=
  serializeF (childrenOf n)

/-! Markup parsing: the host document's `innerHTML` setter, an external
collaborator of the core.  Modelled from the spec: the markup representation
contract of §6 — tag syntax, the named character references, literal
characters otherwise; fresh nodes are allocated with new identities. -/

/-- Tokens of the markup fragment language. -/
inductive Tok where
  | chTok (c : Char)
  | openTok (tg : Str)
  | closeTok (tg : Str)
deriving DecidableEq, Repr

/-- Modelled from the spec: scan of one tag after its opening bracket — an
optional slash, a non-empty tag name, the closing bracket. -/
def takeTag (t : Str) : Option (Bool × Str × Str) :=
  let sl := slashSplit t
  let w := wordRun sl.2
  if w.1 = [] then none
  else if headIs (· = '>') w.2 then some (sl.1 ≠ [], w.1, w.2.drop 1)
  else none

/-- Fueled tokenizer loop; `tokenize` supplies fuel proved sufficient. -/
def tokenizeAux : Nat → Str → List Tok
  | 0, _ => []
  | _ + 1, [] => []
  | fuel + 1, c :: t =>
    if c = '&' then
      if (['l', 't', ';']).isPrefixOf t then .chTok '<' :: tokenizeAux fuel (t.drop 3)
      else if (['g', 't', ';']).isPrefixOf t then .chTok '>' :: tokenizeAux fuel (t.drop 3)
      else if (['a', 'm', 'p', ';']).isPrefixOf t then .chTok '&' :: tokenizeAux fuel (t.drop 4)
      else if (['n', 'b', 's', 'p', ';']).isPrefixOf t then
        .chTok (Char.ofNat 160) :: tokenizeAux fuel (t.drop 5)
      else .chTok c :: tokenizeAux fuel t
    else if c = '<' then
      match takeTag t with
      | some q => (if q.1 then Tok.closeTok q.2.1 else Tok.openTok q.2.1) :: tokenizeAux fuel q.2.2
      | none => .chTok c :: tokenizeAux fuel t
    else .chTok c :: tokenizeAux fuel t

/-- Modelled from the spec: tokenization of a markup fragment. -/
def tokenize (s : Str) : List Tok :=
  tokenizeAux (s.length + 1) s

/-- Parser state: open-element stack (tag and the siblings accumulated before
the element, in reverse), current reversed sibling accumulator, and the next
fresh node identity. -/
structure BState where
  stack : List (Str × List DomNode)
  acc : List DomNode
  nid : Nat
deriving DecidableEq, Repr

/-- Modelled from the spec: one parser step.  Characters extend the current
text node or open a new one; an opening tag pushes a frame; a matching closing
tag pops it into a fresh element (a stray closing tag is ignored). -/
def bstep (st : BState) : Tok → BState
  | .chTok c =>
    match st.acc with
    | .text i u :: r => { st with acc := .text i (u ++ [c]) :: r }
    | _ => { st with acc := .text st.nid [c] :: st.acc, nid := st.nid + 1 }
  | .openTok tg => { stack := (tg, st.acc) :: st.stack, acc := [], nid := st.nid }
  | .closeTok tg =>
    match st.stack with
    | (tg2, saved) :: rest =>
      if tg = tg2 then
        { stack := rest, acc := .elem st.nid tg (ofList st.acc.reverse) :: saved,
          nid := st.nid + 1 }
      else st
    | [] => st

/-- Modelled from the spec: close any elements left open at the end of the
fragment. -/
def bfinishAux : List (Str × List DomNode) → List DomNode → Nat → List DomNode × Nat
  | [], acc, nid => (acc.reverse, nid)
  | (tg, saved) :: rest, acc, nid =>
    bfinishAux rest (.elem nid tg (ofList acc.reverse) :: saved) (nid + 1)

/-- Final parser state flush. -/
def bfinish (st : BState) : List DomNode × Nat :=
  bfinishAux st.stack st.acc st.nid

/-- Modelled from the spec: parse a markup fragment into a node list,
allocating fresh identities from `nid` (the `innerHTML` setter). -/
def parseHTML (nid : Nat) (s : Str) : List DomNode × Nat :=
  bfinish ((tokenize s).foldl bstep ⟨[], [], nid⟩)

/-- Plain-character encoding of text in serialized markup after the
non-breaking-space normalization of `prepareElevate`: ampersand and brackets
are entity-encoded as in `text2html`, but the non-breaking space stays
literal (its reference has just been normalized away). -/
def encPlain : Str → Str
  | [] => []
  | c :: t =>
    if c = '&' then '&' :: 'a' :: 'm' :: 'p' :: ';' :: encPlain t
    else if c = '<' then '&' :: 'l' :: 't' :: ';' :: encPlain t
    else if c = '>' then '&' :: 'g' :: 't' :: ';' :: encPlain t
    else c :: encPlain t

mutual

/-- Serialized markup of a node after non-breaking-space normalization. -/
def serializeNormN : DomNode → Str
  | .text _ s => encPlain s
  | .elem _ tg cs =>
    '<' :: (tg ++ '>' :: serializeNormF cs) ++ '<' :: '/' :: (tg ++ ['>'])

/-- Serialized markup of a forest after non-breaking-space normalization. -/
def serializeNormF : DomForest → Str
  | .nil => []
  | .cons n f => serializeNormN n ++ serializeNormF f

end

mutual

/-- Token stream produced by tokenizing a node's normalized markup. -/
def tokN : DomNode → List Tok
  | .text _ s => s.map Tok.chTok
  | .elem _ tg cs => Tok.openTok tg :: (tokF cs ++ [Tok.closeTok tg])

/-- Token stream of a forest's normalized markup. -/
def tokF : DomForest → List Tok
  | .nil => []
  | .cons n f => tokN n ++ tokF f

end

mutual

/-- Parse-stable subtree: element tags are non-empty words, text nodes are
non-empty, and no two text siblings are adjacent, so that serializing and
re-parsing reproduces the structure. -/
def wfN : DomNode → Bool
  | .text _ s => !s.isEmpty
  | .elem _ tg cs => !tg.isEmpty && tg.all isWordChar && wfF cs

def wfF : DomForest → Bool
  | .nil => true
  | .cons n f =>
    wfN n && wfF f &&
    (match n, f with
     | .text _ _, .cons (.text _ _) _ => false
     | _, _ => true)

end

/-- The forest is empty or starts with an element node. -/
def headElemF : DomForest → Bool
  | .nil => true
  | .cons n _ => isElem n

/-! Feature-mark regexes of the five containers
(BlockRenderer.ts lines 97, 107, 117, 128, 146), embedded as anchored
matchers returning the consumed length. -/

/-- Maximal prefix run of characters satisfying a class. -/
def runSplit (p : Char → Bool) : Str → Str × Str
  | [] => ([], [])
  | c :: t =>
    if p c then
      let q := runSplit p t
      (c :: q.1, q.2)
    else ([], c :: t)

/-- Digits `\d`. -/
def isDigitChar (c : Char) : Bool :=
  48 ≤ c.val && c.val ≤ 57

/-- Unordered-list marker: optional whitespace, one bullet of asterisk, plus
or hyphen, whitespace. -/
def ulExec (s : Str) : Option Nat :=
  let w := runSplit isJsSpace s
  match w.2 with
  | c :: t =>
    if c = '*' ∨ c = '+' ∨ c = '-' then
      let w2 := runSplit isJsSpace t
      if w2.1 = [] then none else some (w.1.length + 1 + w2.1.length)
    else none
  | [] => none

/-- Ordered-list marker: optional whitespace, digits, a dot, whitespace. -/
def olExec (s : Str) : Option Nat :=
  let w := runSplit isJsSpace s
  let d := runSplit isDigitChar w.2
  if d.1 = [] then none
  else if headIs (· = '.') d.2 then
    let w2 := runSplit isJsSpace (d.2.drop 1)
    if w2.1 = [] then none else some (w.1.length + d.1.length + 1 + w2.1.length)
  else none

/-- Blockquote marker: a literal greater-than sign or its entity form, then
optional whitespace. -/
def bqExec (s : Str) : Option Nat :=
  if headIs (· = '>') s then some (1 + (runSplit isJsSpace (s.drop 1)).1.length)
  else if (['&', 'g', 't', ';']).isPrefixOf s then
    some (4 + (runSplit isJsSpace (s.drop 4)).1.length)
  else none

/-- Header marker: a non-empty run of hashes then whitespace; also returns
the hash-run length (the first capture group). -/
def htExec (s : Str) : Option (Nat × Nat) :=
  let h := runSplit (· = '#') s
  if h.1 = [] then none
  else
    let w := runSplit isJsSpace h.2
    if w.1 = [] then none else some (h.1.length + w.1.length, h.1.length)

/-- Fueled repetition count of the horizontal-rule rule-character group:
greedily consume groups of optional whitespace followed by the rule
character, never consuming trailing whitespace of a failed group. -/
def hrRepsAux (c : Char) : Nat → Str → Nat × Str
  | 0, s => (0, s)
  | fuel + 1, s =>
    let w := runSplit isJsSpace s
    match w.2 with
    | d :: t =>
      if d = c then
        let r := hrRepsAux c fuel t
        (r.1 + 1, r.2)
      else (0, s)
    | [] => (0, s)

/-- Repetition count with sufficient fuel. -/
def hrReps (c : Char) (s : Str) : Nat × Str :=
  hrRepsAux c (s.length + 1) s

/-- Horizontal-rule pattern: optional whitespace, one of hyphen, equals,
asterisk, two or more further repetitions of the same character with
optional whitespace between, optional whitespace, end of string. -/
def hrExec (s : Str) : Option Nat :=
  let w := runSplit isJsSpace s
  match w.2 with
  | d :: t =>
    if d = '-' ∨ d = '=' ∨ d = '*' then
      let r := hrReps d t
      if 2 ≤ r.1 ∧ (runSplit isJsSpace r.2).2 = [] then some s.length else none
    else none
  | [] => none

/-- The five feature marks, by the container that owns them. -/
inductive FMark where
  | ulM | olM | bqM | hrM | htM
deriving DecidableEq, Repr

/-- Consumed length of an anchored feature-mark match. -/
def fmLen : FMark → Str → Option Nat
  | .ulM => ulExec
  | .olM => olExec
  | .bqM => bqExec
  | .hrM => hrExec
  | .htM => fun s => (htExec s).map Prod.fst

/-! Container descriptors and elevation
(BlockRenderer.ts lines 5-213). -/

/-- Which `Elevate` implementation a container uses: the generic one of
`BlockRendererContainer`, or one of the two overrides. -/
inductive ElevKind where
  | generic | headerText | hr
deriving DecidableEq, Repr

/-- A container descriptor: `BlockRendererContainer` (lines 5-36) with the
class of its `Elevate` method. -/
structure BlockRendererContainer where
  name : Str
  featureMark : FMark
  childNodeName : Option Str
  parentNodeName : Option Str
  isTypable : Bool
  removeFeatureMark : Bool
  kind : ElevKind
deriving DecidableEq, Repr

/-- `BlockRendererContainers.UL` (lines 93-101). -/
def UL : BlockRendererContainer :=
  ⟨("unordered list").toList, .ulM, some (("LI").toList), some (("UL").toList),
   true, true, .generic⟩

/-- `BlockRendererContainers.OL` (lines 103-111). -/
def OL : BlockRendererContainer :=
  ⟨("ordered list").toList, .olM, some (("LI").toList), some (("OL").toList),
   true, true, .generic⟩

/-- `BlockRendererContainers.BLOCKQUOTE` (lines 113-120). -/
def BLOCKQUOTE : BlockRendererContainer :=
  ⟨("blockquote").toList, .bqM, none, some (("BLOCKQUOTE").toList),
   true, true, .generic⟩

/-- `BlockRendererContainers.HR` (lines 122-140). -/
def HR : BlockRendererContainer :=
  ⟨("hr").toList, .hrM, none, none, false, true, .hr⟩

/-- `BlockRendererContainers.HeaderText` (lines 142-161). -/
def HeaderText : BlockRendererContainer :=
  ⟨("header text").toList, .htM, none, none, true, true, .headerText⟩

/-- Global replace of the non-breaking-space entity by its literal character:
the first replace of `prepareElevate` (line 85), fueled. -/
def nbspNormAux : Nat → Str → Str
  | 0, s => s
  | _ + 1, [] => []
  | fuel + 1, c :: t =>
    if c = '&' ∧ (['n', 'b', 's', 'p', ';']).isPrefixOf t then
      Char.ofNat 160 :: nbspNormAux fuel (t.drop 5)
    else c :: nbspNormAux fuel t

/-- Normalization with sufficient fuel. -/
def nbspNorm (s : Str) : Str :=
  nbspNormAux (s.length + 1) s

/-- Removal of the feature mark from a markup string: the second replace of
`prepareElevate` (line 85); the regexes are anchored, so only a match at the
start is removed. -/
def fmStrip (fm : FMark) (h : Str) : Str :=
  match fmLen fm h with
  | some len => h.drop len
  | none => h

/-- Feature-mark removal step of `prepareElevate` (lines 83-86): when
`removeFeatureMark` is set, the node's markup is normalized, stripped and
re-parsed into fresh children (the `innerHTML` setter re-creates them). -/
def stripNode (fm : FMark) (rm : Bool) (n : DomNode) (nid : Nat) : DomNode × Nat :=
  if rm then
    let p := parseHTML nid (fmStrip fm (nbspNorm (innerHTML n)))
    (setChildren n (ofList p.1), p.2)
  else (n, nid)

/-- Sibling context of the node being elevated: the siblings before it, the
node, the siblings after it (all children of one parent, in order), and the
next fresh node identity. -/
structure ElevCtx where
  before : List DomNode
  node : DomNode
  after : List DomNode
  nid : Nat
deriving DecidableEq, Repr

/-- Result of a successful elevation: the returned parent and child of the
source's `{parent, child}`, the parent's new child list, and the next fresh
node identity. -/
structure ElevRes where
  parent : Option DomNode
  child : DomNode
  siblings : List DomNode
  nid : Nat
deriving DecidableEq, Repr

/-- Split of a sibling list at its last element node, the DOM
`previousElementSibling` lookup: the part before it, the element, and the
(element-free) part after it. -/
def lastElemSplit : List DomNode → Option (List DomNode × DomNode × List DomNode)
  | [] => none
  | n :: rest =>
    match lastElemSplit rest with
    | some q => some (n :: q.1, q.2.1, q.2.2)
    | none => if isElem n then some ([], n, rest) else none

/-- Elevation of one node by one container: `BlockRendererContainer.Elevate`
(lines 39-71) for the generic kind, and the two overrides
`HR.Elevate` (lines 131-139) and `HeaderText.Elevate` (lines 149-160).
The feature mark is matched against the node's flattened text; on success
the mark is stripped from the markup, the child is determined (the node
itself, a fresh child-tag node receiving the children, a fresh rule node, or
a fresh header node whose level is the matched hash-run length), and for a
non-null parent tag the child is either appended to a preceding element
sibling already bearing that tag or wrapped in a fresh parent node at its
position. -/
def containerElevate (c : BlockRendererContainer) (ctx : ElevCtx) : Option ElevRes :=
  match c.kind with
  | .hr =>
    match fmLen c.featureMark (textContent ctx.node) with
    | none => none
    | some _ =>
      let p := stripNode c.featureMark c.removeFeatureMark ctx.node ctx.nid
      let child := DomNode.elem p.2 (("hr").toList) .nil
      some ⟨none, child, ctx.before ++ child :: ctx.after, p.2 + 1⟩
  | .headerText =>
    match htExec (textContent ctx.node) with
    | none => none
    | some q =>
      let p := stripNode c.featureMark c.removeFeatureMark ctx.node ctx.nid
      let child := DomNode.elem p.2 ('H' :: toBase 10 q.2) (childrenOf p.1)
      some ⟨none, child, ctx.before ++ child :: ctx.after, p.2 + 1⟩
  | .generic =>
    match fmLen c.featureMark (textContent ctx.node) with
    | none => none
    | some _ =>
      let p := stripNode c.featureMark c.removeFeatureMark ctx.node ctx.nid
      let cres : DomNode × Nat :=
        match c.childNodeName with
        | none => (p.1, p.2)
        | some cn => (DomNode.elem p.2 cn (childrenOf p.1), p.2 + 1)
      match c.parentNodeName with
      | none => some ⟨none, cres.1, ctx.before ++ cres.1 :: ctx.after, cres.2⟩
      | some pn =>
        match lastElemSplit ctx.before with
        | some q =>
          if nodeTag q.2.1 = pn then
            let merged := setChildren q.2.1
              ((childrenOf q.2.1).append (.cons cres.1 .nil))
            some ⟨some merged, cres.1, q.1 ++ merged :: (q.2.2 ++ ctx.after), cres.2⟩
          else
            let wrapper := DomNode.elem cres.2 pn (.cons cres.1 .nil)
            some ⟨some wrapper, cres.1, ctx.before ++ wrapper :: ctx.after, cres.2 + 1⟩
        | none =>
          let wrapper := DomNode.elem cres.2 pn (.cons cres.1 .nil)
          some ⟨some wrapper, cres.1, ctx.before ++ wrapper :: ctx.after, cres.2 + 1⟩

/-- First-match dispatch over the registered containers:
`BlockRenderer.Elevate` (lines 172-182). -/
def BlockRenderer.Elevate (containers : List BlockRendererContainer) (ctx : ElevCtx) :
    Option (BlockRendererContainer × ElevRes) :=
  match containers with
  | [] => none
  | c :: rest =>
    match containerElevate c ctx with
    | some r => some (c, r)
    | none => BlockRenderer.Elevate rest ctx

/-- The priority-ordered standard container set:
`BlockRenderer.markdownContainers` (lines 197-203). -/
def markdownContainers : List BlockRendererContainer :=
  [BLOCKQUOTE, HeaderText, HR, OL, UL]

/-- Elevation applied to a sibling context, yielding the possibly updated
sibling list: on no-match the context is returned untouched. -/
def elevateApply (containers : List BlockRendererContainer) (ctx : ElevCtx) :
    Option (BlockRendererContainer × ElevRes) × (List DomNode × Nat) :=
  match BlockRenderer.Elevate containers ctx with
  | some r => (some r, (r.2.siblings, r.2.nid))
  | none => (none, (ctx.before ++ ctx.node :: ctx.after, ctx.nid))

/-! Reconciliation: `DomChaos.applyTo` (VDom.ts lines 105-133). -/

/-- Forward scan for the first scratch node structurally equal to the given
live node (`snode.isEqualNode(tnode)`, line 119): returns the skipped
prefix, the matched node and the remainder. -/
def findEqSplit (l : DomNode) : List DomNode → Option (List DomNode × DomNode × List DomNode)
  | [] => none
  | s :: rest =>
    if structEq s l then some ([], s, rest)
    else
      match findEqSplit l rest with
      | some q => some (s :: q.1, q.2.1, q.2.2)
      | none => none

/-- Greedy left-to-right reconciliation of the live children against the
scratch children (the diff loop of `applyTo`, lines 111-127, followed by the
flush of lines 129-132): each live child scans the remaining scratch
children for a structurally equal one; on a match the live node replaces the
scratch duplicate in place and the scan position advances past it; on no
match the live child is dropped.  The final children are the scratch
sequence with the matched positions substituted. -/
def reconChildren : List DomNode → List DomNode → List DomNode → List DomNode
  | [], done, todo => done ++ todo
  | l :: ls, done, todo =>
    match findEqSplit l todo with
    | some q => reconChildren ls (done ++ q.1 ++ [l]) q.2.2
    | none => reconChildren ls done todo

/-- Application of the model content to a live element: `DomChaos.applyTo`.
A scratch subtree is built by parsing the materialized markup, the live
children are reconciled against it, and the target receives the result. -/
def applyTo (st : Chaos) (target : DomNode) (nid : Nat) : DomNode × Nat :=
  let p := parseHTML nid (getHTML st)
  (setChildren target (ofList (reconChildren (toList (childrenOf target)) [] p.1)), p.2)

/-! Well-formed markup grammar for the round-trip property.  A markup string
is a sequence of segments: comments, tags, escapes, the four decodable
character entities, and plain characters.  The `mk` and `lit` constructors
do not occur in input strings; they describe intermediate states of the
digestion pipeline (an extracted span replaced by a proxy mark, and a
substituted-back fragment). -/

inductive Seg where
  | comm (b : Str)
  | tag (sl : Bool) (w : Str) (a : Option Str)
  | esc (c : Char)
  | entLt | entGt | entAmp | entNbsp
  | chr (c : Char)
  | mk (m frag : Str)
  | lit (s : Str)
deriving DecidableEq, Repr

/-- Markup text of one segment. -/
def renderSeg : Seg → Str
  | .comm b => '<' :: '!' :: '-' :: '-' :: (b ++ ['-', '-', '>'])
  | .tag sl w a =>
    '<' :: ((if sl then ['/'] else []) ++ w ++ (match a with | none => [] | some x => x) ++ ['>'])
  | .esc c => ['\\', c]
  | .entLt => ['&', 'l', 't', ';']
  | .entGt => ['&', 'g', 't', ';']
  | .entAmp => ['&', 'a', 'm', 'p', ';']
  | .entNbsp => ['&', 'n', 'b', 's', 'p', ';']
  | .chr c => [c]
  | .mk m _ => m
  | .lit s => s

/-- Markup text of a segment sequence. -/
def render : List Seg → Str
  | [] => []
  | g :: l => renderSeg g ++ render l

/-- Proxy pair carried by a mark segment. -/
def mpair : Seg → Option (Str × Str)
  | .mk m frag => some (m, frag)
  | _ => none

/-- Proxy pairs of a segment sequence, in text order. -/
def mkPairs (l : List Seg) : List (Str × Str) :=
  l.filterMap mpair

/-- Substitution of a mark segment by its stored fragment. -/
def unmk : Seg → Seg
  | .mk _ frag => .lit frag
  | g => g

/-- Absence of active dollar replacement patterns, under which the
GetSubstitution expansion copies a replacement string verbatim. -/
def dollarInert : Str → Bool
  | [] => true
  | [_] => true
  | c :: d :: t =>
    if c = '$' then
      (!(d = '$' || d = '&' || d = Char.ofNat 96 || d = Char.ofNat 39)) && dollarInert (d :: t)
    else dollarInert (d :: t)

/-- Mark shape: the string is the mark of some counter value. -/
def markShape (m : Str) : Prop :=
  ∃ k, m = mkMark k

/-- Input well-formedness of one segment: the conditions under which the
digestion pipeline extracts each comment, tag and escape exactly, decodes
each entity, and leaves each plain character alone; no segment contains the
reserved mark code point, and extracted spans contain no active dollar
pattern. -/
def wfInput : Seg → Bool
  | .comm b =>
    !b.isEmpty && b.all (fun c => !isLineTerm c && !(c = Char.ofNat 0xFFFC)) &&
    !containsSub ['-', '-', '>'] b && dollarInert (renderSeg (.comm b))
  | .tag sl w a =>
    !w.isEmpty && w.all isWordChar &&
    (match a with
     | none => true
     | some x =>
       decide (2 ≤ x.length) && headIs isJsSpace x &&
       x.all (fun c => !(c = '>') && !(c = '<') && !(c = Char.ofNat 0xFFFC))) &&
    dollarInert (renderSeg (.tag sl w a))
  | .esc c => !isLineTerm c && !(c = '<') && !(c = Char.ofNat 0xFFFC)
  | .entLt => true
  | .entGt => true
  | .entAmp => true
  | .entNbsp => true
  | .chr c =>
    !(c = '&') && !(c = '<') && !(c = '>') && !(c = '\\') &&
    !(c = Char.ofNat 160) && !(c = Char.ofNat 0xFFFC)
  | .mk _ _ => false
  | .lit _ => false

/-- Attribute-part condition of a well-formed tag segment: absent, or at
least two characters starting with whitespace and free of brackets and the
reserved mark code point. -/
def attrOk : Option Str → Prop
  | none => True
  | some x => 2 ≤ x.length ∧ headIs isJsSpace x = true ∧
      ∀ c ∈ x, c ≠ '>' ∧ c ≠ '<' ∧ c ≠ Char.ofNat 0xFFFC

/-- Selector for the comment pass. -/
def isCommSeg : Seg → Bool
  | .comm _ => true
  | _ => false

/-- Selector for the tag pass. -/
def isTagSeg : Seg → Bool
  | .tag _ _ _ => true
  | _ => false

/-- Selector for the escape pass. -/
def isEscSeg : Seg → Bool
  | .esc _ => true
  | _ => false

/-- No suffix position of `x` starts a match of the matcher, whatever follows
`x`; under this condition a global scan copies `x` verbatim. -/
def NoStart (M : Str → Option (Str × Str)) (x r : Str) : Prop :=
  ∀ u v, x = u ++ v → v ≠ [] → M (v ++ r) = none

/-- Decoded text of one pipeline segment: marks stay, entities become their
literal characters, plain characters stay. -/
def decodedSeg : Seg → Str
  | .entLt => ['<']
  | .entGt => ['>']
  | .entAmp => ['&']
  | .entNbsp => [Char.ofNat 160]
  | g => renderSeg g

/-- Decoded text of the pipeline segments after entity decoding. -/
def renderDecoded : List Seg → Str
  | [] => []
  | g :: l => decodedSeg g ++ renderDecoded l

/-- Absence of the reserved mark head code point. -/
def noMarkChar (s : Str) : Prop :=
  ∀ c ∈ s, c ≠ Char.ofNat 0xFFFC

/-- Conditions under which the mark substitution of `getHTML` restores a
segment: a mark segment carries a genuine mark and a fragment free of the
reserved code point and of active dollar patterns; any other segment renders
without the reserved code point. -/
def SubOk : Seg → Prop
  | .mk m frag => markShape m ∧ noMarkChar frag ∧ dollarInert frag = true
  | g => noMarkChar (renderSeg g)

/-- Segments surviving to the entity-decoding stage: marks, entities, and
plain characters that neither start an entity nor get re-encoded. -/
def tailSeg : Seg → Prop
  | .mk m _ => markShape m
  | .entLt => True
  | .entGt => True
  | .entAmp => True
  | .entNbsp => True
  | .chr c => c ≠ '&' ∧ c ≠ '<' ∧ c ≠ '>' ∧ c ≠ Char.ofNat 160
  | _ => False

/-- No non-empty suffix of `x`, whatever follows it, begins with `pat`. -/
def NoPre (pat x : Str) : Prop :=
  ∀ u v r, x = u ++ v → v ≠ [] → pat.isPrefixOf (v ++ r) = false

/-- Bracket-freeness of the optional attribute part. -/
def attrNoLt : Option Str → Prop
  | none => True
  | some x => ∀ c ∈ x, c ≠ '<'

/-- Attribute-part hypothesis of the exact tag match. -/
def attrMatchOk : Option Str → Prop
  | none => True
  | some x => 2 ≤ x.length ∧ headIs isJsSpace x = true ∧ ∀ c ∈ x, c ≠ '>'

/-- Effect of one extraction pass on one segment: either copied verbatim
(not selected), or replaced by a mark segment storing its markup. -/
def passRel (E : Seg → Bool) (g h : Seg) : Prop :=
  (E g = false ∧ h = g) ∨ (E g = true ∧ ∃ m, h = Seg.mk m (renderSeg g) ∧ markShape m)

/-- Net effect of the whole digestion on one input segment: entities and
plain characters survive; comments, tags and escapes become mark segments
storing their markup. -/
def finRel (g h : Seg) : Prop :=
  (h = g ∧ mpair g = none ∧ tailSeg g) ∨ ∃ m, h = Seg.mk m (renderSeg g) ∧ markShape m


/-! Theorems. -/

theorem toBaseAux_fuel (b : Nat) :
    ∀ m fuel n, n ≤ m → n < fuel → toBaseAux b fuel n = toBase b n := by
  intro m
  induction m with
  | zero =>
    intro fuel n hm hf
    match n, hm with
    | 0, _ =>
      match fuel, hf with
      | f + 1, _ =>
        have hc : 0 < b ∨ b ≤ 1 := by omega
        rw [toBase, toBaseAux, toBaseAux, if_pos hc, if_pos hc]
  | succ m ih =>
    intro fuel n hm hf
    match fuel, hf with
    | f + 1, _ =>
      rw [toBase, toBaseAux]
      conv_rhs => rw [toBaseAux]
      by_cases hc : n < b ∨ b ≤ 1
      · rw [if_pos hc, if_pos hc]
      · rw [if_neg hc, if_neg hc]
        push_neg at hc
        have hdiv : n / b < n := Nat.div_lt_self (by omega) hc.2
        rw [ih f (n / b) (by omega) (by omega), ih n (n / b) (by omega) (by omega)]

/-- Unfolding equation of `toBase`. -/
theorem toBase_eq (b n : Nat) :
    toBase b n =
      if n < b ∨ b ≤ 1 then [digitChar n]
      else toBase b (n / b) ++ [digitChar (n % b)] := by
  rw [toBase, toBaseAux]
  by_cases hc : n < b ∨ b ≤ 1
  · rw [if_pos hc, if_pos hc]
  · rw [if_neg hc, if_neg hc]
    push_neg at hc
    have hdiv : n / b < n := Nat.div_lt_self (by omega) hc.2
    rw [toBaseAux_fuel b n n (n / b) (by omega) (by omega)]

/-! Basic properties of marks. -/

theorem digitChar_lt_128 {n : Nat} (h : n < 36) : (digitChar n).val < 128 := by
  interval_cases n <;> decide

theorem digitChar_inj {m n : Nat} (hm : m < 36) (hn : n < 36)
    (h : digitChar m = digitChar n) : m = n := by
  interval_cases m <;> interval_cases n <;> simp_all <;> revert h <;> decide

theorem toBase36_digits (n : Nat) : ∀ c ∈ toBase 36 n, isB36Digit c := by
  induction n using Nat.strong_induction_on with
  | _ n ih =>
    rw [toBase_eq]
    by_cases h : n < 36 ∨ 36 ≤ 1
    · simp only [if_pos h]
      rcases h with h | h
      · intro c hc
        simp only [List.mem_singleton] at hc
        subst hc
        interval_cases n <;> decide
      · omega
    · simp only [if_neg h, List.mem_append, List.mem_singleton]
      push_neg at h
      intro c hc
      rcases hc with hc | hc
      · exact ih (n / 36) (Nat.div_lt_self (by omega) (by omega)) c hc
      · subst hc
        have : n % 36 < 36 := Nat.mod_lt _ (by omega)
        set m := n % 36
        interval_cases m <;> decide

theorem toBase_ne_nil (b n : Nat) : toBase b n ≠ [] := by
  rw [toBase_eq]
  by_cases h : n < b ∨ b ≤ 1 <;> simp [h]

theorem toBase_lt36 {n : Nat} (h : n < 36) : toBase 36 n = [digitChar n] := by
  rw [toBase_eq]
  simp [h]

theorem toBase_ge36 {n : Nat} (h : 36 ≤ n) :
    toBase 36 n = toBase 36 (n / 36) ++ [digitChar (n % 36)] := by
  rw [toBase_eq]
  have hno : ¬(n < 36 ∨ 36 ≤ 1) := by omega
  rw [if_neg hno]

theorem toBase36_inj : ∀ m n : Nat, toBase 36 m = toBase 36 n → m = n := by
  intro m
  induction m using Nat.strong_induction_on with
  | _ m ih =>
    intro n h
    by_cases hm : m < 36 <;> by_cases hn : n < 36
    · rw [toBase_lt36 hm, toBase_lt36 hn] at h
      simp only [List.cons.injEq] at h
      exact digitChar_inj hm hn h.1
    · rw [toBase_lt36 hm, toBase_ge36 (by omega)] at h
      have hl := congrArg List.length h
      simp only [List.length_singleton, List.length_append] at hl
      have h0 : (toBase 36 (n / 36)).length = 0 := by omega
      exact absurd (List.length_eq_zero.mp h0) (toBase_ne_nil 36 (n / 36))
    · rw [toBase_ge36 (by omega), toBase_lt36 hn] at h
      have hl := congrArg List.length h
      simp only [List.length_singleton, List.length_append] at hl
      have h0 : (toBase 36 (m / 36)).length = 0 := by omega
      exact absurd (List.length_eq_zero.mp h0) (toBase_ne_nil 36 (m / 36))
    · rw [toBase_ge36 (show 36 ≤ m by omega), toBase_ge36 (show 36 ≤ n by omega)] at h
      have hlen : (toBase 36 (m / 36)).length = (toBase 36 (n / 36)).length := by
        have hl := congrArg List.length h
        simp only [List.length_append, List.length_singleton] at hl
        omega
      have h1 := List.append_inj_left h hlen
      have h2 := List.append_inj_right h hlen
      have hd : m % 36 = n % 36 := by
        simp only [List.cons.injEq] at h2
        exact digitChar_inj (Nat.mod_lt _ (by omega)) (Nat.mod_lt _ (by omega)) h2.1
      have hq : m / 36 = n / 36 :=
        ih (m / 36) (Nat.div_lt_self (by omega) (by omega)) (n / 36) h1
      omega

theorem mkMark_inj {m n : Nat} (h : mkMark m = mkMark n) : m = n := by
  simp only [mkMark, List.cons.injEq] at h
  exact toBase36_inj m n (List.append_inj_left h.2.2 (by
    have hl := congrArg List.length h.2.2
    simp only [List.length_append, List.length_singleton] at hl
    omega))

theorem toBase_length_ge (n e : Nat) (h : 36 ^ e ≤ n) :
    e + 1 ≤ (toBase 36 n).length := by
  induction e generalizing n with
  | zero =>
    have := toBase_ne_nil 36 n
    cases htb : toBase 36 n with
    | nil => exact absurd htb this
    | cons a l => simp
  | succ e ih =>
    rw [toBase_eq]
    have h36 : 36 ≤ n := le_trans (by
      calc 36 = 36 ^ 1 := (pow_one 36).symm
      _ ≤ 36 ^ (e + 1) := Nat.pow_le_pow_right (by omega) (by omega)) h
    have hcond : ¬(n < 36 ∨ 36 ≤ 1) := by omega
    simp only [if_neg hcond, List.length_append, List.length_singleton]
    have : 36 ^ e ≤ n / 36 := by
      rw [Nat.le_div_iff_mul_le (by omega)]
      calc 36 ^ e * 36 = 36 ^ (e + 1) := by ring
      _ ≤ n := h
    have := ih (n / 36) this
    omega

theorem containsSub_length {p s : Str} (h : containsSub p s = true) :
    p.length ≤ s.length := by
  induction s with
  | nil =>
    simp only [containsSub, List.isEmpty_iff] at h
    simp [h]
  | cons c t ih =>
    simp only [containsSub, Bool.or_eq_true] at h
    rcases h with h | h
    · exact (List.isPrefixOf_iff_prefix.mp h).length_le
    · have := ih h
      simp only [List.length_cons]
      omega

theorem mkMark_length (k : Nat) : (mkMark k).length = (toBase 36 k).length + 3 := by
  simp [mkMark]

/-- Existence of a collision-free mark: for every text and start counter there
is a candidate at distance at most `36 ^ text.length` whose mark is longer
than the text and hence cannot occur in it. -/
theorem free_mark_exists (text : Str) (k : Nat) :
    containsSub (mkMark (k + 36 ^ text.length)) text = false := by
  by_contra h
  rw [Bool.not_eq_false] at h
  have hlen := containsSub_length h
  rw [mkMark_length] at hlen
  have := toBase_length_ge (k + 36 ^ text.length) text.length (by omega)
  omega

theorem findMarkAux_spec (text : Str) :
    ∀ fuel k, (∃ d, d < fuel ∧ containsSub (mkMark (k + d)) text = false) →
      containsSub (mkMark (findMarkAux text fuel k)) text = false ∧
      k ≤ findMarkAux text fuel k ∧
      ∀ j, k ≤ j → j < findMarkAux text fuel k → containsSub (mkMark j) text = true := by
  intro fuel
  induction fuel with
  | zero =>
    intro k h
    obtain ⟨d, hd, _⟩ := h
    omega
  | succ fuel ih =>
    intro k h
    rw [findMarkAux]
    by_cases hc : containsSub (mkMark k) text = true
    · rw [if_pos hc]
      obtain ⟨d, hd, hfree⟩ := h
      have hd0 : d ≠ 0 := by
        intro h0
        rw [h0, Nat.add_zero] at hfree
        rw [hc] at hfree
        exact absurd hfree (by simp)
      have := ih (k + 1) ⟨d - 1, by omega, by
        have : k + 1 + (d - 1) = k + d := by omega
        rw [this]
        exact hfree⟩
      refine ⟨this.1, by omega, ?_⟩
      intro j hj hjlt
      rcases Nat.eq_or_lt_of_le hj with rfl | hj1
      · exact hc
      · exact this.2.2 j (by omega) hjlt
    · rw [if_neg hc]
      rw [Bool.not_eq_true] at hc
      exact ⟨hc, le_refl _, by omega⟩

/-- Specification of `findMark`: it returns the least counter value at or
after `k` whose mark does not occur in `text` (the exit value of the
do-while loop in `nextMark`). -/
theorem findMark_spec (text : Str) (k : Nat) :
    containsSub (mkMark (findMark text k)) text = false ∧
    k ≤ findMark text k ∧
    ∀ j, k ≤ j → j < findMark text k → containsSub (mkMark j) text = true := by
  exact findMarkAux_spec text (36 ^ text.length + 1) k
    ⟨36 ^ text.length, by omega, free_mark_exists text k⟩

/-! Decomposition lemmas: a successful match splits the scanned string, which
in particular bounds the remainder and gives termination of the scan loops. -/

theorem commentBody_decomp :
    ∀ t b r, commentBody t = some (b, r) → t = b ++ ('-' :: '-' :: '>' :: r) ∧ b ≠ [] := by
  intro t
  induction t with
  | nil => intro b r h; simp [commentBody] at h
  | cons c t ih =>
    intro b r h
    rw [commentBody] at h
    split at h
    · exact absurd h (by simp)
    · split at h
      · next hpre =>
        simp only [Option.some.injEq, Prod.mk.injEq] at h
        obtain ⟨hb, hr⟩ := h
        subst hb
        subst hr
        obtain ⟨u, hu⟩ := List.isPrefixOf_iff_prefix.mp hpre
        refine ⟨?_, by simp⟩
        rw [← hu]
        simp
      · split at h
        · next p hp =>
          simp only [Option.some.injEq, Prod.mk.injEq] at h
          obtain ⟨hb, hr⟩ := h
          obtain ⟨ht, _⟩ := ih p.1 p.2 hp
          subst hb
          rw [← hr, ht]
          simp
        · exact absurd h (by simp)

theorem commentMatch_decomp {s m r : Str} (h : commentMatch s = some (m, r)) :
    s = m ++ r ∧ m ≠ [] := by
  rw [commentMatch] at h
  split at h
  · next hpre =>
    split at h
    · next p hp =>
      simp only [Option.some.injEq, Prod.mk.injEq] at h
      obtain ⟨hm, hr⟩ := h
      obtain ⟨ht, _⟩ := commentBody_decomp _ _ _ hp
      obtain ⟨u, hu⟩ := List.isPrefixOf_iff_prefix.mp hpre
      have hs : s = '<' :: '!' :: '-' :: '-' :: s.drop 4 := by
        rw [← hu]
        simp
      rw [hs, ht, ← hm, ← hr]
      simp
    · exact absurd h (by simp)
  · exact absurd h (by simp)

theorem wordRun_decomp : ∀ t, t = (wordRun t).1 ++ (wordRun t).2 := by
  intro t
  induction t with
  | nil => simp [wordRun]
  | cons c t ih =>
    rw [wordRun]
    split
    · simpa using ih
    · simp

theorem slashSplit_decomp : ∀ t, t = (slashSplit t).1 ++ (slashSplit t).2 := by
  intro t
  match t with
  | [] => simp [slashSplit]
  | c :: t =>
    rw [slashSplit]
    split
    · next hc => simp [hc]
    · simp

theorem splitBeforeGt_decomp :
    ∀ t p q, splitBeforeGt t = some (p, q) → t = p ++ ('>' :: q) := by
  intro t
  induction t with
  | nil => intro p q h; simp [splitBeforeGt] at h
  | cons c t ih =>
    intro p q h
    rw [splitBeforeGt] at h
    split at h
    · next hc =>
      simp only [Option.some.injEq, Prod.mk.injEq] at h
      obtain ⟨hp, hq⟩ := h
      subst hc
      rw [← hp, ← hq]
      simp
    · split at h
      · next p2 hp2 =>
        simp only [Option.some.injEq, Prod.mk.injEq] at h
        obtain ⟨hp, hq⟩ := h
        have := ih p2.1 p2.2 hp2
        rw [← hp, ← hq, this]
        simp
      · exact absurd h (by simp)

theorem headIs_decomp {p : Char → Bool} {s : Str} (h : headIs p s = true) :
    s = s.head! :: s.tail := by
  match s with
  | [] => simp [headIs] at h
  | c :: t => simp

theorem tagMatch_decomp {s m r : Str} (h : tagMatch s = some (m, r)) :
    s = m ++ r ∧ m ≠ [] := by
  match s with
  | [] => simp [tagMatch] at h
  | a :: t =>
    rw [tagMatch] at h
    rcases hsl : slashSplit t with ⟨s1, s2⟩
    rcases hw : wordRun s2 with ⟨w1, w2⟩
    have h1 : t = s1 ++ s2 := by
      have := slashSplit_decomp t
      rwa [hsl] at this
    have h2 : s2 = w1 ++ w2 := by
      have := wordRun_decomp s2
      rwa [hw] at this
    rw [hsl] at h
    simp only at h
    rw [hw] at h
    simp only at h
    split at h
    · next ha =>
      split at h
      · exact absurd h (by simp)
      · split at h
        · next hgt =>
          simp only [Option.some.injEq, Prod.mk.injEq] at h
          obtain ⟨hm, hr⟩ := h
          have hw2 : w2 = '>' :: w2.drop 1 := by
            match w2 with
            | [] => simp [headIs] at hgt
            | c :: t2 =>
              simp only [headIs, decide_eq_true_eq] at hgt
              rw [hgt]
              simp
          subst ha
          rw [← hm, ← hr]
          refine ⟨?_, by simp⟩
          simp only [List.cons_append, List.cons.injEq, true_and, List.append_assoc]
          rw [h1, h2]
          conv_lhs => rw [hw2]
          simp
        · split at h
          · next p hp =>
            split at h
            · simp only [Option.some.injEq, Prod.mk.injEq] at h
              obtain ⟨hm, hr⟩ := h
              subst ha
              rw [← hm, ← hr]
              refine ⟨?_, by simp⟩
              have h3 := splitBeforeGt_decomp _ _ _ hp
              simp only [List.cons_append, List.cons.injEq, true_and, List.append_assoc]
              rw [h1, h2, h3]
              simp
            · exact absurd h (by simp)
          · exact absurd h (by simp)
    · exact absurd h (by simp)

theorem escMatch_decomp {s m r : Str} (h : escMatch s = some (m, r)) :
    s = m ++ r ∧ m ≠ [] := by
  match s with
  | [] => simp [escMatch] at h
  | [c] => simp [escMatch] at h
  | a :: c :: t =>
    rw [escMatch] at h
    split at h
    · simp only [Option.some.injEq, Prod.mk.injEq] at h
      obtain ⟨hm, hr⟩ := h
      rw [← hm, ← hr]
      simp
    · exact absurd h (by simp)

theorem match_rest_lt {s m r : Str} (he : s = m ++ r) (hne : m ≠ []) :
    r.length < s.length := by
  subst he
  cases m with
  | nil => exact absurd rfl hne
  | cons a l => simp only [List.length_append, List.length_cons]; omega

theorem commentMatch_splits : Splits commentMatch := fun _ _ _ h => commentMatch_decomp h

theorem tagMatch_splits : Splits tagMatch := fun _ _ _ h => tagMatch_decomp h

theorem escMatch_splits : Splits escMatch := fun _ _ _ h => escMatch_decomp h

/-- Fuel irrelevance: with any fuel exceeding the string length the scan
computes the same result, hence `scanPass` implements the unbounded scan. -/
theorem scanAux_fuel_aux {M : Str → Option (Str × Str)} (hM : Splits M) :
    ∀ n s fuel st, s.length ≤ n → s.length < fuel →
      scanAux M fuel st s = scanAux M (s.length + 1) st s := by
  intro n
  induction n with
  | zero =>
    intro s fuel st hn hf
    match s, hn with
    | [], _ =>
      match fuel, hf with
      | f + 1, _ => rfl
  | succ n ih =>
    intro s fuel st hn hf
    match s with
    | [] =>
      match fuel, hf with
      | f + 1, _ => rfl
    | c :: t =>
      cases fuel with
      | zero => omega
      | succ f =>
        have hn1 : t.length ≤ n := by
          simp only [List.length_cons] at hn
          omega
        have hf1 : t.length < f := by
          simp only [List.length_cons] at hf
          omega
        rw [scanAux]
        conv_rhs => rw [List.length_cons, scanAux]
        cases hm : M (c :: t) with
        | some p =>
          simp only
          obtain ⟨he, hne⟩ := hM _ _ _ hm
          have hlt2 : p.2.length < (c :: t).length := match_rest_lt he hne
          simp only [List.length_cons] at hlt2
          rw [ih p.2 f _ (by omega) (by omega), ih p.2 (t.length + 1) _ (by omega) (by omega)]
        | none =>
          simp only
          rw [ih t f _ (by omega) (by omega), ih t (t.length + 1) _ (by omega) (by omega)]

theorem scanAux_fuel {M : Str → Option (Str × Str)} (hM : Splits M)
    {fuel : Nat} {s : Str} (st : Chaos) (h : s.length < fuel) :
    scanAux M fuel st s = scanPass M st s :=
  scanAux_fuel_aux hM s.length s fuel st (le_refl _) h

/-- Unfolding equation of `scanPass` on the empty string. -/
theorem scanPass_nil (M : Str → Option (Str × Str)) (st : Chaos) :
    scanPass M st [] = ([], st) := rfl

/-- Unfolding equation of `scanPass` at a match: the match is replaced by a
fresh mark and the scan continues after it. -/
theorem scanPass_match {M : Str → Option (Str × Str)} (hM : Splits M)
    {c : Char} {t : Str} {p : Str × Str} (hm : M (c :: t) = some p) (st : Chaos) :
    scanPass M st (c :: t) =
      ((createProxy st p.1).1 ++ (scanPass M (createProxy st p.1).2 p.2).1,
       (scanPass M (createProxy st p.1).2 p.2).2) := by
  have hlt : p.2.length < t.length + 1 := by
    obtain ⟨he, hne⟩ := hM _ _ _ hm
    simpa using match_rest_lt he hne
  rw [scanPass]
  simp only [List.length_cons]
  rw [scanAux, hm]
  simp only
  rw [scanAux_fuel hM _ hlt]

/-- Unfolding equation of `scanPass` at a non-match: the character is copied
and the scan continues at the next position. -/
theorem scanPass_nomatch {M : Str → Option (Str × Str)} (hM : Splits M)
    {c : Char} {t : Str} (hm : M (c :: t) = none) (st : Chaos) :
    scanPass M st (c :: t) = (c :: (scanPass M st t).1, (scanPass M st t).2) := by
  rw [scanPass]
  simp only [List.length_cons]
  rw [scanAux, hm]
  simp only
  rw [scanAux_fuel hM _ (by omega)]

theorem entDecodeAux_fuel :
    ∀ m fuel s, s.length ≤ m → s.length < fuel →
      entDecodeAux fuel s = html_entity_decode s := by
  intro m
  induction m with
  | zero =>
    intro fuel s hm hf
    match s, hm with
    | [], _ =>
      match fuel, hf with
      | f + 1, _ => rfl
  | succ m ih =>
    intro fuel s hm hf
    match s with
    | [] =>
      cases fuel with
      | zero => omega
      | succ f => rfl
    | c :: t =>
      cases fuel with
      | zero => omega
      | succ f =>
        simp only [List.length_cons] at hm hf
        rw [html_entity_decode]
        simp only [List.length_cons]
        rw [entDecodeAux]
        conv_rhs => rw [entDecodeAux]
        by_cases hamp : c = '&'
        · rw [if_pos hamp, if_pos hamp]
          by_cases p1 : (['l', 't', ';']).isPrefixOf t
          · rw [if_pos p1, if_pos p1]
            have hd : (t.drop 3).length ≤ t.length := by
              simp only [List.length_drop]
              omega
            rw [ih f (t.drop 3) (by omega) (by omega),
                ih (t.length + 1) (t.drop 3) (by omega) (by omega)]
          · rw [if_neg p1, if_neg p1]
            by_cases p2 : (['g', 't', ';']).isPrefixOf t
            · rw [if_pos p2, if_pos p2]
              have hd : (t.drop 3).length ≤ t.length := by
                simp only [List.length_drop]
                omega
              rw [ih f (t.drop 3) (by omega) (by omega),
                  ih (t.length + 1) (t.drop 3) (by omega) (by omega)]
            · rw [if_neg p2, if_neg p2]
              by_cases p3 : (['a', 'm', 'p', ';']).isPrefixOf t
              · rw [if_pos p3, if_pos p3]
                have hd : (t.drop 4).length ≤ t.length := by
                  simp only [List.length_drop]
                  omega
                rw [ih f (t.drop 4) (by omega) (by omega),
                    ih (t.length + 1) (t.drop 4) (by omega) (by omega)]
              · rw [if_neg p3, if_neg p3]
                by_cases p4 : (['n', 'b', 's', 'p', ';']).isPrefixOf t
                · rw [if_pos p4, if_pos p4]
                  have hd : (t.drop 5).length ≤ t.length := by
                    simp only [List.length_drop]
                    omega
                  rw [ih f (t.drop 5) (by omega) (by omega),
                      ih (t.length + 1) (t.drop 5) (by omega) (by omega)]
                · rw [if_neg p4, if_neg p4]
                  rw [ih f t (by omega) (by omega),
                      ih (t.length + 1) t (by omega) (by omega)]
        · rw [if_neg hamp, if_neg hamp]
          rw [ih f t (by omega) (by omega), ih (t.length + 1) t (by omega) (by omega)]

/-- Unfolding equation of `html_entity_decode` on a non-empty string. -/
theorem html_entity_decode_cons (c : Char) (t : Str) :
    html_entity_decode (c :: t) =
      if c = '&' then
        if (['l', 't', ';']).isPrefixOf t then '<' :: html_entity_decode (t.drop 3)
        else if (['g', 't', ';']).isPrefixOf t then '>' :: html_entity_decode (t.drop 3)
        else if (['a', 'm', 'p', ';']).isPrefixOf t then '&' :: html_entity_decode (t.drop 4)
        else if (['n', 'b', 's', 'p', ';']).isPrefixOf t then
          Char.ofNat 160 :: html_entity_decode (t.drop 5)
        else c :: html_entity_decode t
      else c :: html_entity_decode t := by
  rw [html_entity_decode]
  simp only [List.length_cons]
  rw [entDecodeAux]
  have hd3 : (t.drop 3).length ≤ t.length := by
    simp only [List.length_drop]
    omega
  have hd4 : (t.drop 4).length ≤ t.length := by
    simp only [List.length_drop]
    omega
  have hd5 : (t.drop 5).length ≤ t.length := by
    simp only [List.length_drop]
    omega
  by_cases hamp : c = '&'
  · rw [if_pos hamp, if_pos hamp]
    by_cases p1 : (['l', 't', ';']).isPrefixOf t
    · rw [if_pos p1, if_pos p1, entDecodeAux_fuel t.length (t.length + 1) _ (by omega) (by omega)]
    · rw [if_neg p1, if_neg p1]
      by_cases p2 : (['g', 't', ';']).isPrefixOf t
      · rw [if_pos p2, if_pos p2, entDecodeAux_fuel t.length (t.length + 1) _ (by omega) (by omega)]
      · rw [if_neg p2, if_neg p2]
        by_cases p3 : (['a', 'm', 'p', ';']).isPrefixOf t
        · rw [if_pos p3, if_pos p3, entDecodeAux_fuel t.length (t.length + 1) _ (by omega) (by omega)]
        · rw [if_neg p3, if_neg p3]
          by_cases p4 : (['n', 'b', 's', 'p', ';']).isPrefixOf t
          · rw [if_pos p4, if_pos p4, entDecodeAux_fuel t.length (t.length + 1) _ (by omega) (by omega)]
          · rw [if_neg p4, if_neg p4, entDecodeAux_fuel t.length (t.length + 1) t (by omega) (by omega)]
  · rw [if_neg hamp, if_neg hamp, entDecodeAux_fuel t.length (t.length + 1) t (by omega) (by omega)]

theorem StInv_reset (text : Str) : StInv { text := text, storage := [], markCount := 0 } :=
  ⟨[], by simp, by simp, by simp⟩

theorem createProxy_state (st : Chaos) (x : Str) :
    (createProxy st x).2.text = st.text ∧
    st.markCount < (createProxy st x).2.markCount ∧
    (createProxy st x).2.storage = st.storage ++ [((createProxy st x).1, x)] ∧
    (createProxy st x).1 = mkMark ((createProxy st x).2.markCount) := by
  have h := (findMark_spec st.text (st.markCount + 1)).2.1
  refine ⟨rfl, ?_, rfl, rfl⟩
  simp only [createProxy, nextMark]
  omega

theorem createProxy_inv {st : Chaos} (h : StInv st) (x : Str) :
    StInv (createProxy st x).2 := by
  obtain ⟨ks, hmap, hchain, hbound⟩ := h
  obtain ⟨_, hlt, hstor, hmk⟩ := createProxy_state st x
  refine ⟨ks ++ [(createProxy st x).2.markCount], ?_, ?_, ?_⟩
  · rw [hstor]
    simp only [List.map_append, List.map_cons, List.map_nil, hmap, hmk]
  · rw [List.chain'_append]
    refine ⟨hchain, List.chain'_singleton _, ?_⟩
    intro a ha b hb
    simp only [List.head?_cons, Option.mem_def, Option.some.injEq] at hb
    subst hb
    have := hbound a (List.mem_of_mem_getLast? ha)
    omega
  · intro j hj
    rcases List.mem_append.mp hj with hj | hj
    · have := hbound j hj
      omega
    · simp only [List.mem_singleton] at hj
      omega

/-- State effect of a scan pass: the text field is untouched, the counter
only grows, the storage is extended at the end, and well-formedness is
preserved. -/
theorem scanPass_state {M : Str → Option (Str × Str)} (hM : Splits M) :
    ∀ n s st, s.length ≤ n → StInv st →
      (StInv (scanPass M st s).2 ∧
       st.markCount ≤ (scanPass M st s).2.markCount ∧
       (scanPass M st s).2.text = st.text ∧
       ∃ news, (scanPass M st s).2.storage = st.storage ++ news) := by
  intro n
  induction n with
  | zero =>
    intro s st hn hinv
    match s, hn with
    | [], _ =>
      rw [scanPass_nil]
      exact ⟨hinv, le_refl _, rfl, [], by simp⟩
  | succ n ih =>
    intro s st hn hinv
    match s with
    | [] =>
      rw [scanPass_nil]
      exact ⟨hinv, le_refl _, rfl, [], by simp⟩
    | c :: t =>
      simp only [List.length_cons] at hn
      cases hm : M (c :: t) with
      | some p =>
        rw [scanPass_match hM hm]
        dsimp only
        obtain ⟨he, hne⟩ := hM _ _ _ hm
        have hplen : p.2.length ≤ n := by
          have := match_rest_lt he hne
          simp only [List.length_cons] at this
          omega
        obtain ⟨ht, hcnt, hstor, _⟩ := createProxy_state st p.1
        obtain ⟨i1, i2, i3, news, i4⟩ := ih p.2 (createProxy st p.1).2 hplen (createProxy_inv hinv p.1)
        refine ⟨i1, by omega, by rw [i3, ht], ?_⟩
        exact ⟨[((createProxy st p.1).1, p.1)] ++ news, by rw [i4, hstor]; simp⟩
      | none =>
        rw [scanPass_nomatch hM hm]
        exact ih t st (by omega) hinv

/-- State effect of `digestHTML`: text untouched, storage extended, counter
grown, well-formedness preserved. -/
theorem digestHTML_state (st : Chaos) (html : Str) (hinv : StInv st) :
    StInv (digestHTML st html).2 ∧
    st.markCount ≤ (digestHTML st html).2.markCount ∧
    (digestHTML st html).2.text = st.text ∧
    ∃ news, (digestHTML st html).2.storage = st.storage ++ news := by
  rw [digestHTML]
  simp only
  obtain ⟨a1, a2, a3, n1, a4⟩ :=
    scanPass_state commentMatch_splits html.length html st (le_refl _) hinv
  obtain ⟨b1, b2, b3, n2, b4⟩ :=
    scanPass_state tagMatch_splits _ _ (scanPass commentMatch st html).2 (le_refl _) a1
  obtain ⟨c1, c2, c3, n3, c4⟩ :=
    scanPass_state escMatch_splits _ _ _ (le_refl _) b1
  refine ⟨c1, by omega, by rw [c3, b3, a3], ?_⟩
  exact ⟨n1 ++ n2 ++ n3, by rw [c4, b4, a4]; simp⟩

/-- Storage keys of a well-formed state are pairwise distinct. -/
theorem StInv_keys_distinct {st : Chaos} (h : StInv st) :
    (st.storage.map Prod.fst).Pairwise (· ≠ ·) := by
  obtain ⟨ks, hmap, hchain, _⟩ := h
  rw [hmap]
  rw [List.chain'_iff_pairwise] at hchain
  rw [List.pairwise_map]
  exact hchain.imp (fun hab hmk => absurd (mkMark_inj hmk) (Nat.ne_of_lt hab))

theorem markSeq_counters :
    ∀ ts k m, m ∈ markSeq k ts → ∃ j, k < j ∧ m = mkMark j := by
  intro ts
  induction ts with
  | nil => simp [markSeq]
  | cons t ts ih =>
    intro k m hm
    rw [markSeq] at hm
    simp only [List.mem_cons] at hm
    have hk := (findMark_spec t (k + 1)).2.1
    rcases hm with rfl | hm
    · exact ⟨findMark t (k + 1), by omega, rfl⟩
    · obtain ⟨j, hj, rfl⟩ := ih _ m hm
      simp only [nextMark] at hj
      exact ⟨j, by omega, rfl⟩

/-- C4: mark safety invariant.  Along any sequence of `nextMark` calls within
one model lifetime (counter threaded, no reset, the text at each call
arbitrary), every returned mark fails to occur in the model text current at
its generation, and the returned marks are pairwise distinct; consequently
the storage keys accumulated by a load are pairwise distinct, as shown for
`setHTML` in the final conjunct. -/
theorem nextMark_mark_safety (k : Nat) (ts : List Str) :
    List.Forall₂ (fun m t => containsSub m t = false) (markSeq k ts) ts ∧
    (markSeq k ts).Pairwise (· ≠ ·) ∧
    ∀ st html, ((setHTML st html).storage.map Prod.fst).Pairwise (· ≠ ·) := by
  refine ⟨?_, ?_, ?_⟩
  · induction ts generalizing k with
    | nil => simp [markSeq]
    | cons t ts ih =>
      rw [markSeq]
      refine List.Forall₂.cons ?_ (ih _)
      simpa [nextMark] using (findMark_spec t (k + 1)).1
  · induction ts generalizing k with
    | nil => simp [markSeq]
    | cons t ts ih =>
      rw [markSeq]
      refine List.Pairwise.cons ?_ (ih _)
      intro m hm
      obtain ⟨j, hj, rfl⟩ := markSeq_counters ts _ m hm
      simp only [nextMark] at hj ⊢
      intro hEq
      have := mkMark_inj hEq
      omega
  · intro st html
    have h0 := StInv_reset st.text
    obtain ⟨hinv, _, _, _⟩ := digestHTML_state { text := st.text, storage := [], markCount := 0 } html h0
    have : (setHTML st html).storage = (digestHTML { text := st.text, storage := [], markCount := 0 } html).2.storage := rfl
    rw [this]
    exact StInv_keys_distinct hinv

/-- Witness for C4 at concrete inputs: two calls over texts that force a
collision skip still produce distinct, collision-free marks. -/
theorem nextMark_mark_safety_witness :
    List.Forall₂ (fun m t => containsSub m t = false)
      (markSeq 0 [mkMark 1, mkMark 2]) [mkMark 1, mkMark 2] ∧
    (markSeq 0 [mkMark 1, mkMark 2]).Pairwise (· ≠ ·) := by
  exact ⟨(nextMark_mark_safety 0 [mkMark 1, mkMark 2]).1,
         (nextMark_mark_safety 0 [mkMark 1, mkMark 2]).2.1⟩

/-- C10: the mark generator always terminates.  For every model state there
is a collision-free candidate counter (a mark longer than the text cannot
occur in it), and `nextMark` — total by construction — returns the first
one: its mark does not occur in the current text, its counter strictly
exceeds the stored one, and every skipped candidate did occur in the text.
`createProxy`, and with it `digestHTML` and the replace operation, are
therefore total. -/
theorem nextMark_terminates (st : Chaos) :
    (∃ k, st.markCount < k ∧ containsSub (mkMark k) st.text = false) ∧
    containsSub (nextMark st).1 st.text = false ∧
    st.markCount < (nextMark st).2 ∧
    (nextMark st).1 = mkMark ((nextMark st).2) ∧
    ∀ j, st.markCount < j → j < (nextMark st).2 →
      containsSub (mkMark j) st.text = true := by
  obtain ⟨h1, h2, h3⟩ := findMark_spec st.text (st.markCount + 1)
  refine ⟨⟨findMark st.text (st.markCount + 1), by omega, h1⟩, ?_, ?_, rfl, ?_⟩
  · simpa [nextMark] using h1
  · simp only [nextMark]
    omega
  · intro j hj1 hj2
    simp only [nextMark] at hj2
    exact h3 j (by omega) hj2

/-- Witness for C10: with the text being the very first candidate mark, the
generator skips it and returns the second, collision-free one. -/
theorem nextMark_terminates_witness :
    containsSub (nextMark ⟨mkMark 1, [], 0⟩).1 (mkMark 1) = false ∧
    0 < (nextMark ⟨mkMark 1, [], 0⟩).2 := by
  exact ⟨(nextMark_terminates ⟨mkMark 1, [], 0⟩).2.1,
         (nextMark_terminates ⟨mkMark 1, [], 0⟩).2.2.1⟩

theorem scanPass_id {M : Str → Option (Str × Str)} (hM : Splits M) :
    ∀ s st, scanClean M s = true → scanPass M st s = (s, st) := by
  intro s
  induction s with
  | nil => intro st _; exact scanPass_nil M st
  | cons c t ih =>
    intro st hc
    rw [scanClean] at hc
    simp only [Bool.and_eq_true, Option.isNone_iff_eq_none] at hc
    rw [scanPass_nomatch hM hc.1, ih st hc.2]

/-- Amended C3 (first half): `digestHTML` is a no-op — same text, no new
proxy entries, state untouched — on every clean string. -/
theorem digestHTML_noop_aux {st : Chaos} {s : Str} (h : cleanStr s = true) :
    digestHTML st s = (s, st) := by
  rw [cleanStr] at h
  simp only [Bool.and_eq_true, beq_iff_eq] at h
  obtain ⟨⟨⟨h1, h2⟩, h3⟩, h4⟩ := h
  rw [digestHTML]
  simp only [scanPass_id commentMatch_splits s st h1]
  simp only [scanPass_id tagMatch_splits s st h2]
  simp only [scanPass_id escMatch_splits s st h3]
  simp only [h4]

/-! Cleanliness of the marks themselves. -/

theorem commentMatch_none_head {c : Char} (hc : c ≠ '<') (t : Str) :
    commentMatch (c :: t) = none := by
  rw [commentMatch, if_neg]
  intro hpre
  obtain ⟨u, hu⟩ := List.isPrefixOf_iff_prefix.mp hpre
  simp only [List.cons_append, List.cons.injEq] at hu
  exact hc hu.1.symm

theorem tagMatch_none_head {c : Char} (hc : c ≠ '<') (t : Str) :
    tagMatch (c :: t) = none := by
  rw [tagMatch, if_neg hc]

theorem escMatch_none_head {c : Char} (hc : c ≠ '\\') (t : Str) :
    escMatch (c :: t) = none := by
  match t with
  | [] => rfl
  | d :: t2 =>
    rw [escMatch, if_neg]
    simp only [Bool.and_eq_true, decide_eq_true_eq, Bool.not_eq_eq_eq_not, Bool.not_true, not_and]
    intro h
    exact absurd h hc

theorem scanClean_comment (s : Str) (h : ∀ c ∈ s, c ≠ '<') :
    scanClean commentMatch s = true := by
  induction s with
  | nil => rfl
  | cons c t ih =>
    rw [scanClean, commentMatch_none_head (h c (by simp)) t]
    simp only [Option.isNone_none, Bool.true_and]
    exact ih (fun c hc => h c (by simp [hc]))

theorem scanClean_tag (s : Str) (h : ∀ c ∈ s, c ≠ '<') :
    scanClean tagMatch s = true := by
  induction s with
  | nil => rfl
  | cons c t ih =>
    rw [scanClean, tagMatch_none_head (h c (by simp)) t]
    simp only [Option.isNone_none, Bool.true_and]
    exact ih (fun c hc => h c (by simp [hc]))

theorem scanClean_esc (s : Str) (h : ∀ c ∈ s, c ≠ '\\') :
    scanClean escMatch s = true := by
  induction s with
  | nil => rfl
  | cons c t ih =>
    rw [scanClean, escMatch_none_head (h c (by simp)) t]
    simp only [Option.isNone_none, Bool.true_and]
    exact ih (fun c hc => h c (by simp [hc]))

theorem html_entity_decode_cons_ne {c : Char} (hc : c ≠ '&') (t : Str) :
    html_entity_decode (c :: t) = c :: html_entity_decode t := by
  rw [html_entity_decode_cons, if_neg hc]

theorem html_entity_decode_id (s : Str) (h : ∀ c ∈ s, c ≠ '&') :
    html_entity_decode s = s := by
  induction s with
  | nil => rfl
  | cons c t ih =>
    rw [html_entity_decode_cons_ne (h c (by simp)) t,
        ih (fun c hc => h c (by simp [hc]))]

/-- Characters of a mark: the delimiter code points and base-36 digits. -/
theorem mkMark_chars {k : Nat} {c : Char} (h : c ∈ mkMark k) :
    c = Char.ofNat 0xFFFC ∨ c = Char.ofNat 0xFFF9 ∨ c = Char.ofNat 0xFFFB ∨
    isB36Digit c = true := by
  simp only [mkMark, List.mem_cons, List.mem_append, List.mem_singleton,
    List.not_mem_nil, or_false] at h
  rcases h with rfl | rfl | h | rfl
  · exact Or.inl rfl
  · exact Or.inr (Or.inl rfl)
  · exact Or.inr (Or.inr (Or.inr (toBase36_digits _ c h)))
  · exact Or.inr (Or.inr (Or.inl rfl))

theorem mkMark_char_ne {k : Nat} {c : Char} (h : c ∈ mkMark k) :
    c ≠ '<' ∧ c ≠ '\\' ∧ c ≠ '&' := by
  have hv : c.val = 0xFFFC ∨ c.val = 0xFFF9 ∨ c.val = 0xFFFB ∨
      ((48 ≤ c.val ∧ c.val ≤ 57) ∨ (97 ≤ c.val ∧ c.val ≤ 122)) := by
    rcases mkMark_chars h with rfl | rfl | rfl | hd
    · exact Or.inl (by decide)
    · exact Or.inr (Or.inl (by decide))
    · exact Or.inr (Or.inr (Or.inl (by decide)))
    · simp only [isB36Digit, Bool.or_eq_true, Bool.and_eq_true, decide_eq_true_eq] at hd
      exact Or.inr (Or.inr (Or.inr hd))
  refine ⟨?_, ?_, ?_⟩ <;> intro hEq <;> subst hEq <;> revert hv <;> decide

/-- Amended C3 (second half): a mark, once inserted, is itself clean — it
contains no markup-like substrings and re-digesting it extracts nothing. -/
theorem mkMark_clean (k : Nat) : cleanStr (mkMark k) = true := by
  rw [cleanStr]
  simp only [Bool.and_eq_true, beq_iff_eq]
  refine ⟨⟨⟨?_, ?_⟩, ?_⟩, ?_⟩
  · exact scanClean_comment _ (fun c hc => (mkMark_char_ne hc).1)
  · exact scanClean_tag _ (fun c hc => (mkMark_char_ne hc).1)
  · exact scanClean_esc _ (fun c hc => (mkMark_char_ne hc).2.1)
  · exact html_entity_decode_id _ (fun c hc => (mkMark_char_ne hc).2.2)

/-- C3 counterexample: digestion is not idempotent.  The markup string
consisting of the bracket entities around a tag name digests, with no
extraction, to a literal tag — entity decoding reintroduces a markup-like
substring — and a second digestion extracts that tag into a fresh proxy
entry, changing the text. -/
theorem digestHTML_not_idempotent :
    (digestHTML ⟨[], [], 0⟩ (("&lt;b&gt;").toList)).1 = ("<b>").toList ∧
    (digestHTML ⟨[], [], 0⟩ (("&lt;b&gt;").toList)).2 = ⟨[], [], 0⟩ ∧
    (digestHTML ⟨[], [], 0⟩ (("<b>").toList)).1 ≠ ("<b>").toList ∧
    (digestHTML ⟨[], [], 0⟩ (("<b>").toList)).2.storage.length = 1 := by
  decide

/-- Amended C3: digestion is a no-op — text returned unchanged, no new proxy
entries — on clean strings (no comment, tag or escape pattern occurrence and
no decodable entity), and every generated mark is such a clean string; but
the output of `digestHTML` need not be clean, since entity decoding can
reintroduce markup-like substrings (see the counterexample), so digestion is
not idempotent in general. -/
theorem digestHTML_noop_on_clean :
    (∀ (st : Chaos) (s : Str), cleanStr s = true → digestHTML st s = (s, st)) ∧
    (∀ k : Nat, cleanStr (mkMark k) = true) := by
  exact ⟨fun _ _ h => digestHTML_noop_aux h, mkMark_clean⟩

/-- Witness for the amended C3 at concrete inputs: a clean plain string and a
concrete mark digest to themselves with no storage growth. -/
theorem digestHTML_noop_on_clean_witness :
    digestHTML ⟨[], [], 0⟩ (("hello world").toList) = (("hello world").toList, ⟨[], [], 0⟩) ∧
    cleanStr (mkMark 7) = true := by
  exact ⟨digestHTML_noop_on_clean.1 ⟨[], [], 0⟩ (("hello world").toList) (by decide),
         digestHTML_noop_on_clean.2 7⟩

/-! Structural equality is reflexive and symmetric. -/

mutual

theorem structEq_refl : ∀ n : DomNode, structEq n n = true
  | .text _ s => by simp [structEq]
  | .elem _ tg cs => by simp [structEq, structEqF_refl cs]

theorem structEqF_refl : ∀ f : DomForest, structEqF f f = true
  | .nil => rfl
  | .cons n f => by simp [structEqF, structEq_refl n, structEqF_refl f]

end

mutual

theorem structEq_symm : ∀ a b : DomNode, structEq a b = true → structEq b a = true
  | .text _ s, .text _ t, h => by
    simp only [structEq, beq_iff_eq] at h ⊢
    exact h.symm
  | .elem _ tg cs, .elem _ tg2 cs2, h => by
    simp only [structEq, Bool.and_eq_true, beq_iff_eq] at h ⊢
    exact ⟨h.1.symm, structEqF_symm cs cs2 h.2⟩
  | .text _ _, .elem _ _ _, h => by simp [structEq] at h
  | .elem _ _ _, .text _ _, h => by simp [structEq] at h

theorem structEqF_symm : ∀ f g : DomForest, structEqF f g = true → structEqF g f = true
  | .nil, .nil, _ => rfl
  | .cons n f, .cons m g, h => by
    simp only [structEqF, Bool.and_eq_true] at h ⊢
    exact ⟨structEq_symm n m h.1, structEqF_symm f g h.2⟩
  | .nil, .cons _ _, h => by simp [structEqF] at h
  | .cons _ _, .nil, h => by simp [structEqF] at h

end

/-- Decomposition of a successful forward scan: the scanned list splits at
the matched node, the skipped prefix contains no structurally equal node,
and the match is structurally equal to the probe. -/
theorem findEqSplit_decomp :
    ∀ todo (l : DomNode) q, findEqSplit l todo = some q →
      todo = q.1 ++ q.2.1 :: q.2.2 ∧ structEq q.2.1 l = true := by
  intro todo
  induction todo with
  | nil => intro l q h; simp [findEqSplit] at h
  | cons s rest ih =>
    intro l q h
    rw [findEqSplit] at h
    split at h
    · next hEq =>
      simp only [Option.some.injEq] at h
      rw [← h]
      exact ⟨rfl, hEq⟩
    · split at h
      · next q2 hq2 =>
        simp only [Option.some.injEq] at h
        obtain ⟨h1, h2⟩ := ih l q2 hq2
        rw [← h]
        simp only [List.cons_append, List.cons.injEq, true_and]
        exact ⟨h1, h2⟩
      · exact absurd h (by simp)

/-- Accumulated nodes survive reconciliation. -/
theorem reconChildren_done_mem :
    ∀ live done todo (x : DomNode), x ∈ done → x ∈ reconChildren live done todo := by
  intro live
  induction live with
  | nil =>
    intro done todo x hx
    rw [reconChildren]
    exact List.mem_append.mpr (Or.inl hx)
  | cons l ls ih =>
    intro done todo x hx
    rw [reconChildren]
    cases hq : findEqSplit l todo with
    | some q =>
      simp only
      exact ih _ _ x (by simp [hx])
    | none =>
      simp only
      exact ih _ _ x hx

/-- Every reconciled node comes from the live children, the accumulator or
the remaining scratch children. -/
theorem reconChildren_mem :
    ∀ live done todo (x : DomNode), x ∈ reconChildren live done todo →
      x ∈ live ∨ x ∈ done ∨ x ∈ todo := by
  intro live
  induction live with
  | nil =>
    intro done todo x hx
    rw [reconChildren] at hx
    rcases List.mem_append.mp hx with hx | hx
    · exact Or.inr (Or.inl hx)
    · exact Or.inr (Or.inr hx)
  | cons l ls ih =>
    intro done todo x hx
    rw [reconChildren] at hx
    cases hq : findEqSplit l todo with
    | some q =>
      rw [hq] at hx
      simp only at hx
      obtain ⟨hsplit, _⟩ := findEqSplit_decomp todo l q hq
      rcases ih _ _ x hx with h | h | h
      · exact Or.inl (by simp [h])
      · simp only [List.append_assoc, List.mem_append, List.mem_singleton] at h
        rcases h with h | h | h
        · exact Or.inr (Or.inl h)
        · exact Or.inr (Or.inr (by rw [hsplit]; simp [h]))
        · exact Or.inl (by simp [h])
      · exact Or.inr (Or.inr (by rw [hsplit]; simp [h]))
    | none =>
      rw [hq] at hx
      simp only at hx
      rcases ih _ _ x hx with h | h | h
      · exact Or.inl (by simp [h])
      · exact Or.inr (Or.inl h)
      · exact Or.inr (Or.inr h)

/-- A node with no structurally equal counterpart among the remaining scratch
children, and not already accumulated, is dropped by reconciliation. -/
theorem reconChildren_drop :
    ∀ live done todo (l : DomNode), (∀ s ∈ todo, structEq l s = false) →
      l ∉ done → l ∉ reconChildren live done todo := by
  intro live
  induction live with
  | nil =>
    intro done todo l hno hdone
    rw [reconChildren]
    intro hmem
    rcases List.mem_append.mp hmem with h | h
    · exact hdone h
    · have := hno l h
      rw [structEq_refl l] at this
      exact absurd this (by simp)
  | cons l2 ls ih =>
    intro done todo l hno hdone
    rw [reconChildren]
    cases hq : findEqSplit l2 todo with
    | some q =>
      simp only
      obtain ⟨hsplit, hEq⟩ := findEqSplit_decomp todo l2 q hq
      refine ih _ _ l ?_ ?_
      · intro s hs
        exact hno s (by rw [hsplit]; simp [hs])
      · intro hmem
        simp only [List.append_assoc, List.mem_append, List.mem_singleton] at hmem
        rcases hmem with h | h | h
        · exact hdone h
        · have := hno l (by rw [hsplit]; simp [h])
          rw [structEq_refl l] at this
          exact absurd this (by simp)
        · subst h
          have hm : q.2.1 ∈ todo := by rw [hsplit]; simp
          have := hno q.2.1 hm
          rw [structEq_symm _ _ hEq] at this
          exact absurd this (by simp)
    | none =>
      simp only
      exact ih _ _ l hno hdone

mutual

theorem structEq_trans : ∀ a b c : DomNode,
    structEq a b = true → structEq b c = true → structEq a c = true
  | .text _ s, .text _ t, .text _ u, h1, h2 => by
    simp only [structEq, beq_iff_eq] at h1 h2 ⊢
    exact h1.trans h2
  | .elem _ tg cs, .elem _ tg2 cs2, .elem _ tg3 cs3, h1, h2 => by
    simp only [structEq, Bool.and_eq_true, beq_iff_eq] at h1 h2 ⊢
    exact ⟨h1.1.trans h2.1, structEqF_trans cs cs2 cs3 h1.2 h2.2⟩
  | .text _ _, .elem _ _ _, _, h1, _ => by simp [structEq] at h1
  | .elem _ _ _, .text _ _, _, h1, _ => by simp [structEq] at h1
  | .text _ _, .text _ _, .elem _ _ _, _, h2 => by simp [structEq] at h2
  | .elem _ _ _, .elem _ _ _, .text _ _, _, h2 => by simp [structEq] at h2

theorem structEqF_trans : ∀ f g h : DomForest,
    structEqF f g = true → structEqF g h = true → structEqF f h = true
  | .nil, .nil, .nil, _, _ => rfl
  | .cons n f, .cons m g, .cons o h, h1, h2 => by
    simp only [structEqF, Bool.and_eq_true] at h1 h2 ⊢
    exact ⟨structEq_trans n m o h1.1 h2.1, structEqF_trans f g h h1.2 h2.2⟩
  | .nil, .cons _ _, _, h1, _ => by simp [structEqF] at h1
  | .cons _ _, .nil, _, h1, _ => by simp [structEqF] at h1
  | .nil, .nil, .cons _ _, _, h2 => by simp [structEqF] at h2
  | .cons _ _, .cons _ _, .nil, _, h2 => by simp [structEqF] at h2

end

/-- Pointwise structural equality composes. -/
theorem forall2_structEq_trans :
    ∀ {X Y Z : List DomNode},
      List.Forall₂ (fun a b => structEq a b = true) X Y →
      List.Forall₂ (fun a b => structEq a b = true) Y Z →
      List.Forall₂ (fun a b => structEq a b = true) X Z := by
  intro X Y Z h1
  induction h1 generalizing Z with
  | nil =>
    intro h2
    cases h2
    exact List.Forall₂.nil
  | cons hab h1 ih =>
    intro h2
    cases h2 with
    | cons hbc h2 => exact List.Forall₂.cons (structEq_trans _ _ _ hab hbc) (ih h2)

/-- Reconciliation output is pointwise structurally equal to the scratch
sequence (with the accumulator prefix). -/
theorem reconChildren_forall2 :
    ∀ live done todo,
      List.Forall₂ (fun a b => structEq a b = true) (reconChildren live done todo)
        (done ++ todo) := by
  intro live
  induction live with
  | nil =>
    intro done todo
    rw [reconChildren]
    exact List.forall₂_same.mpr (fun x _ => structEq_refl x)
  | cons l ls ih =>
    intro done todo
    rw [reconChildren]
    cases hq : findEqSplit l todo with
    | some q =>
      simp only
      obtain ⟨hsplit, hEq⟩ := findEqSplit_decomp todo l q hq
      have hbridge : List.Forall₂ (fun a b => structEq a b = true)
          ((done ++ q.1 ++ [l]) ++ q.2.2) ((done ++ q.1) ++ q.2.1 :: q.2.2) := by
        have h1 : List.Forall₂ (fun a b => structEq a b = true)
            (done ++ q.1) (done ++ q.1) :=
          List.forall₂_same.mpr (fun x _ => structEq_refl x)
        have h2 : List.Forall₂ (fun a b => structEq a b = true) [l] [q.2.1] :=
          List.Forall₂.cons (structEq_symm _ _ hEq) List.Forall₂.nil
        have h3 : List.Forall₂ (fun a b => structEq a b = true) q.2.2 q.2.2 :=
          List.forall₂_same.mpr (fun x _ => structEq_refl x)
        have := List.rel_append (List.rel_append h1 h2) h3
        simpa [List.append_assoc] using this
      rw [hsplit]
      have := forall2_structEq_trans (ih (done ++ q.1 ++ [l]) q.2.2) hbridge
      simpa [List.append_assoc] using this
    | none =>
      simp only
      exact ih done todo

/-- C2 counterexample: a live child that is structurally equal to some
scratch child can still be dropped.  The live children are A then B; the
materialized markup parses to B then A.  The greedy forward scan matches
live A against the scratch A (advancing the scan past it), so live B — though
structurally equal to the scratch B at an earlier, already-passed position —
is dropped: the final children are the freshly parsed B (new identity 11)
and the retained live A (identity 1); the live B (identity 3) is no longer a
child. -/
theorem applyTo_not_preserving_cx :
    (applyTo ⟨mkMark 1, [(mkMark 1, ("<B>b</B><A>a</A>").toList)], 1⟩
      (.elem 0 (("DIV").toList)
        (.cons (.elem 1 (("A").toList) (.cons (.text 2 (("a").toList)) .nil))
        (.cons (.elem 3 (("B").toList) (.cons (.text 4 (("b").toList)) .nil)) .nil)))
      10).1 =
      .elem 0 (("DIV").toList)
        (.cons (.elem 11 (("B").toList) (.cons (.text 10 (("b").toList)) .nil))
        (.cons (.elem 1 (("A").toList) (.cons (.text 2 (("a").toList)) .nil)) .nil)) ∧
    (parseHTML 10 (getHTML ⟨mkMark 1, [(mkMark 1, ("<B>b</B><A>a</A>").toList)], 1⟩)).1 =
      [.elem 11 (("B").toList) (.cons (.text 10 (("b").toList)) .nil),
       .elem 13 (("A").toList) (.cons (.text 12 (("a").toList)) .nil)] ∧
    structEq (.elem 3 (("B").toList) (.cons (.text 4 (("b").toList)) .nil))
      (.elem 11 (("B").toList) (.cons (.text 10 (("b").toList)) .nil)) = true ∧
    (DomNode.elem 3 (("B").toList) (.cons (.text 4 (("b").toList)) .nil)) ∉
      toList (childrenOf
        (applyTo ⟨mkMark 1, [(mkMark 1, ("<B>b</B><A>a</A>").toList)], 1⟩
          (.elem 0 (("DIV").toList)
            (.cons (.elem 1 (("A").toList) (.cons (.text 2 (("a").toList)) .nil))
            (.cons (.elem 3 (("B").toList) (.cons (.text 4 (("b").toList)) .nil)) .nil)))
          10).1) := by
  decide

/-- C2 (amended): after `applyTo`, the final children of the target are
pointwise structurally equal to the scratch children, in scratch order; a
live child with no structurally equal scratch counterpart at all is always
dropped; every final child is a retained live child (object identity
preserved) or a scratch child; and a live child matched by the greedy
forward scan — in particular the first live child whenever any scratch child
is structurally equal to it — is retained with its identity.  Matching is
the left-to-right greedy forward scan of the source, so a live child whose
only structurally equal scratch counterparts lie before the scan position is
dropped even though a counterpart exists (see the counterexample). -/
theorem applyTo_greedy_reconciliation (live scratch : List DomNode) :
    List.Forall₂ (fun a b => structEq a b = true) (reconChildren live [] scratch) scratch ∧
    (∀ l : DomNode, (∀ s ∈ scratch, structEq l s = false) →
      l ∉ reconChildren live [] scratch) ∧
    (∀ x ∈ reconChildren live [] scratch, x ∈ live ∨ x ∈ scratch) ∧
    (∀ l ls q, live = l :: ls → findEqSplit l scratch = some q →
      l ∈ reconChildren live [] scratch) := by
  refine ⟨?_, ?_, ?_, ?_⟩
  · simpa using reconChildren_forall2 live [] scratch
  · intro l h
    exact reconChildren_drop live [] scratch l h (by simp)
  · intro x hx
    rcases reconChildren_mem live [] scratch x hx with h | h | h
    · exact Or.inl h
    · simp at h
    · exact Or.inr h
  · intro l ls q hlive hq
    subst hlive
    rw [reconChildren, hq]
    simp only
    exact reconChildren_done_mem ls _ _ l (by simp)

/-- Witness for the amended C2 at concrete inputs: the matched first live
child is retained with its identity, and a live child equal to no scratch
child is dropped. -/
theorem applyTo_greedy_reconciliation_witness :
    (DomNode.elem 1 (("A").toList) (.cons (.text 2 (("a").toList)) .nil)) ∈
      reconChildren
        [.elem 1 (("A").toList) (.cons (.text 2 (("a").toList)) .nil),
         .text 9 (("zzz").toList)]
        []
        [.elem 11 (("A").toList) (.cons (.text 10 (("a").toList)) .nil)] ∧
    (DomNode.text 9 (("zzz").toList)) ∉
      reconChildren
        [.elem 1 (("A").toList) (.cons (.text 2 (("a").toList)) .nil),
         .text 9 (("zzz").toList)]
        []
        [.elem 11 (("A").toList) (.cons (.text 10 (("a").toList)) .nil)] := by
  constructor
  · exact (applyTo_greedy_reconciliation
      [.elem 1 (("A").toList) (.cons (.text 2 (("a").toList)) .nil),
       .text 9 (("zzz").toList)]
      [.elem 11 (("A").toList) (.cons (.text 10 (("a").toList)) .nil)]).2.2.2
      _ _ ([], .elem 11 (("A").toList) (.cons (.text 10 (("a").toList)) .nil), [])
      rfl (by decide)
  · exact (applyTo_greedy_reconciliation
      [.elem 1 (("A").toList) (.cons (.text 2 (("a").toList)) .nil),
       .text 9 (("zzz").toList)]
      [.elem 11 (("A").toList) (.cons (.text 10 (("a").toList)) .nil)]).2.1
      _ (by decide)

/-- Dispatch step: a successful head container is returned with its result. -/
theorem BRElevate_cons_some {c : BlockRendererContainer} {cs : List BlockRendererContainer}
    {ctx : ElevCtx} {r : ElevRes} (h : containerElevate c ctx = some r) :
    BlockRenderer.Elevate (c :: cs) ctx = some (c, r) := by
  rw [BlockRenderer.Elevate, h]

/-- Dispatch step: a failing head container passes control to the rest. -/
theorem BRElevate_cons_none {c : BlockRendererContainer} {cs : List BlockRendererContainer}
    {ctx : ElevCtx} (h : containerElevate c ctx = none) :
    BlockRenderer.Elevate (c :: cs) ctx = BlockRenderer.Elevate cs ctx := by
  rw [BlockRenderer.Elevate, h]

/-- C5: elevation priority and first match.  With the standard markdown
container set, `BlockRenderer.Elevate` tries the descriptors in the fixed
order blockquote, header text, horizontal rule, ordered list, unordered
list; it returns the result of the first whose `Elevate` succeeds, paired
with that descriptor, and returns null when every descriptor fails — a
plain value, never an exception (the embedding is a total function). -/
theorem Elevate_priority (ctx : ElevCtx) :
    (∀ r, containerElevate BLOCKQUOTE ctx = some r →
      BlockRenderer.Elevate markdownContainers ctx = some (BLOCKQUOTE, r)) ∧
    (∀ r, containerElevate BLOCKQUOTE ctx = none →
      containerElevate HeaderText ctx = some r →
      BlockRenderer.Elevate markdownContainers ctx = some (HeaderText, r)) ∧
    (∀ r, containerElevate BLOCKQUOTE ctx = none →
      containerElevate HeaderText ctx = none →
      containerElevate HR ctx = some r →
      BlockRenderer.Elevate markdownContainers ctx = some (HR, r)) ∧
    (∀ r, containerElevate BLOCKQUOTE ctx = none →
      containerElevate HeaderText ctx = none →
      containerElevate HR ctx = none →
      containerElevate OL ctx = some r →
      BlockRenderer.Elevate markdownContainers ctx = some (OL, r)) ∧
    (∀ r, containerElevate BLOCKQUOTE ctx = none →
      containerElevate HeaderText ctx = none →
      containerElevate HR ctx = none →
      containerElevate OL ctx = none →
      containerElevate UL ctx = some r →
      BlockRenderer.Elevate markdownContainers ctx = some (UL, r)) ∧
    (containerElevate BLOCKQUOTE ctx = none →
      containerElevate HeaderText ctx = none →
      containerElevate HR ctx = none →
      containerElevate OL ctx = none →
      containerElevate UL ctx = none →
      BlockRenderer.Elevate markdownContainers ctx = none) := by
  refine ⟨?_, ?_, ?_, ?_, ?_, ?_⟩
  · intro r h1
    rw [markdownContainers, BRElevate_cons_some h1]
  · intro r h1 h2
    rw [markdownContainers, BRElevate_cons_none h1, BRElevate_cons_some h2]
  · intro r h1 h2 h3
    rw [markdownContainers, BRElevate_cons_none h1, BRElevate_cons_none h2,
      BRElevate_cons_some h3]
  · intro r h1 h2 h3 h4
    rw [markdownContainers, BRElevate_cons_none h1, BRElevate_cons_none h2,
      BRElevate_cons_none h3, BRElevate_cons_some h4]
  · intro r h1 h2 h3 h4 h5
    rw [markdownContainers, BRElevate_cons_none h1, BRElevate_cons_none h2,
      BRElevate_cons_none h3, BRElevate_cons_none h4, BRElevate_cons_some h5]
  · intro h1 h2 h3 h4 h5
    rw [markdownContainers, BRElevate_cons_none h1, BRElevate_cons_none h2,
      BRElevate_cons_none h3, BRElevate_cons_none h4, BRElevate_cons_none h5]
    rfl

/-- Witness for C5 at concrete inputs: a horizontal rule is dispatched to the
third descriptor after blockquote and header fail, and a plain paragraph is
rejected by all five. -/
theorem Elevate_priority_witness :
    BlockRenderer.Elevate markdownContainers
      ⟨[], .elem 0 (("P").toList) (.cons (.text 1 (("--- ").toList)) .nil), [], 2⟩ =
      some (HR, ⟨none, .elem 2 (("hr").toList) .nil,
        [.elem 2 (("hr").toList) .nil], 3⟩) ∧
    BlockRenderer.Elevate markdownContainers
      ⟨[], .elem 0 (("P").toList) (.cons (.text 1 (("hello").toList)) .nil), [], 2⟩ =
      none := by
  constructor
  · exact (Elevate_priority
      ⟨[], .elem 0 (("P").toList) (.cons (.text 1 (("--- ").toList)) .nil), [], 2⟩).2.2.1
      _ (by decide) (by decide) (by decide)
  · exact (Elevate_priority
      ⟨[], .elem 0 (("P").toList) (.cons (.text 1 (("hello").toList)) .nil), [], 2⟩).2.2.2.2.2
      (by decide) (by decide) (by decide) (by decide) (by decide)

/-- C9: non-mutation on no-match.  When none of the five feature patterns
matches the node's text content, every container's `Elevate` returns null
before performing any mutation, `BlockRenderer.Elevate` returns null, and
the sibling context is left untouched (the applied elevation returns the
original children and identity counter unchanged, so the node and its
subtree are the very same values — reference-identical). -/
theorem Elevate_no_match_frame (ctx : ElevCtx)
    (h1 : bqExec (textContent ctx.node) = none)
    (h2 : htExec (textContent ctx.node) = none)
    (h3 : hrExec (textContent ctx.node) = none)
    (h4 : olExec (textContent ctx.node) = none)
    (h5 : ulExec (textContent ctx.node) = none) :
    BlockRenderer.Elevate markdownContainers ctx = none ∧
    elevateApply markdownContainers ctx =
      (none, (ctx.before ++ ctx.node :: ctx.after, ctx.nid)) ∧
    ∀ c ∈ markdownContainers, containerElevate c ctx = none := by
  have cbq : containerElevate BLOCKQUOTE ctx = none := by
    simp [containerElevate, BLOCKQUOTE, fmLen, h1]
  have cht : containerElevate HeaderText ctx = none := by
    simp [containerElevate, HeaderText, fmLen, h2]
  have chr : containerElevate HR ctx = none := by
    simp [containerElevate, HR, fmLen, h3]
  have col : containerElevate OL ctx = none := by
    simp [containerElevate, OL, fmLen, h4]
  have cul : containerElevate UL ctx = none := by
    simp [containerElevate, UL, fmLen, h5]
  have hnone : BlockRenderer.Elevate markdownContainers ctx = none := by
    rw [markdownContainers, BRElevate_cons_none cbq, BRElevate_cons_none cht,
      BRElevate_cons_none chr, BRElevate_cons_none col, BRElevate_cons_none cul]
    rfl
  refine ⟨hnone, ?_, ?_⟩
  · rw [elevateApply, hnone]
  · intro c hc
    simp only [markdownContainers, List.mem_cons, List.mem_singleton,
      List.not_mem_nil, or_false] at hc
    rcases hc with rfl | rfl | rfl | rfl | rfl
    · exact cbq
    · exact cht
    · exact chr
    · exact col
    · exact cul

/-- Witness for C9 at a concrete input: a plain paragraph matches no pattern
and elevation leaves its context untouched. -/
theorem Elevate_no_match_frame_witness :
    BlockRenderer.Elevate markdownContainers
      ⟨[.text 9 (("q").toList)],
       .elem 0 (("P").toList) (.cons (.text 1 (("hello world").toList)) .nil), [], 2⟩ =
      none ∧
    elevateApply markdownContainers
      ⟨[.text 9 (("q").toList)],
       .elem 0 (("P").toList) (.cons (.text 1 (("hello world").toList)) .nil), [], 2⟩ =
      (none, ([.text 9 (("q").toList),
        .elem 0 (("P").toList) (.cons (.text 1 (("hello world").toList)) .nil)], 2)) := by
  have h := Elevate_no_match_frame
    ⟨[.text 9 (("q").toList)],
     .elem 0 (("P").toList) (.cons (.text 1 (("hello world").toList)) .nil), [], 2⟩
    (by decide) (by decide) (by decide) (by decide) (by decide)
  exact ⟨h.1, h.2.1⟩

/-- C6 counterexample: sibling lookup skips non-element siblings.  The node
"&gt; more" is elevated while its immediately preceding sibling is the text
node "zz" — which has no tag, let alone the parent tag — so the claim as
stated requires a freshly created blockquote parent; the code instead uses
`previousElementSibling`, skips the text node, and merges the child into the
earlier blockquote element (identity 1, a pre-existing node: the fresh
identity counter starts at 10). -/
theorem merge_skips_text_sibling_cx :
    containerElevate BLOCKQUOTE
      ⟨[.elem 1 (("BLOCKQUOTE").toList)
          (.cons (.elem 2 (("P").toList) (.cons (.text 3 (("quoted").toList)) .nil)) .nil),
        .text 9 (("zz").toList)],
       .elem 4 (("P").toList) (.cons (.text 5 (("> more").toList)) .nil), [], 10⟩ =
      some ⟨some (.elem 1 (("BLOCKQUOTE").toList)
          (.cons (.elem 2 (("P").toList) (.cons (.text 3 (("quoted").toList)) .nil))
          (.cons (.elem 4 (("P").toList) (.cons (.text 10 (("more").toList)) .nil)) .nil))),
        .elem 4 (("P").toList) (.cons (.text 10 (("more").toList)) .nil),
        [.elem 1 (("BLOCKQUOTE").toList)
          (.cons (.elem 2 (("P").toList) (.cons (.text 3 (("quoted").toList)) .nil))
          (.cons (.elem 4 (("P").toList) (.cons (.text 10 (("more").toList)) .nil)) .nil)),
         .text 9 (("zz").toList)], 11⟩ ∧
    isElem (.text 9 (("zz").toList)) = false ∧
    nodeTag (.text 9 (("zz").toList)) ≠ ("BLOCKQUOTE").toList := by
  refine ⟨by decide, by decide, by decide⟩

/-- C6 (amended): sibling merge in generic elevation, with the sibling
lookup being the DOM `previousElementSibling` — the nearest preceding
*element* sibling, skipping text nodes.  When a generic descriptor with a
non-null parent tag succeeds: if the nearest preceding element sibling bears
the parent tag, the child is appended into that existing sibling (the
returned parent is that sibling, its identity preserved); otherwise — no
preceding element sibling, or one with a different tag — a fresh parent node
of the parent tag is created wrapping the child at the child's position. -/
theorem generic_parent_merge (c : BlockRendererContainer) (ctx : ElevCtx)
    (pn : Str) (r : ElevRes)
    (hk : c.kind = .generic) (hp : c.parentNodeName = some pn)
    (h : containerElevate c ctx = some r) :
    (∃ a e b, lastElemSplit ctx.before = some (a, e, b) ∧ nodeTag e = pn ∧
      r.parent = some (setChildren e ((childrenOf e).append (.cons r.child .nil))) ∧
      r.siblings =
        a ++ setChildren e ((childrenOf e).append (.cons r.child .nil)) ::
          (b ++ ctx.after)) ∨
    ((lastElemSplit ctx.before = none ∨
        ∃ a e b, lastElemSplit ctx.before = some (a, e, b) ∧ nodeTag e ≠ pn) ∧
      ∃ wid, r.parent = some (.elem wid pn (.cons r.child .nil)) ∧
        r.siblings = ctx.before ++ (.elem wid pn (.cons r.child .nil)) :: ctx.after) := by
  rw [containerElevate, hk] at h
  simp only at h
  split at h
  · exact absurd h (by simp)
  · rw [hp] at h
    simp only at h
    split at h
    · next q hq =>
      split at h
      · next htag =>
        simp only [Option.some.injEq] at h
        subst h
        refine Or.inl ⟨q.1, q.2.1, q.2.2, ?_, htag, rfl, rfl⟩
        rw [hq]
      · next htag =>
        simp only [Option.some.injEq] at h
        subst h
        exact Or.inr ⟨Or.inr ⟨q.1, q.2.1, q.2.2, hq, htag⟩, _, rfl, rfl⟩
    · next hq =>
      simp only [Option.some.injEq] at h
      subst h
      exact Or.inr ⟨Or.inl hq, _, rfl, rfl⟩

/-- Witness for the amended C6 at concrete inputs: the merge branch for a
blockquote continuation whose nearest preceding element sibling is a
blockquote (across an intervening text node), and the wrap branch for a
first list item with no preceding element sibling. -/
theorem generic_parent_merge_witness :
    (∃ a e b,
      lastElemSplit
        (ElevCtx.mk
          [.elem 1 (("BLOCKQUOTE").toList)
            (.cons (.elem 2 (("P").toList) (.cons (.text 3 (("quoted").toList)) .nil)) .nil),
           .text 9 (("zz").toList)]
          (.elem 4 (("P").toList) (.cons (.text 5 (("> more").toList)) .nil)) [] 10).before =
        some (a, e, b) ∧
      nodeTag e = ("BLOCKQUOTE").toList ∧
      (ElevRes.mk
        (some (.elem 1 (("BLOCKQUOTE").toList)
          (.cons (.elem 2 (("P").toList) (.cons (.text 3 (("quoted").toList)) .nil))
          (.cons (.elem 4 (("P").toList) (.cons (.text 10 (("more").toList)) .nil)) .nil))))
        (.elem 4 (("P").toList) (.cons (.text 10 (("more").toList)) .nil))
        [.elem 1 (("BLOCKQUOTE").toList)
          (.cons (.elem 2 (("P").toList) (.cons (.text 3 (("quoted").toList)) .nil))
          (.cons (.elem 4 (("P").toList) (.cons (.text 10 (("more").toList)) .nil)) .nil)),
         .text 9 (("zz").toList)] 11).parent =
        some (setChildren e ((childrenOf e).append
          (.cons (ElevRes.mk
            (some (.elem 1 (("BLOCKQUOTE").toList)
              (.cons (.elem 2 (("P").toList) (.cons (.text 3 (("quoted").toList)) .nil))
              (.cons (.elem 4 (("P").toList) (.cons (.text 10 (("more").toList)) .nil)) .nil))))
            (.elem 4 (("P").toList) (.cons (.text 10 (("more").toList)) .nil))
            [.elem 1 (("BLOCKQUOTE").toList)
              (.cons (.elem 2 (("P").toList) (.cons (.text 3 (("quoted").toList)) .nil))
              (.cons (.elem 4 (("P").toList) (.cons (.text 10 (("more").toList)) .nil)) .nil)),
             .text 9 (("zz").toList)] 11).child .nil))) ∧
      (ElevRes.mk
        (some (.elem 1 (("BLOCKQUOTE").toList)
          (.cons (.elem 2 (("P").toList) (.cons (.text 3 (("quoted").toList)) .nil))
          (.cons (.elem 4 (("P").toList) (.cons (.text 10 (("more").toList)) .nil)) .nil))))
        (.elem 4 (("P").toList) (.cons (.text 10 (("more").toList)) .nil))
        [.elem 1 (("BLOCKQUOTE").toList)
          (.cons (.elem 2 (("P").toList) (.cons (.text 3 (("quoted").toList)) .nil))
          (.cons (.elem 4 (("P").toList) (.cons (.text 10 (("more").toList)) .nil)) .nil)),
         .text 9 (("zz").toList)] 11).siblings =
        a ++ setChildren e ((childrenOf e).append
          (.cons (ElevRes.mk
            (some (.elem 1 (("BLOCKQUOTE").toList)
              (.cons (.elem 2 (("P").toList) (.cons (.text 3 (("quoted").toList)) .nil))
              (.cons (.elem 4 (("P").toList) (.cons (.text 10 (("more").toList)) .nil)) .nil))))
            (.elem 4 (("P").toList) (.cons (.text 10 (("more").toList)) .nil))
            [.elem 1 (("BLOCKQUOTE").toList)
              (.cons (.elem 2 (("P").toList) (.cons (.text 3 (("quoted").toList)) .nil))
              (.cons (.elem 4 (("P").toList) (.cons (.text 10 (("more").toList)) .nil)) .nil)),
             .text 9 (("zz").toList)] 11).child .nil)) ::
          (b ++ (ElevCtx.mk
            [.elem 1 (("BLOCKQUOTE").toList)
              (.cons (.elem 2 (("P").toList) (.cons (.text 3 (("quoted").toList)) .nil)) .nil),
             .text 9 (("zz").toList)]
            (.elem 4 (("P").toList) (.cons (.text 5 (("> more").toList)) .nil)) [] 10).after)) ∨
    ((lastElemSplit
        (ElevCtx.mk
          [.elem 1 (("BLOCKQUOTE").toList)
            (.cons (.elem 2 (("P").toList) (.cons (.text 3 (("quoted").toList)) .nil)) .nil),
           .text 9 (("zz").toList)]
          (.elem 4 (("P").toList) (.cons (.text 5 (("> more").toList)) .nil)) [] 10).before =
        none ∨
      ∃ a e b,
        lastElemSplit
          (ElevCtx.mk
            [.elem 1 (("BLOCKQUOTE").toList)
              (.cons (.elem 2 (("P").toList) (.cons (.text 3 (("quoted").toList)) .nil)) .nil),
             .text 9 (("zz").toList)]
            (.elem 4 (("P").toList) (.cons (.text 5 (("> more").toList)) .nil)) [] 10).before =
          some (a, e, b) ∧ nodeTag e ≠ ("BLOCKQUOTE").toList) ∧
      ∃ wid,
        (ElevRes.mk
          (some (.elem 1 (("BLOCKQUOTE").toList)
            (.cons (.elem 2 (("P").toList) (.cons (.text 3 (("quoted").toList)) .nil))
            (.cons (.elem 4 (("P").toList) (.cons (.text 10 (("more").toList)) .nil)) .nil))))
          (.elem 4 (("P").toList) (.cons (.text 10 (("more").toList)) .nil))
          [.elem 1 (("BLOCKQUOTE").toList)
            (.cons (.elem 2 (("P").toList) (.cons (.text 3 (("quoted").toList)) .nil))
            (.cons (.elem 4 (("P").toList) (.cons (.text 10 (("more").toList)) .nil)) .nil)),
           .text 9 (("zz").toList)] 11).parent =
          some (.elem wid (("BLOCKQUOTE").toList)
            (.cons (ElevRes.mk
              (some (.elem 1 (("BLOCKQUOTE").toList)
                (.cons (.elem 2 (("P").toList) (.cons (.text 3 (("quoted").toList)) .nil))
                (.cons (.elem 4 (("P").toList) (.cons (.text 10 (("more").toList)) .nil)) .nil))))
              (.elem 4 (("P").toList) (.cons (.text 10 (("more").toList)) .nil))
              [.elem 1 (("BLOCKQUOTE").toList)
                (.cons (.elem 2 (("P").toList) (.cons (.text 3 (("quoted").toList)) .nil))
                (.cons (.elem 4 (("P").toList) (.cons (.text 10 (("more").toList)) .nil)) .nil)),
               .text 9 (("zz").toList)] 11).child .nil)) ∧
        (ElevRes.mk
          (some (.elem 1 (("BLOCKQUOTE").toList)
            (.cons (.elem 2 (("P").toList) (.cons (.text 3 (("quoted").toList)) .nil))
            (.cons (.elem 4 (("P").toList) (.cons (.text 10 (("more").toList)) .nil)) .nil))))
          (.elem 4 (("P").toList) (.cons (.text 10 (("more").toList)) .nil))
          [.elem 1 (("BLOCKQUOTE").toList)
            (.cons (.elem 2 (("P").toList) (.cons (.text 3 (("quoted").toList)) .nil))
            (.cons (.elem 4 (("P").toList) (.cons (.text 10 (("more").toList)) .nil)) .nil)),
           .text 9 (("zz").toList)] 11).siblings =
          (ElevCtx.mk
            [.elem 1 (("BLOCKQUOTE").toList)
              (.cons (.elem 2 (("P").toList) (.cons (.text 3 (("quoted").toList)) .nil)) .nil),
             .text 9 (("zz").toList)]
            (.elem 4 (("P").toList) (.cons (.text 5 (("> more").toList)) .nil)) [] 10).before ++
          (DomNode.elem wid (("BLOCKQUOTE").toList)
            (.cons (ElevRes.mk
              (some (.elem 1 (("BLOCKQUOTE").toList)
                (.cons (.elem 2 (("P").toList) (.cons (.text 3 (("quoted").toList)) .nil))
                (.cons (.elem 4 (("P").toList) (.cons (.text 10 (("more").toList)) .nil)) .nil))))
              (.elem 4 (("P").toList) (.cons (.text 10 (("more").toList)) .nil))
              [.elem 1 (("BLOCKQUOTE").toList)
                (.cons (.elem 2 (("P").toList) (.cons (.text 3 (("quoted").toList)) .nil))
                (.cons (.elem 4 (("P").toList) (.cons (.text 10 (("more").toList)) .nil)) .nil)),
               .text 9 (("zz").toList)] 11).child .nil)) ::
          (ElevCtx.mk
            [.elem 1 (("BLOCKQUOTE").toList)
              (.cons (.elem 2 (("P").toList) (.cons (.text 3 (("quoted").toList)) .nil)) .nil),
             .text 9 (("zz").toList)]
            (.elem 4 (("P").toList) (.cons (.text 5 (("> more").toList)) .nil)) [] 10).after) := by
  exact generic_parent_merge BLOCKQUOTE _ (("BLOCKQUOTE").toList) _ rfl rfl (by decide)

/-! Run-splitting lemmas for the feature-mark matchers. -/

theorem runSplit_not_head {p : Char → Bool} {s : Str} (h : headIs p s = false) :
    runSplit p s = ([], s) := by
  match s with
  | [] => rfl
  | c :: t =>
    simp only [headIs] at h
    rw [runSplit, if_neg (by simp [h])]

theorem runSplit_all {p : Char → Bool} :
    ∀ {a b : Str}, (∀ x ∈ a, p x = true) → headIs p b = false →
      runSplit p (a ++ b) = (a, b) := by
  intro a
  induction a with
  | nil =>
    intro b _ hb
    simpa using runSplit_not_head hb
  | cons c a ih =>
    intro b ha hb
    have hc : p c = true := ha c (by simp)
    rw [List.cons_append, runSplit, if_pos hc, ih (fun x hx => ha x (by simp [hx])) hb]

theorem hrRepsAux_replicate {c : Char} (hc : isJsSpace c = false) {ws : Str}
    (hws : ∀ x ∈ ws, isJsSpace x = true) :
    ∀ j fuel, j < fuel → hrRepsAux c fuel (List.replicate j c ++ ws) = (j, ws) := by
  intro j
  induction j with
  | zero =>
    intro fuel hf
    cases fuel with
    | zero => omega
    | succ f =>
      rw [List.replicate_zero, List.nil_append, hrRepsAux]
      have : runSplit isJsSpace ws = (ws, []) := by
        have h2 : runSplit isJsSpace (ws ++ []) = (ws, []) := runSplit_all hws rfl
        simpa using h2
      rw [this]
  | succ j ih =>
    intro fuel hf
    cases fuel with
    | zero => omega
    | succ f =>
      rw [List.replicate_succ, List.cons_append, hrRepsAux]
      have hrs : runSplit isJsSpace (c :: (List.replicate j c ++ ws)) =
          ([], c :: (List.replicate j c ++ ws)) :=
        runSplit_not_head (by simp [headIs, hc])
      rw [hrs]
      simp only
      rw [ih f (by omega)]
      simp

theorem hrExec_full {wsA wsB : Str} {c : Char} {k : Nat}
    (hwsA : ∀ x ∈ wsA, isJsSpace x = true) (hwsB : ∀ x ∈ wsB, isJsSpace x = true)
    (hc : c = '-' ∨ c = '=' ∨ c = '*') (hk : 3 ≤ k) :
    hrExec (wsA ++ List.replicate k c ++ wsB) =
      some (wsA ++ List.replicate k c ++ wsB).length := by
  have hcns : isJsSpace c = false := by
    rcases hc with rfl | rfl | rfl <;> decide
  obtain ⟨j, rfl⟩ : ∃ j, k = j + 3 := ⟨k - 3, by omega⟩
  rw [hrExec]
  have hsplit : runSplit isJsSpace (wsA ++ List.replicate (j + 3) c ++ wsB) =
      (wsA, List.replicate (j + 3) c ++ wsB) := by
    rw [List.append_assoc]
    exact runSplit_all hwsA (by rw [List.replicate_succ]; simp [headIs, hcns])
  rw [hsplit]
  simp only
  rw [List.replicate_succ, List.cons_append]
  simp only [if_pos hc]
  have hreps : hrReps c (List.replicate (j + 2) c ++ wsB) = (j + 2, wsB) := by
    rw [hrReps]
    exact hrRepsAux_replicate hcns hwsB (j + 2)
      ((List.replicate (j + 2) c ++ wsB).length + 1)
      (by simp [List.length_append, List.length_replicate]; omega)
  rw [hreps]
  have hcond : 2 ≤ j + 2 ∧ (runSplit isJsSpace wsB).2 = [] := by
    refine ⟨by omega, ?_⟩
    have h2 : runSplit isJsSpace (wsB ++ []) = (wsB, []) := runSplit_all hwsB rfl
    simp only [List.append_nil] at h2
    rw [h2]
  rw [if_pos hcond]

theorem bqExec_none {s : Str} (h1 : headIs (· = '>') s = false)
    (h2 : (['&', 'g', 't', ';']).isPrefixOf s = false) : bqExec s = none := by
  rw [bqExec, if_neg (by simp [h1]), if_neg (by simp [h2])]

theorem htExec_none {s : Str} (h : headIs (· = '#') s = false) : htExec s = none := by
  rw [htExec]
  have := runSplit_not_head h
  rw [this]
  simp

theorem isPrefixOf_false_of_head {x : Char} {xs s : Str}
    (h : headIs (· = x) s = false) : (x :: xs).isPrefixOf s = false := by
  match s with
  | [] => rfl
  | c :: t =>
    simp only [headIs, decide_eq_false_iff_not] at h
    simp [List.isPrefixOf]
    intro hEq
    exact absurd hEq.symm h

/-- C8: horizontal-rule elevation.  For a block node whose entire text is, up
to surrounding whitespace, three or more repetitions of one rule character
(hyphen, equals or asterisk), the blockquote and header descriptors fail,
the rule descriptor matches, and elevation replaces the node outright with a
freshly created void rule node at the same tree position, discarding all of
the node's original children; the returned parent is null and the matching
descriptor has `isTypable = false`. -/
theorem HR_elevation (before after : List DomNode) (node : DomNode) (nid : Nat)
    (wsA wsB : Str) (c : Char) (k : Nat)
    (htext : textContent node = wsA ++ List.replicate k c ++ wsB)
    (hk : 3 ≤ k) (hc : c = '-' ∨ c = '=' ∨ c = '*')
    (hwsA : ∀ x ∈ wsA, isJsSpace x = true) (hwsB : ∀ x ∈ wsB, isJsSpace x = true) :
    BlockRenderer.Elevate markdownContainers ⟨before, node, after, nid⟩ =
      some (HR, ⟨none,
        .elem (stripNode .hrM true node nid).2 (("hr").toList) .nil,
        before ++ (.elem (stripNode .hrM true node nid).2 (("hr").toList) .nil) :: after,
        (stripNode .hrM true node nid).2 + 1⟩) ∧
    HR.isTypable = false := by
  have hcns : isJsSpace c = false := by
    rcases hc with rfl | rfl | rfl <;> decide
  have hhead : ∀ d : Char, d ≠ c → isJsSpace d = false →
      headIs (· = d) (wsA ++ List.replicate k c ++ wsB) = false := by
    intro d hd hdns
    cases wsA with
    | nil =>
      obtain ⟨j, rfl⟩ : ∃ j, k = j + 1 := ⟨k - 1, by omega⟩
      rw [List.replicate_succ]
      simp only [List.nil_append, List.cons_append, headIs, decide_eq_false_iff_not]
      exact fun hEq => hd hEq.symm
    | cons a as =>
      have ha : isJsSpace a = true := hwsA a (by simp)
      simp only [List.cons_append, headIs, decide_eq_false_iff_not]
      intro hEq
      rw [hEq, hdns] at ha
      exact absurd ha (by simp)
  have hbq : bqExec (textContent node) = none := by
    rw [htext]
    refine bqExec_none (hhead '>' (by rcases hc with rfl | rfl | rfl <;> decide) (by decide)) ?_
    exact isPrefixOf_false_of_head
      (hhead '&' (by rcases hc with rfl | rfl | rfl <;> decide) (by decide))
  have hht : htExec (textContent node) = none := by
    rw [htext]
    exact htExec_none (hhead '#' (by rcases hc with rfl | rfl | rfl <;> decide) (by decide))
  have hfm : fmLen FMark.hrM (textContent node) =
      some (wsA ++ List.replicate k c ++ wsB).length := by
    have heq : fmLen FMark.hrM = hrExec := rfl
    rw [heq, htext]
    exact hrExec_full hwsA hwsB hc hk
  have hbqC : containerElevate BLOCKQUOTE ⟨before, node, after, nid⟩ = none := by
    simp [containerElevate, BLOCKQUOTE, fmLen, hbq]
  have hhtC : containerElevate HeaderText ⟨before, node, after, nid⟩ = none := by
    simp [containerElevate, HeaderText, hht]
  have hhrC : containerElevate HR ⟨before, node, after, nid⟩ =
      some ⟨none, .elem (stripNode FMark.hrM true node nid).2 (("hr").toList) .nil,
        before ++ (.elem (stripNode FMark.hrM true node nid).2 (("hr").toList) .nil) :: after,
        (stripNode FMark.hrM true node nid).2 + 1⟩ := by
    rw [containerElevate]
    simp only [HR]
    rw [hfm]
  refine ⟨?_, rfl⟩
  rw [markdownContainers, BRElevate_cons_none hbqC, BRElevate_cons_none hhtC,
    BRElevate_cons_some hhrC]

/-- Witness for C8 at a concrete input: the scenario block with text
"--- " is replaced by a void rule node. -/
theorem HR_elevation_witness :
    BlockRenderer.Elevate markdownContainers
      ⟨[], .elem 0 (("P").toList) (.cons (.text 1 (("--- ").toList)) .nil), [], 2⟩ =
      some (HR, ⟨none,
        .elem (stripNode FMark.hrM true
          (.elem 0 (("P").toList) (.cons (.text 1 (("--- ").toList)) .nil)) 2).2
          (("hr").toList) .nil,
        [] ++ (DomNode.elem (stripNode FMark.hrM true
          (.elem 0 (("P").toList) (.cons (.text 1 (("--- ").toList)) .nil)) 2).2
          (("hr").toList) .nil) :: [],
        (stripNode FMark.hrM true
          (.elem 0 (("P").toList) (.cons (.text 1 (("--- ").toList)) .nil)) 2).2 + 1⟩) ∧
    HR.isTypable = false := by
  exact HR_elevation [] []
    (.elem 0 (("P").toList) (.cons (.text 1 (("--- ").toList)) .nil)) 2
    [] [' '] '-' 3 (by decide) (by decide) (by decide) (by decide) (by decide)


/-! Round-trip development (C1): infrastructure. -/

theorem render_append : ∀ a b : List Seg, render (a ++ b) = render a ++ render b := by
  intro a b
  induction a with
  | nil => rfl
  | cons g l ih => rw [List.cons_append, render, render, ih, List.append_assoc]

/-- Distinct membership of Boolean character classes separates characters. -/
theorem bool_class_ne {p : Char → Bool} {c d : Char} (h : p c = true)
    (hd : p d = false) : c ≠ d := by
  intro hEq
  subst hEq
  rw [h] at hd
  exact absurd hd (by decide)

/-- A whitespace character is not a word character. -/
theorem jsSpace_not_word {c : Char} (h : isJsSpace c = true) : isWordChar c = false := by
  rw [Bool.eq_false_iff]
  intro hw
  simp only [isJsSpace, Bool.or_eq_true, Bool.and_eq_true, decide_eq_true_eq,
    UInt32.le_def, BitVec.le_def, UInt32.toBitVec_ofNat, BitVec.toNat_ofNat,
    UInt32.ext_iff, BitVec.toNat_eq, UInt32.toNat_ofNat, UInt32.toNat, UInt32.size] at h
  simp only [isWordChar, Bool.or_eq_true, Bool.and_eq_true, decide_eq_true_eq,
    UInt32.le_def, BitVec.le_def, UInt32.toBitVec_ofNat, BitVec.toNat_ofNat,
    UInt32.ext_iff, BitVec.toNat_eq, UInt32.toNat_ofNat, UInt32.toNat, UInt32.size] at hw
  omega

theorem noStart_chars {M : Str → Option (Str × Str)} {x r : Str}
    (h : ∀ c ∈ x, ∀ t, M (c :: t) = none) : NoStart M x r := by
  intro u v huv hne
  match v, hne with
  | c :: v2, _ =>
    have hc : c ∈ x := by rw [huv]; simp
    exact h c hc _

theorem noStart_cons {M : Str → Option (Str × Str)} {c : Char} {x r : Str}
    (h1 : M (c :: (x ++ r)) = none) (h2 : NoStart M x r) : NoStart M (c :: x) r := by
  intro u v huv hne
  match u, huv with
  | [], huv =>
    simp only [List.nil_append] at huv
    subst huv
    simpa using h1
  | u0 :: u2, huv =>
    simp only [List.cons_append, List.cons.injEq] at huv
    exact h2 u2 v huv.2 hne

theorem noStart_append {M : Str → Option (Str × Str)} {x y r : Str}
    (h1 : NoStart M x (y ++ r)) (h2 : NoStart M y r) : NoStart M (x ++ y) r := by
  intro u v huv hne
  rcases List.append_eq_append_iff.mp huv with ⟨w, hw1, hw2⟩ | ⟨w, hw1, hw2⟩
  · exact h2 w v hw2 hne
  · match w, hw2 with
    | [], hw2 =>
      simp only [List.nil_append] at hw2
      rw [hw2]
      exact h2 [] _ rfl (by rw [← hw2]; exact hne)
    | w0 :: w2, hw2 =>
      rw [hw2, List.append_assoc]
      exact h1 u (w0 :: w2) hw1 (by simp)

/-- A global scan copies verbatim a block no position of which starts a
match, and continues behind it in the same state. -/
theorem scanPass_noStart {M : Str → Option (Str × Str)} (hM : Splits M) :
    ∀ {x r : Str}, NoStart M x r → ∀ st,
      scanPass M st (x ++ r) = (x ++ (scanPass M st r).1, (scanPass M st r).2) := by
  intro x
  induction x with
  | nil => intro r _ st; simp
  | cons c x2 ih =>
    intro r h st
    have hc : M (c :: (x2 ++ r)) = none := by
      have := h [] (c :: x2) rfl (by simp)
      simpa using this
    rw [List.cons_append, scanPass_nomatch hM hc st,
        ih (fun u v huv hne => h (c :: u) v (by rw [huv]; rfl) hne) st]
    simp

theorem noPre_chars {p0 : Char} {pt x : Str}
    (h : ∀ c ∈ x, c ≠ p0) : NoPre (p0 :: pt) x := by
  intro u v rr huv hne
  match v, hne with
  | c :: v2, _ =>
    have hc : c ∈ x := by rw [huv]; simp
    rw [Bool.eq_false_iff]
    intro hpre
    obtain ⟨w, hw⟩ := List.isPrefixOf_iff_prefix.mp hpre
    simp only [List.cons_append, List.cons.injEq] at hw
    exact h c hc hw.1.symm

theorem noPre_cons {pat : Str} {c : Char} {x : Str}
    (h1 : ∀ r, pat.isPrefixOf (c :: (x ++ r)) = false) (h2 : NoPre pat x) :
    NoPre pat (c :: x) := by
  intro u v rr huv hne
  match u, huv with
  | [], huv =>
    simp only [List.nil_append] at huv
    subst huv
    simpa using h1 rr
  | u0 :: u2, huv =>
    simp only [List.cons_append, List.cons.injEq] at huv
    exact h2 u2 v rr huv.2 hne

theorem noPre_append {pat x y : Str}
    (h1 : NoPre pat x) (h2 : NoPre pat y) : NoPre pat (x ++ y) := by
  intro u v rr huv hne
  rcases List.append_eq_append_iff.mp huv with ⟨w, hw1, hw2⟩ | ⟨w, hw1, hw2⟩
  · exact h2 w v rr hw2 hne
  · match w, hw2 with
    | [], hw2 =>
      simp only [List.nil_append] at hw2
      rw [hw2]
      exact h2 [] _ rr rfl (by rw [← hw2]; exact hne)
    | w0 :: w2, hw2 =>
      rw [hw2, List.append_assoc]
      exact h1 u (w0 :: w2) (y ++ rr) hw1 (by simp)


/-! Exact-match lemmas: each well-formed extracted segment matches its own
regex exactly at its start, whatever follows. -/

theorem containsSub_cons_of {p : Str} {c : Char} {s : Str}
    (h : containsSub p s = true) : containsSub p (c :: s) = true := by
  rw [containsSub, h, Bool.or_true]

/-- After a non-empty comment body free of the terminator, the literal
terminator is not yet a prefix. -/
theorem terminator_not_pre : ∀ (b r : Str), b ≠ [] →
    containsSub ['-', '-', '>'] b = false →
    (['-', '-', '>']).isPrefixOf (b ++ '-' :: '-' :: '>' :: r) = false := by
  intro b r hne hsub
  match b with
  | [x] => simp [List.isPrefixOf]
  | [x, y] => simp [List.isPrefixOf]
  | x :: y :: z :: b3 =>
    rw [Bool.eq_false_iff]
    intro hpre
    simp only [List.cons_append, List.isPrefixOf, Bool.and_eq_true, beq_iff_eq] at hpre
    obtain ⟨rfl, rfl, rfl, _⟩ := hpre
    rw [containsSub] at hsub
    simp only [List.isPrefixOf, beq_self_eq_true, Bool.true_and, Bool.true_or,
      Bool.true_eq_false] at hsub

/-- The lazy comment-body scan consumes exactly a body that is non-empty,
single-line, and free of the terminator. -/
theorem commentBody_exact : ∀ (b r : Str), b ≠ [] →
    (∀ c ∈ b, isLineTerm c = false) →
    containsSub ['-', '-', '>'] b = false →
    commentBody (b ++ '-' :: '-' :: '>' :: r) = some (b, r) := by
  intro b
  induction b with
  | nil => intro r h; exact absurd rfl h
  | cons c b2 ih =>
    intro r _ hlt hsub
    rw [List.cons_append, commentBody, if_neg (by rw [hlt c (by simp)]; simp)]
    match b2 with
    | [] =>
      simp [List.isPrefixOf]
    | d :: b3 =>
      rw [if_neg (by
        rw [terminator_not_pre (d :: b3) r (by simp)
          (by rw [Bool.eq_false_iff]; intro hs; rw [containsSub_cons_of hs] at hsub; simp at hsub)]
        simp)]
      rw [ih r (by simp) (fun x hx => hlt x (by simp [hx]))
        (by rw [Bool.eq_false_iff]; intro hs; rw [containsSub_cons_of hs] at hsub; simp at hsub)]

/-- A well-formed comment segment matches the comment regex exactly. -/
theorem commentMatch_exact {b : Str} (hne : b ≠ [])
    (hlt : ∀ c ∈ b, isLineTerm c = false)
    (hsub : containsSub ['-', '-', '>'] b = false) (r : Str) :
    commentMatch (renderSeg (.comm b) ++ r) = some (renderSeg (.comm b), r) := by
  rw [renderSeg]
  simp only [List.cons_append, List.append_assoc]
  rw [commentMatch, if_pos (by simp [List.isPrefixOf])]
  simp only [List.drop_succ_cons, List.drop_zero, List.nil_append]
  rw [commentBody_exact b r hne hlt hsub]

/-- The maximal word run agrees with the generic run splitter. -/
theorem wordRun_eq_runSplit : ∀ s, wordRun s = runSplit isWordChar s := by
  intro s
  induction s with
  | nil => rfl
  | cons c t ih =>
    rw [wordRun, runSplit, ih]

/-- Split at the first closing bracket, when the prefix contains none. -/
theorem splitBeforeGt_all : ∀ (x r : Str), (∀ c ∈ x, c ≠ '>') →
    splitBeforeGt (x ++ '>' :: r) = some (x, r) := by
  intro x
  induction x with
  | nil =>
    intro r _
    rw [List.nil_append, splitBeforeGt, if_pos rfl]
  | cons c x2 ih =>
    intro r h
    rw [List.cons_append, splitBeforeGt, if_neg (h c (by simp)), ih r (fun d hd => h d (by simp [hd]))]


theorem tagMatch_form (slp : Str) (w0 : Char) (w2 ax r : Str)
    (hslp : slashSplit (slp ++ ((w0 :: w2) ++ (ax ++ '>' :: r))) =
      (slp, (w0 :: w2) ++ (ax ++ '>' :: r)))
    (hw2 : ∀ c ∈ w0 :: w2, isWordChar c = true)
    (hax : ax = [] ∨ (2 ≤ ax.length ∧ headIs isJsSpace ax = true ∧ ∀ c ∈ ax, c ≠ '>')) :
    tagMatch ('<' :: (slp ++ ((w0 :: w2) ++ (ax ++ '>' :: r)))) =
      some ('<' :: (slp ++ ((w0 :: w2) ++ (ax ++ ['>']))), r) := by
  have hwr : ∀ b : Str, headIs isWordChar b = false →
      wordRun ((w0 :: w2) ++ b) = (w0 :: w2, b) := fun b hb => by
    rw [wordRun_eq_runSplit, runSplit_all hw2 hb]
  rw [tagMatch, if_pos rfl, hslp]
  simp only
  rcases hax with rfl | ⟨hx1, hx2, hx3⟩
  · simp only [List.nil_append]
    rw [hwr ('>' :: r) (by simp only [headIs]; decide)]
    simp only
    rw [if_neg (by simp), if_pos (by simp [headIs])]
    simp
  · cases ax with
    | nil => simp at hx1
    | cons x0 x2 =>
      simp only [headIs] at hx2
      have hx0gt : x0 ≠ '>' := hx3 x0 (by simp)
      rw [hwr ((x0 :: x2) ++ '>' :: r)
        (by simp only [List.cons_append, headIs]; rw [jsSpace_not_word hx2])]
      simp only
      rw [if_neg (by simp)]
      rw [if_neg (by simp only [List.cons_append, headIs]; simp [hx0gt])]
      rw [List.cons_append, splitBeforeGt, if_neg hx0gt,
          splitBeforeGt_all x2 r (fun d hd => hx3 d (by simp [hd]))]
      simp only
      rw [if_pos (by simp only [List.length_cons, headIs, hx2]; simp only [List.length_cons] at hx1; simp; omega)]
      simp

/-- A well-formed tag segment matches the tag regex exactly. -/
theorem tagMatch_exact {sl : Bool} {w : Str} {a : Option Str}
    (hw1 : w ≠ []) (hw2 : ∀ c ∈ w, isWordChar c = true)
    (ha : attrMatchOk a) (r : Str) :
    tagMatch (renderSeg (.tag sl w a) ++ r) = some (renderSeg (.tag sl w a), r) := by
  match w, hw1 with
  | w0 :: w2, _ =>
  have hw0 : isWordChar w0 = true := hw2 w0 (by simp)
  cases sl with
  | true =>
    match a, ha with
    | none, _ =>
      have := tagMatch_form ['/'] w0 w2 [] r rfl hw2 (Or.inl rfl)
      simp only [renderSeg, List.nil_append, List.cons_append, List.append_assoc] at this ⊢
      simpa using this
    | some x, ha =>
      have := tagMatch_form ['/'] w0 w2 x r rfl hw2 (Or.inr ha)
      simp only [renderSeg, List.cons_append, List.append_assoc] at this ⊢
      simpa using this
  | false =>
    have hss : ∀ u : Str, slashSplit ([] ++ ((w0 :: w2) ++ u)) = ([], (w0 :: w2) ++ u) := by
      intro u
      simp only [List.nil_append, List.cons_append]
      rw [slashSplit, if_neg (bool_class_ne hw0 (by decide))]
    match a, ha with
    | none, _ =>
      have := tagMatch_form [] w0 w2 [] r (hss ([] ++ '>' :: r)) hw2 (Or.inl rfl)
      simp only [renderSeg, List.nil_append, List.cons_append, List.append_assoc] at this ⊢
      simpa using this
    | some x, ha =>
      have := tagMatch_form [] w0 w2 x r (hss (x ++ '>' :: r)) hw2 (Or.inr ha)
      simp only [renderSeg, List.nil_append, List.cons_append, List.append_assoc] at this ⊢
      simpa using this

/-- A well-formed escape segment matches the escape regex exactly. -/
theorem escMatch_exact {c : Char} (hc : isLineTerm c = false) (r : Str) :
    escMatch (renderSeg (.esc c) ++ r) = some (renderSeg (.esc c), r) := by
  rw [renderSeg]
  simp only [List.cons_append, List.nil_append]
  rw [escMatch, if_pos (by simp [hc])]



/-! Skip lemmas: segments that a pass does not extract start no match of its
regex at any position, whatever follows them. -/

/-- The comment regex cannot match when the second character is not an
exclamation mark. -/
theorem commentMatch_none_second {c d : Char} (hd : d ≠ '!') (t : Str) :
    commentMatch (c :: d :: t) = none := by
  rw [commentMatch, if_neg]
  intro hpre
  obtain ⟨u, hu⟩ := List.isPrefixOf_iff_prefix.mp hpre
  simp only [List.cons_append, List.cons.injEq] at hu
  exact hd hu.2.1.symm

/-- A bracket followed by a non-exclamation character, then characters free
of brackets, start no comment match anywhere. -/
theorem noStart_comment_form (d : Char) (mid : Str) (hd : d ≠ '!') (hd2 : d ≠ '<')
    (hmid : ∀ c ∈ mid, c ≠ '<') (r : Str) :
    NoStart commentMatch ('<' :: d :: mid) r := by
  refine noStart_cons ?_ (noStart_chars ?_)
  · exact commentMatch_none_second hd _
  · intro c hc t
    rcases List.mem_cons.mp hc with rfl | hc
    · exact commentMatch_none_head hd2 t
    · exact commentMatch_none_head (hmid c hc) t

/-- A well-formed tag segment starts no comment match at any position. -/
theorem tag_noStart_comment {sl : Bool} {w : Str} {a : Option Str}
    (hw1 : w ≠ []) (hw2 : ∀ c ∈ w, isWordChar c = true)
    (ha : attrNoLt a) (r : Str) :
    NoStart commentMatch (renderSeg (.tag sl w a)) r := by
  match w, hw1 with
  | w0 :: w2, _ =>
  have hwlt : ∀ c ∈ w0 :: w2, c ≠ '<' := fun c hc => bool_class_ne (hw2 c hc) (by decide)
  have hw0i : isWordChar w0 = true := hw2 w0 (by simp)
  match a, ha with
  | none, _ =>
    cases sl with
    | true =>
      have hform := noStart_comment_form '/' ((w0 :: w2) ++ ['>']) (by decide) (by decide)
        (by
          intro c hc
          rcases List.mem_append.mp hc with hc | hc
          · exact hwlt c hc
          · simp only [List.mem_singleton] at hc; subst hc; decide) r
      simpa [renderSeg] using hform
    | false =>
      have hform := noStart_comment_form w0 (w2 ++ ['>'])
        (bool_class_ne hw0i (by decide)) (bool_class_ne hw0i (by decide))
        (by
          intro c hc
          rcases List.mem_append.mp hc with hc | hc
          · exact hwlt c (by simp [hc])
          · simp only [List.mem_singleton] at hc; subst hc; decide) r
      simpa [renderSeg] using hform
  | some x, ha =>
    cases sl with
    | true =>
      have hform := noStart_comment_form '/' ((w0 :: w2) ++ (x ++ ['>'])) (by decide) (by decide)
        (by
          intro c hc
          rcases List.mem_append.mp hc with hc | hc
          · exact hwlt c hc
          · rcases List.mem_append.mp hc with hc | hc
            · exact ha c hc
            · simp only [List.mem_singleton] at hc; subst hc; decide) r
      simpa [renderSeg] using hform
    | false =>
      have hform := noStart_comment_form w0 (w2 ++ (x ++ ['>']))
        (bool_class_ne hw0i (by decide)) (bool_class_ne hw0i (by decide))
        (by
          intro c hc
          rcases List.mem_append.mp hc with hc | hc
          · exact hwlt c (by simp [hc])
          · rcases List.mem_append.mp hc with hc | hc
            · exact ha c hc
            · simp only [List.mem_singleton] at hc; subst hc; decide) r
      simpa [renderSeg] using hform


/-! The generic extraction pass over a segment sequence: segments selected by
`E` are matched exactly and replaced by fresh marks whose pairs are appended
to the storage in text order; all other segments are copied verbatim. -/

/-- Unfolding equation of `scanPass` at a match, stated for an arbitrary
matched string. -/
theorem scanPass_match2 {M : Str → Option (Str × Str)} (hM : Splits M)
    {s : Str} {p : Str × Str} (hm : M s = some p) (st : Chaos) :
    scanPass M st s =
      ((createProxy st p.1).1 ++ (scanPass M (createProxy st p.1).2 p.2).1,
       (scanPass M (createProxy st p.1).2 p.2).2) := by
  obtain ⟨he, hne⟩ := hM _ _ _ hm
  match s, hm with
  | [], hm =>
    exact absurd (List.append_eq_nil.mp he.symm).1 hne
  | c :: t, hm =>
    exact scanPass_match hM hm st

theorem scanPass_segs {M : Str → Option (Str × Str)} (hM : Splits M) (E : Seg → Bool) :
    ∀ (l : List Seg) (st : Chaos),
      (∀ g ∈ l, E g = false → ∀ r, NoStart M (renderSeg g) r) →
      (∀ g ∈ l, E g = true → ∀ r, M (renderSeg g ++ r) = some (renderSeg g, r)) →
      (∀ g ∈ l, E g = true → mpair g = none) →
      ∃ l2 news,
        (scanPass M st (render l)).1 = render l2 ∧
        (scanPass M st (render l)).2.storage = st.storage ++ news ∧
        (scanPass M st (render l)).2.text = st.text ∧
        (mkPairs l2).Perm (mkPairs l ++ news) ∧
        List.Forall₂ (fun g h => (E g = false ∧ h = g) ∨
          (E g = true ∧ ∃ m, h = Seg.mk m (renderSeg g) ∧ markShape m)) l l2 := by
  intro l
  induction l with
  | nil =>
    intro st _ _ _
    refine ⟨[], [], ?_, ?_, ?_, ?_, List.Forall₂.nil⟩ <;>
      simp [render, scanPass_nil, mkPairs]
  | cons g rest ih =>
    intro st hskip hmatch hnm
    have hrender : render (g :: rest) = renderSeg g ++ render rest := rfl
    by_cases hE : E g = true
    · have hm := hmatch g (by simp) hE (render rest)
      have hmp : mpair g = none := hnm g (by simp) hE
      have hstep := scanPass_match2 hM hm st
      obtain ⟨ht, hcnt, hstor, hmark⟩ :=
        createProxy_state st (renderSeg g)
      obtain ⟨l2r, news, e1, e2, e3, e4, e5⟩ :=
        ih (createProxy st (renderSeg g)).2
          (fun d hd => hskip d (by simp [hd]))
          (fun d hd => hmatch d (by simp [hd]))
          (fun d hd => hnm d (by simp [hd]))
      refine ⟨Seg.mk (createProxy st (renderSeg g)).1 (renderSeg g) :: l2r,
        ((createProxy st (renderSeg g)).1, renderSeg g) :: news, ?_, ?_, ?_, ?_, ?_⟩
      · rw [hrender, hstep]
        simp only
        rw [e1]
        rfl
      · rw [hrender, hstep]
        simp only
        rw [e2, hstor]
        simp
      · rw [hrender, hstep]
        simp only
        rw [e3, ht]
      · have hpc : mkPairs (Seg.mk (createProxy st (renderSeg g)).1 (renderSeg g) :: l2r) =
            ((createProxy st (renderSeg g)).1, renderSeg g) :: mkPairs l2r := rfl
        have hpg : mkPairs (g :: rest) = mkPairs rest := by
          simp only [mkPairs, List.filterMap_cons, hmp]
        rw [hpc, hpg]
        refine List.Perm.trans (List.Perm.cons _ e4) ?_
        exact List.perm_middle.symm
      · exact List.Forall₂.cons
          (Or.inr ⟨hE, (createProxy st (renderSeg g)).1, rfl,
            ⟨(createProxy st (renderSeg g)).2.markCount, hmark⟩⟩) e5
    · have hE2 : E g = false := by simpa using hE
      have hns := hskip g (by simp) hE2 (render rest)
      have hstep := scanPass_noStart hM hns st
      obtain ⟨l2r, news, e1, e2, e3, e4, e5⟩ :=
        ih st
          (fun d hd => hskip d (by simp [hd]))
          (fun d hd => hmatch d (by simp [hd]))
          (fun d hd => hnm d (by simp [hd]))
      refine ⟨g :: l2r, news, ?_, ?_, ?_, ?_, ?_⟩
      · rw [hrender, hstep]
        simp only
        rw [e1]
        rfl
      · rw [hrender, hstep]
        simp only
        rw [e2]
      · rw [hrender, hstep]
        simp only
        rw [e3]
      · have hp2 : mkPairs (g :: l2r) = (mpair g).toList ++ mkPairs l2r := by
          cases hgp : mpair g with
          | none => simp [mkPairs, List.filterMap_cons, hgp]
          | some pr => simp [mkPairs, List.filterMap_cons, hgp]
        have hp1 : mkPairs (g :: rest) = (mpair g).toList ++ mkPairs rest := by
          cases hgp : mpair g with
          | none => simp [mkPairs, List.filterMap_cons, hgp]
          | some pr => simp [mkPairs, List.filterMap_cons, hgp]
        rw [hp2, hp1, List.append_assoc]
        exact List.Perm.append_left _ e4
      · exact List.Forall₂.cons (Or.inl ⟨hE2, rfl⟩) e5


/-! Decoding and re-encoding of the post-extraction segment stream. -/

theorem html_entity_decode_append_ne (x r : Str) (h : ∀ c ∈ x, c ≠ '&') :
    html_entity_decode (x ++ r) = x ++ html_entity_decode r := by
  induction x with
  | nil => rfl
  | cons c t ih =>
    rw [List.cons_append, html_entity_decode_cons_ne (h c (by simp)),
        ih (fun d hd => h d (by simp [hd]))]
    rfl

/-- Mark characters are not re-encoded by `text2html`. -/
theorem mkMark_char_ne2 {k : Nat} {c : Char} (h : c ∈ mkMark k) :
    c ≠ '>' ∧ c ≠ Char.ofNat 160 := by
  have hv : c.val = 0xFFFC ∨ c.val = 0xFFF9 ∨ c.val = 0xFFFB ∨
      ((48 ≤ c.val ∧ c.val ≤ 57) ∨ (97 ≤ c.val ∧ c.val ≤ 122)) := by
    rcases mkMark_chars h with rfl | rfl | rfl | hd
    · exact Or.inl (by decide)
    · exact Or.inr (Or.inl (by decide))
    · exact Or.inr (Or.inr (Or.inl (by decide)))
    · simp only [isB36Digit, Bool.or_eq_true, Bool.and_eq_true, decide_eq_true_eq] at hd
      exact Or.inr (Or.inr (Or.inr hd))
  refine ⟨?_, ?_⟩ <;> intro hEq <;> subst hEq <;> revert hv <;> decide

/-- Entity decoding of the post-extraction stream: each entity becomes its
literal character, marks and plain characters are copied. -/
theorem decode_segs : ∀ l : List Seg, (∀ g ∈ l, tailSeg g) →
    html_entity_decode (render l) = renderDecoded l := by
  intro l
  induction l with
  | nil => intro h2; rfl
  | cons g rest ih =>
    intro h
    have hrest := ih (fun d hd => h d (by simp [hd]))
    have hg := h g (by simp)
    have hout : renderDecoded (g :: rest) = decodedSeg g ++ renderDecoded rest := rfl
    match g, hg with
    | Seg.mk m f, hg =>
      obtain ⟨k, rfl⟩ := hg
      have hr : render (Seg.mk (mkMark k) f :: rest) = mkMark k ++ render rest := rfl
      rw [hr, html_entity_decode_append_ne _ _
        (fun c hc => (mkMark_char_ne hc).2.2), hrest, hout]
      rfl
    | Seg.entLt, _ =>
      have hr : render (Seg.entLt :: rest) = '&' :: 'l' :: 't' :: ';' :: render rest := rfl
      rw [hr, html_entity_decode_cons]
      simp only [if_pos rfl, List.isPrefixOf, beq_self_eq_true, Bool.and_self, if_pos]
      rw [hout]
      simp only [List.drop_succ_cons, List.drop_zero]
      rw [hrest]
      rfl
    | Seg.entGt, _ =>
      have hr : render (Seg.entGt :: rest) = '&' :: 'g' :: 't' :: ';' :: render rest := rfl
      rw [hr, html_entity_decode_cons]
      rw [if_pos rfl, if_neg (by simp [List.isPrefixOf]), if_pos (by simp [List.isPrefixOf])]
      rw [hout]
      simp only [List.drop_succ_cons, List.drop_zero]
      rw [hrest]
      rfl
    | Seg.entAmp, _ =>
      have hr : render (Seg.entAmp :: rest) = '&' :: 'a' :: 'm' :: 'p' :: ';' :: render rest := rfl
      rw [hr, html_entity_decode_cons]
      rw [if_pos rfl, if_neg (by simp [List.isPrefixOf]), if_neg (by simp [List.isPrefixOf]),
          if_pos (by simp [List.isPrefixOf])]
      rw [hout]
      simp only [List.drop_succ_cons, List.drop_zero]
      rw [hrest]
      rfl
    | Seg.entNbsp, _ =>
      have hr : render (Seg.entNbsp :: rest) = '&' :: 'n' :: 'b' :: 's' :: 'p' :: ';' :: render rest := rfl
      rw [hr, html_entity_decode_cons]
      rw [if_pos rfl, if_neg (by simp [List.isPrefixOf]), if_neg (by simp [List.isPrefixOf]),
          if_neg (by simp [List.isPrefixOf]), if_pos (by simp [List.isPrefixOf])]
      rw [hout]
      simp only [List.drop_succ_cons, List.drop_zero]
      rw [hrest]
      rfl
    | Seg.chr c, hg =>
      have hr : render (Seg.chr c :: rest) = c :: render rest := rfl
      rw [hr, html_entity_decode_cons_ne hg.1, hrest, hout]
      rfl

theorem text2html_append_plain (x r : Str)
    (h : ∀ c ∈ x, c ≠ '&' ∧ c ≠ '<' ∧ c ≠ '>' ∧ c ≠ Char.ofNat 160) :
    text2html (x ++ r) = x ++ text2html r := by
  induction x with
  | nil => rfl
  | cons c t ih =>
    obtain ⟨h1, h2, h3, h4⟩ := h c (by simp)
    rw [List.cons_append, text2html, if_neg h1, if_neg h2, if_neg h3, if_neg h4,
        ih (fun d hd => h d (by simp [hd]))]
    rfl

/-- Re-encoding of the decoded stream: each decoded entity character encodes
back to its reference, marks and plain characters are copied. -/
theorem encode_segs : ∀ l : List Seg, (∀ g ∈ l, tailSeg g) →
    text2html (renderDecoded l) = render l := by
  intro l
  induction l with
  | nil => intro h2; rfl
  | cons g rest ih =>
    intro h
    have hrest := ih (fun d hd => h d (by simp [hd]))
    have hg := h g (by simp)
    match g, hg with
    | Seg.mk m f, hg =>
      obtain ⟨k, rfl⟩ := hg
      have hout : renderDecoded (Seg.mk (mkMark k) f :: rest) =
          mkMark k ++ renderDecoded rest := rfl
      rw [hout, text2html_append_plain _ _
        (fun c hc => ⟨(mkMark_char_ne hc).2.2, (mkMark_char_ne hc).1,
          (mkMark_char_ne2 hc).1, (mkMark_char_ne2 hc).2⟩), hrest]
      rfl
    | Seg.entLt, _ =>
      have hout : renderDecoded (Seg.entLt :: rest) = '<' :: renderDecoded rest := rfl
      rw [hout, text2html, if_neg (by decide), if_pos rfl, hrest]
      rfl
    | Seg.entGt, _ =>
      have hout : renderDecoded (Seg.entGt :: rest) = '>' :: renderDecoded rest := rfl
      rw [hout, text2html, if_neg (by decide), if_neg (by decide), if_pos rfl, hrest]
      rfl
    | Seg.entAmp, _ =>
      have hout : renderDecoded (Seg.entAmp :: rest) = '&' :: renderDecoded rest := rfl
      rw [hout, text2html, if_pos rfl, hrest]
      rfl
    | Seg.entNbsp, _ =>
      have hout : renderDecoded (Seg.entNbsp :: rest) =
          Char.ofNat 160 :: renderDecoded rest := rfl
      rw [hout, text2html, if_neg (by decide), if_neg (by decide), if_neg (by decide),
          if_pos rfl, hrest]
      rfl
    | Seg.chr c, hg =>
      have hout : renderDecoded (Seg.chr c :: rest) = c :: renderDecoded rest := rfl
      rw [hout, text2html, if_neg hg.1, if_neg hg.2.1, if_neg hg.2.2.1, if_neg hg.2.2.2, hrest]
      rfl


/-! Mark substitution: every stored pair is substituted back exactly at its
segment, in any storage order, because marks occur uniquely. -/

/-- Two lists not containing a separator, joined to equal separated strings,
are equal. -/
theorem append_eq_no_sep {x : Char} : ∀ (a b u z : Str),
    (∀ c ∈ a, c ≠ x) → (∀ c ∈ b, c ≠ x) →
    a ++ x :: u = b ++ x :: z → a = b := by
  intro a
  induction a with
  | nil =>
    intro b u z _ hb h
    cases b with
    | nil => rfl
    | cons d b2 =>
      simp only [List.nil_append, List.cons_append, List.cons.injEq] at h
      exact absurd h.1 (Ne.symm (hb d (by simp)))
  | cons c a2 ih =>
    intro b u z ha hb h
    cases b with
    | nil =>
      simp only [List.cons_append, List.nil_append, List.cons.injEq] at h
      exact absurd h.1 (ha c (by simp))
    | cons d b2 =>
      simp only [List.cons_append, List.cons.injEq] at h
      rw [ih b2 u z (fun e he => ha e (by simp [he])) (fun e he => hb e (by simp [he])) h.2, h.1]

/-- The tail of a mark contains no further mark-head code point. -/
theorem mark_tail_ne {k : Nat} :
    ∀ c ∈ Char.ofNat 0xFFF9 :: (toBase 36 k ++ [Char.ofNat 0xFFFB]),
      c ≠ Char.ofNat 0xFFFC := by
  intro c hc
  rcases List.mem_cons.mp hc with rfl | hc
  · decide
  · rcases List.mem_append.mp hc with hc | hc
    · exact bool_class_ne (toBase36_digits k c hc) (by decide)
    · simp only [List.mem_singleton] at hc
      subst hc
      decide

/-- A mark that is a prefix of another mark followed by anything is that very
mark. -/
theorem mark_prefix_eq {j k : Nat} {z : Str}
    (h : (mkMark j).isPrefixOf (mkMark k ++ z) = true) : j = k := by
  obtain ⟨u, hu⟩ := List.isPrefixOf_iff_prefix.mp h
  simp only [mkMark, List.cons_append, List.singleton_append, List.nil_append,
    List.cons.injEq, List.append_assoc] at hu
  obtain ⟨_, _, hu⟩ := hu
  exact toBase36_inj j k (append_eq_no_sep (toBase 36 j) (toBase 36 k) _ _
    (fun c hc => bool_class_ne (toBase36_digits j c hc) (by decide))
    (fun c hc => bool_class_ne (toBase36_digits k c hc) (by decide)) hu)

/-- A segment that is not the mark segment of counter `j` starts no
occurrence of that mark at any position of its markup. -/
theorem noPre_seg (j : Nat) (g : Seg) (hG : SubOk g)
    (hne : ∀ f, g ≠ Seg.mk (mkMark j) f) :
    NoPre (mkMark j) (renderSeg g) := by
  cases g with
  | mk m f =>
    obtain ⟨⟨k, rfl⟩, hf1, hf2⟩ := hG
    have hkj : j ≠ k := by
      intro hEq
      subst hEq
      exact hne f rfl
    show NoPre (mkMark j)
      (Char.ofNat 0xFFFC :: (Char.ofNat 0xFFF9 :: (toBase 36 k ++ [Char.ofNat 0xFFFB])))
    refine noPre_cons ?_ (noPre_chars mark_tail_ne)
    intro r
    rw [Bool.eq_false_iff]
    intro hpre
    exact hkj (mark_prefix_eq hpre)
  | comm b => exact noPre_chars hG
  | tag sl w a => exact noPre_chars hG
  | esc c => exact noPre_chars hG
  | entLt => exact noPre_chars hG
  | entGt => exact noPre_chars hG
  | entAmp => exact noPre_chars hG
  | entNbsp => exact noPre_chars hG
  | chr c => exact noPre_chars hG
  | lit s => exact noPre_chars hG

/-- No position of the markup of a mark-`j`-free segment sequence starts an
occurrence of mark `j`. -/
theorem noPre_render (j : Nat) : ∀ (pre : List Seg),
    (∀ g ∈ pre, SubOk g) → (∀ g ∈ pre, ∀ f, g ≠ Seg.mk (mkMark j) f) →
    NoPre (mkMark j) (render pre) := by
  intro pre
  induction pre with
  | nil =>
    intro _ _ u v r huv hne
    match u, v, huv with
    | [], [], _ => exact absurd rfl hne
  | cons g pre2 ih =>
    intro hsub hne
    exact noPre_append (noPre_seg j g (hsub g (by simp)) (hne g (by simp)))
      (ih (fun d hd => hsub d (by simp [hd])) (fun d hd => hne d (by simp [hd])))

/-- First-occurrence search: the pattern is found exactly at the boundary
when no earlier position starts it. -/
theorem splitFirst_noPre {pat : Str} (hp : pat ≠ []) :
    ∀ (x b : Str), NoPre pat x → splitFirst pat (x ++ (pat ++ b)) = some (x, b) := by
  intro x
  induction x with
  | nil =>
    intro b _
    simp only [List.nil_append]
    match pat, hp with
    | c :: pt, _ =>
      rw [List.cons_append, splitFirst,
          if_pos (List.isPrefixOf_iff_prefix.mpr ⟨b, by simp⟩)]
      simp only [Option.some.injEq, Prod.mk.injEq, List.length_cons, List.drop_succ_cons]
      exact ⟨trivial, List.drop_left _ _⟩
  | cons c x2 ih =>
    intro b hnp
    have hhead : pat.isPrefixOf ((c :: x2) ++ (pat ++ b)) = false :=
      hnp [] (c :: x2) (pat ++ b) rfl (by simp)
    match pat, hp with
    | p0 :: pt, _ =>
      rw [List.cons_append, splitFirst, if_neg (by
        rw [← List.cons_append]
        exact ne_true_of_eq_false hhead)]
      rw [ih b (fun u v r huv hv => hnp (c :: u) v r (by rw [huv]; rfl) hv)]

/-- Dollar-inert replacement strings are expanded verbatim. -/
theorem expand_inert_aux (ma pre post : Str) :
    ∀ (n : Nat) (r : Str), r.length ≤ n → dollarInert r = true →
      expand ma pre post r = r := by
  intro n
  induction n with
  | zero =>
    intro r hlen _
    match r, hlen with
    | [], _ => rfl
  | succ n ih =>
    intro r hlen hin
    match r with
    | [] => rfl
    | [c] => rfl
    | c :: d :: t =>
      simp only [List.length_cons] at hlen
      rw [dollarInert] at hin
      rw [expand]
      by_cases hc : c = '$'
      · rw [if_pos hc] at hin
        simp only [Bool.and_eq_true, Bool.not_eq_eq_eq_not, Bool.not_true,
          Bool.or_eq_false_iff, decide_eq_false_iff_not] at hin
        obtain ⟨⟨⟨⟨hd1, hd2⟩, hd3⟩, hd4⟩, hin2⟩ := hin
        rw [if_pos hc, if_neg hd1, if_neg hd2, if_neg hd3, if_neg hd4,
            ih (d :: t) (by simp only [List.length_cons]; omega) hin2]
      · rw [if_neg hc] at hin
        rw [if_neg hc, ih (d :: t) (by simp only [List.length_cons]; omega) hin]

theorem expand_inert {r : Str} (h : dollarInert r = true) (ma pre post : Str) :
    expand ma pre post r = r :=
  expand_inert_aux ma pre post r.length r (le_refl _) h

/-- A sequence without mark segments is untouched by mark substitution. -/
theorem map_unmk_id : ∀ l : List Seg, (∀ g ∈ l, mpair g = none) → l.map unmk = l := by
  intro l
  induction l with
  | nil => intro h2; rfl
  | cons g rest ih =>
    intro h2
    rw [List.map_cons, ih (fun d hd => h2 d (by simp [hd]))]
    have hu : unmk g = g := by
      cases g with
      | mk m f => exact absurd (h2 (Seg.mk m f) (by simp)) (by simp [mpair])
      | comm b => rfl
      | tag sl w a => rfl
      | esc c => rfl
      | entLt => rfl
      | entGt => rfl
      | entAmp => rfl
      | entNbsp => rfl
      | chr c => rfl
      | lit s => rfl
    rw [hu]

/-- The recovery loop of `getHTML` on a segment sequence: substituting the
stored pairs, in any order that enumerates exactly the mark segments,
replaces every mark by its fragment. -/
theorem substMarks_segs :
    ∀ (pairs : List (Str × Str)) (l : List Seg),
      (∀ g ∈ l, SubOk g) →
      ((mkPairs l).map Prod.fst).Pairwise (· ≠ ·) →
      pairs.Perm (mkPairs l) →
      substMarks pairs (render l) = render (l.map unmk) := by
  intro pairs
  induction pairs with
  | nil =>
    intro l hsub _ hperm
    have hnil : mkPairs l = [] := (hperm.symm).eq_nil
    have hnone : ∀ g ∈ l, mpair g = none := by
      intro g hg
      exact List.filterMap_eq_nil_iff.mp hnil g hg
    rw [map_unmk_id l hnone]
    rfl
  | cons pr rest ihp =>
    intro l hsub hdis hperm
    obtain ⟨m, f⟩ := pr
    have hmem : (m, f) ∈ mkPairs l := hperm.mem_iff.mp (by simp)
    obtain ⟨g, hgl, hgp⟩ := List.mem_filterMap.mp hmem
    have hgmk : g = Seg.mk m f := by
      cases g <;> simp only [mpair, Option.some.injEq, Prod.mk.injEq,
        reduceCtorEq] at hgp
      · rw [hgp.1, hgp.2]
    subst hgmk
    obtain ⟨pre, post, hl⟩ := List.append_of_mem hgl
    subst hl
    have hsubmk := hsub (Seg.mk m f) (by simp)
    obtain ⟨⟨j, hj⟩, hf1, hf2⟩ := hsubmk
    subst hj
    have hpairs : mkPairs (pre ++ Seg.mk (mkMark j) f :: post) =
        mkPairs pre ++ ((mkMark j, f) :: mkPairs post) := by
      simp [mkPairs, List.filterMap_append, List.filterMap_cons, mpair]
    have hprem : ∀ p ∈ mkPairs pre, p.1 ≠ mkMark j := by
      intro p hp
      have := hdis
      rw [hpairs, List.map_append, List.pairwise_append] at this
      exact this.2.2 p.1 (List.mem_map_of_mem Prod.fst hp) (mkMark j) (by simp)
    have hnp : NoPre (mkMark j) (render pre) := by
      refine noPre_render j pre (fun d hd => hsub d (by simp [hd])) ?_
      intro d hd f2 hdf
      subst hdf
      exact hprem (mkMark j, f2) (by
        simp only [mkPairs, List.mem_filterMap]
        exact ⟨Seg.mk (mkMark j) f2, hd, rfl⟩) rfl
    have hrl : render (pre ++ Seg.mk (mkMark j) f :: post) =
        render pre ++ (mkMark j ++ render post) := by
      rw [render_append]
      rfl
    have hsf : splitFirst (mkMark j) (render (pre ++ Seg.mk (mkMark j) f :: post)) =
        some (render pre, render post) := by
      rw [hrl]
      exact splitFirst_noPre (by simp [mkMark]) (render pre) (render post) hnp
    have hrepl : replaceOnce (mkMark j) f (render (pre ++ Seg.mk (mkMark j) f :: post)) =
        render (pre ++ Seg.lit f :: post) := by
      rw [replaceOnce, hsf]
      simp only
      rw [expand_inert hf2, render_append]
      have hlit : render (Seg.lit f :: post) = f ++ render post := rfl
      rw [hlit, List.append_assoc]
    have hstep : substMarks ((mkMark j, f) :: rest)
        (render (pre ++ Seg.mk (mkMark j) f :: post)) =
        substMarks rest (render (pre ++ Seg.lit f :: post)) := by
      rw [substMarks, hrepl]
    rw [hstep]
    have hpairs2 : mkPairs (pre ++ Seg.lit f :: post) = mkPairs pre ++ mkPairs post := by
      simp [mkPairs, List.filterMap_append, List.filterMap_cons, mpair]
    have hsub2 : ∀ g ∈ pre ++ Seg.lit f :: post, SubOk g := by
      intro d hd
      rcases List.mem_append.mp hd with hd | hd
      · exact hsub d (by simp [hd])
      · rcases List.mem_cons.mp hd with rfl | hd
        · exact hf1
        · exact hsub d (by simp [hd])
    have hdis2 : ((mkPairs (pre ++ Seg.lit f :: post)).map Prod.fst).Pairwise (· ≠ ·) := by
      rw [hpairs2, List.map_append]
      rw [hpairs, List.map_append, List.map_cons] at hdis
      exact List.Pairwise.sublist
        (List.Sublist.append_left (List.sublist_cons_self _ _) _) hdis
    have hperm2 : rest.Perm (mkPairs (pre ++ Seg.lit f :: post)) := by
      rw [hpairs2]
      have h1 : mkPairs (pre ++ Seg.mk (mkMark j) f :: post) =
          mkPairs pre ++ (mkMark j, f) :: mkPairs post := hpairs
      have h2 : ((mkMark j, f) :: rest).Perm
          ((mkMark j, f) :: (mkPairs pre ++ mkPairs post)) := by
        refine hperm.trans ?_
        rw [h1]
        exact List.perm_middle
      exact h2.cons_inv
    rw [ihp (pre ++ Seg.lit f :: post) hsub2 hdis2 hperm2]
    simp [unmk]


/-! Well-formedness destructuring and per-segment facts. -/

theorem wfComm_parts {b : Str} (h : wfInput (Seg.comm b) = true) :
    b ≠ [] ∧ (∀ c ∈ b, isLineTerm c = false ∧ c ≠ Char.ofNat 0xFFFC) ∧
    containsSub ['-', '-', '>'] b = false ∧
    dollarInert (renderSeg (Seg.comm b)) = true := by
  simp only [wfInput, Bool.and_eq_true, Bool.not_eq_eq_eq_not, Bool.not_true,
    List.isEmpty_eq_false, List.all_eq_true, decide_eq_true_eq] at h
  obtain ⟨⟨⟨h1, h2⟩, h3⟩, h4⟩ := h
  refine ⟨by simpa using h1, ?_, h3, h4⟩
  intro c hc
  have := h2 c hc
  simp only [Bool.and_eq_true, Bool.not_eq_eq_eq_not, Bool.not_true,
    decide_eq_false_iff_not] at this
  exact ⟨this.1, this.2⟩

theorem wfTag_parts {sl : Bool} {w : Str} {a : Option Str}
    (h : wfInput (Seg.tag sl w a) = true) :
    w ≠ [] ∧ (∀ c ∈ w, isWordChar c = true) ∧
    attrOk a ∧
    dollarInert (renderSeg (Seg.tag sl w a)) = true := by
  simp only [wfInput, Bool.and_eq_true, Bool.not_eq_eq_eq_not, Bool.not_true,
    List.isEmpty_eq_false, List.all_eq_true] at h
  obtain ⟨⟨⟨h1, h2⟩, h3⟩, h4⟩ := h
  refine ⟨by simpa using h1, h2, ?_, h4⟩
  match a, h3 with
  | none, _ => trivial
  | some x, h3 =>
    show 2 ≤ x.length ∧ headIs isJsSpace x = true ∧
      ∀ c ∈ x, c ≠ '>' ∧ c ≠ '<' ∧ c ≠ Char.ofNat 0xFFFC
    simp only [Bool.and_eq_true, decide_eq_true_eq, List.all_eq_true] at h3
    obtain ⟨⟨hx1, hx2⟩, hx3⟩ := h3
    refine ⟨hx1, hx2, ?_⟩
    intro c hc
    have := hx3 c hc
    simp only [Bool.and_eq_true, Bool.not_eq_eq_eq_not, Bool.not_true,
      decide_eq_false_iff_not] at this
    exact ⟨this.1.1, this.1.2, this.2⟩

theorem wfEsc_parts {c : Char} (h : wfInput (Seg.esc c) = true) :
    isLineTerm c = false ∧ c ≠ '<' ∧ c ≠ Char.ofNat 0xFFFC := by
  simp only [wfInput, Bool.and_eq_true, Bool.not_eq_eq_eq_not, Bool.not_true,
    decide_eq_false_iff_not] at h
  exact ⟨h.1.1, h.1.2, h.2⟩

theorem wfChr_parts {c : Char} (h : wfInput (Seg.chr c) = true) :
    c ≠ '&' ∧ c ≠ '<' ∧ c ≠ '>' ∧ c ≠ '\\' ∧ c ≠ Char.ofNat 160 ∧
    c ≠ Char.ofNat 0xFFFC := by
  simp only [wfInput, Bool.and_eq_true, Bool.not_eq_eq_eq_not, Bool.not_true,
    decide_eq_false_iff_not] at h
  exact ⟨h.1.1.1.1.1, h.1.1.1.1.2, h.1.1.1.2, h.1.1.2, h.1.2, h.2⟩

/-- No well-formed input segment is already a mark. -/
theorem wf_mpair_none {g : Seg} (h : wfInput g = true) : mpair g = none := by
  cases g <;> first
    | rfl
    | simp [wfInput] at h

/-- Membership in the optional attribute part of a well-formed tag. -/
theorem attr_mem {a : Option Str} {c : Char} (h3 : attrOk a)
    (hc : c ∈ (match a with | none => ([] : Str) | some x => x)) :
    c ≠ '>' ∧ c ≠ '<' ∧ c ≠ Char.ofNat 0xFFFC := by
  match a, h3, hc with
  | some x, h3, hc => exact h3.2.2 c hc
  | none, _, hc => simp at hc

/-- The attribute condition implies the exact-match hypothesis of the tag
regex. -/
theorem attrOk_tagMatch {a : Option Str} (h : attrOk a) : attrMatchOk a := by
  match a, h with
  | none, _ => trivial
  | some x, h =>
    show 2 ≤ x.length ∧ headIs isJsSpace x = true ∧ ∀ c ∈ x, c ≠ '>'
    exact ⟨h.1, h.2.1, fun c hc => (h.2.2 c hc).1⟩

/-- The attribute condition implies the bracket-freeness hypothesis of the
comment-pass skip lemma. -/
theorem attrOk_noLt {a : Option Str} (h : attrOk a) : attrNoLt a := by
  match a, h with
  | none, _ => trivial
  | some x, h =>
    show ∀ c ∈ x, c ≠ '<'
    exact fun c hc => (h.2.2 c hc).2.1

/-- The markup of a well-formed input segment contains no mark-head code
point. -/
theorem wf_render_noMark {g : Seg} (h : wfInput g = true) :
    noMarkChar (renderSeg g) := by
  cases g with
  | comm b =>
    obtain ⟨_, h2, _, _⟩ := wfComm_parts h
    intro c hc
    simp only [renderSeg, List.mem_cons, List.mem_append, List.mem_singleton] at hc
    rcases hc with rfl | rfl | rfl | rfl | hc | hc
    · decide
    · decide
    · decide
    · decide
    · exact (h2 c hc).2
    · rcases hc with rfl | rfl | rfl | hc
      · decide
      · decide
      · decide
      · simp at hc
  | tag sl w a =>
    obtain ⟨_, h2, h3, _⟩ := wfTag_parts h
    intro c hc
    simp only [renderSeg, List.mem_cons] at hc
    rcases hc with rfl | hc
    · decide
    · simp only [List.mem_append, List.mem_singleton] at hc
      rcases hc with ((hc | hc) | hc) | rfl
      · cases sl with
        | true => simp only [if_pos rfl] at hc; simp at hc; subst hc; decide
        | false => simp at hc
      · exact bool_class_ne (h2 c hc) (by decide)
      · exact (attr_mem h3 hc).2.2
      · decide
  | esc c =>
    obtain ⟨_, _, h3⟩ := wfEsc_parts h
    intro d hd
    simp only [renderSeg, List.mem_cons, List.not_mem_nil, or_false] at hd
    rcases hd with rfl | rfl
    · decide
    · exact h3
  | entLt => intro c hc; simp only [renderSeg, List.mem_cons, List.not_mem_nil, or_false] at hc; rcases hc with rfl | rfl | rfl | rfl <;> decide
  | entGt => intro c hc; simp only [renderSeg, List.mem_cons, List.not_mem_nil, or_false] at hc; rcases hc with rfl | rfl | rfl | rfl <;> decide
  | entAmp => intro c hc; simp only [renderSeg, List.mem_cons, List.not_mem_nil, or_false] at hc; rcases hc with rfl | rfl | rfl | rfl | rfl <;> decide
  | entNbsp => intro c hc; simp only [renderSeg, List.mem_cons, List.not_mem_nil, or_false] at hc; rcases hc with rfl | rfl | rfl | rfl | rfl | rfl <;> decide
  | chr c =>
    intro d hd
    simp only [renderSeg, List.mem_singleton] at hd
    subst hd
    exact (wfChr_parts h).2.2.2.2.2
  | mk m f => simp [wfInput] at h
  | lit s => simp [wfInput] at h

/-- The markup of a well-formed input segment contains no active dollar
pattern. -/
theorem wf_dollarInert {g : Seg} (h : wfInput g = true) :
    dollarInert (renderSeg g) = true := by
  cases g with
  | comm b => exact (wfComm_parts h).2.2.2
  | tag sl w a => exact (wfTag_parts h).2.2.2
  | esc c => rfl
  | entLt => rfl
  | entGt => rfl
  | entAmp => rfl
  | entNbsp => rfl
  | chr c => rfl
  | mk m f => simp [wfInput] at h
  | lit s => simp [wfInput] at h

theorem forall2_mem_right {R : Seg → Seg → Prop} :
    ∀ {l l2 : List Seg}, List.Forall₂ R l l2 → ∀ h ∈ l2, ∃ g ∈ l, R g h := by
  intro l l2 hf
  induction hf with
  | nil => intro h hh; simp at hh
  | cons hr hrest ih =>
    intro h hh
    rcases List.mem_cons.mp hh with rfl | hh
    · exact ⟨_, by simp, hr⟩
    · obtain ⟨g, hg, hgr⟩ := ih h hh
      exact ⟨g, by simp [hg], hgr⟩

theorem forall2_comp {R S T : Seg → Seg → Prop}
    (hc : ∀ x y z, R x y → S y z → T x z) :
    ∀ {a b : List Seg}, List.Forall₂ R a b →
      ∀ {c : List Seg}, List.Forall₂ S b c → List.Forall₂ T a c := by
  intro a b hab
  induction hab with
  | nil =>
    intro c hbc
    cases hbc
    exact List.Forall₂.nil
  | cons hr hrest ih =>
    intro c hbc
    cases hbc with
    | cons hs hsrest =>
      exact List.Forall₂.cons (hc _ _ _ hr hs) (ih hsrest)


/-! Digestion of a well-formed segment sequence. -/

theorem noStart_comment_of_chars {x : Str} (h : ∀ c ∈ x, c ≠ '<') (r : Str) :
    NoStart commentMatch x r :=
  noStart_chars (fun c hc t => commentMatch_none_head (h c hc) t)

theorem noStart_tag_of_chars {x : Str} (h : ∀ c ∈ x, c ≠ '<') (r : Str) :
    NoStart tagMatch x r :=
  noStart_chars (fun c hc t => tagMatch_none_head (h c hc) t)

theorem noStart_esc_of_chars {x : Str} (h : ∀ c ∈ x, c ≠ '\\') (r : Str) :
    NoStart escMatch x r :=
  noStart_chars (fun c hc t => escMatch_none_head (h c hc) t)

theorem forall2_imp_mem {R S : Seg → Seg → Prop} :
    ∀ {a b : List Seg}, List.Forall₂ R a b →
      (∀ g ∈ a, ∀ h, R g h → S g h) → List.Forall₂ S a b := by
  intro a b hab
  induction hab with
  | nil => intro _; exact List.Forall₂.nil
  | cons hr hrest ih =>
    intro himp
    exact List.Forall₂.cons (himp _ (by simp) _ hr)
      (ih (fun g hg h hR => himp g (by simp [hg]) h hR))

theorem forall2_chain {R S : Seg → Seg → Prop} :
    ∀ {a b : List Seg}, List.Forall₂ R a b → ∀ {c : List Seg}, List.Forall₂ S b c →
      List.Forall₂ (fun x z => ∃ y, R x y ∧ S y z) a c :=
  forall2_comp (fun _ y _ h1 h2 => ⟨y, h1, h2⟩)

/-- Case analysis of the three-pass chain on one well-formed input segment. -/
theorem chain_to_final {g h : Seg} (hw : wfInput g = true)
    (hch : ∃ y, passRel isCommSeg g y ∧
      ∃ z, passRel isTagSeg y z ∧ passRel isEscSeg z h) :
    finRel g h := by
  obtain ⟨y, hr1, z, hr2, hr3⟩ := hch
  rcases hr1 with ⟨hEc, hq1⟩ | ⟨hEc, m, hq1, hms⟩
  · subst hq1
    rcases hr2 with ⟨hEt, hq2⟩ | ⟨hEt, m, hq2, hms⟩
    · subst hq2
      rcases hr3 with ⟨hEe, hq3⟩ | ⟨hEe, m, hq3, hms⟩
      · subst hq3
        refine Or.inl ⟨rfl, wf_mpair_none hw, ?_⟩
        cases h with
        | comm b => simp [isCommSeg] at hEc
        | tag sl w a => simp [isTagSeg] at hEt
        | esc c => simp [isEscSeg] at hEe
        | entLt => trivial
        | entGt => trivial
        | entAmp => trivial
        | entNbsp => trivial
        | chr c =>
          obtain ⟨q1, q2, q3, _, q5, _⟩ := wfChr_parts hw
          exact ⟨q1, q2, q3, q5⟩
        | mk m f => simp [wfInput] at hw
        | lit s => simp [wfInput] at hw
      · subst hq3
        exact Or.inr ⟨m, rfl, hms⟩
    · subst hq2
      rcases hr3 with ⟨hEe, hq3⟩ | ⟨hEe, m2, hq3, hms2⟩
      · subst hq3
        exact Or.inr ⟨m, rfl, hms⟩
      · obtain ⟨k, hk⟩ := hms
        rw [hk] at hEe
        simp [isEscSeg] at hEe
  · subst hq1
    rcases hr2 with ⟨hEt, hq2⟩ | ⟨hEt, m2, hq2, hms2⟩
    · subst hq2
      rcases hr3 with ⟨hEe, hq3⟩ | ⟨hEe, m2, hq3, hms2⟩
      · subst hq3
        exact Or.inr ⟨m, rfl, hms⟩
      · obtain ⟨k, hk⟩ := hms
        rw [hk] at hEe
        simp [isEscSeg] at hEe
    · obtain ⟨k, hk⟩ := hms
      rw [hk] at hEt
      simp [isTagSeg] at hEt

theorem digest_segs (segs : List Seg) (st : Chaos)
    (hwf : ∀ g ∈ segs, wfInput g = true) :
    ∃ (l3 : List Seg) (news : List (Str × Str)),
      (digestHTML st (render segs)).1 = renderDecoded l3 ∧
      (digestHTML st (render segs)).2.storage = st.storage ++ news ∧
      (mkPairs l3).Perm news ∧
      (∀ g ∈ l3, tailSeg g) ∧
      (∀ g ∈ l3, SubOk g) ∧
      List.Forall₂ finRel segs l3 := by
  obtain ⟨l1, n1, a1, a2, a3, a4, a5⟩ :=
    scanPass_segs commentMatch_splits isCommSeg segs st
      (by
        intro g hg hE r
        have hw := hwf g hg
        cases g with
        | comm b => simp [isCommSeg] at hE
        | tag sl w a =>
          obtain ⟨p1, p2, p3, _⟩ := wfTag_parts hw
          exact tag_noStart_comment p1 p2 (attrOk_noLt p3) r
        | esc c =>
          refine noStart_comment_of_chars ?_ r
          intro d hd
          simp only [renderSeg, List.mem_cons, List.not_mem_nil, or_false] at hd
          rcases hd with rfl | rfl
          · decide
          · exact (wfEsc_parts hw).2.1
        | entLt => exact noStart_comment_of_chars (by decide) r
        | entGt => exact noStart_comment_of_chars (by decide) r
        | entAmp => exact noStart_comment_of_chars (by decide) r
        | entNbsp => exact noStart_comment_of_chars (by decide) r
        | chr c =>
          refine noStart_comment_of_chars ?_ r
          intro d hd
          simp only [renderSeg, List.mem_singleton] at hd
          subst hd
          exact (wfChr_parts hw).2.1
        | mk m f => simp [wfInput] at hw
        | lit s => simp [wfInput] at hw)
      (by
        intro g hg hE r
        have hw := hwf g hg
        cases g with
        | comm b =>
          obtain ⟨p1, p2, p3, _⟩ := wfComm_parts hw
          exact commentMatch_exact p1 (fun c hc => (p2 c hc).1) p3 r
        | tag sl w a => simp [isCommSeg] at hE
        | esc c => simp [isCommSeg] at hE
        | entLt => simp [isCommSeg] at hE
        | entGt => simp [isCommSeg] at hE
        | entAmp => simp [isCommSeg] at hE
        | entNbsp => simp [isCommSeg] at hE
        | chr c => simp [isCommSeg] at hE
        | mk m f => simp [isCommSeg] at hE
        | lit s => simp [isCommSeg] at hE)
      (fun g hg hE => by cases g <;> first | rfl | simp [isCommSeg] at hE)
  have horig1 : ∀ h ∈ l1, ∃ g ∈ segs, wfInput g = true ∧ passRel isCommSeg g h := by
    intro h hh
    obtain ⟨g, hg, hr⟩ := forall2_mem_right a5 h hh
    exact ⟨g, hg, hwf g hg, hr⟩
  obtain ⟨l2, n2, b1, b2, b3, b4, b5⟩ :=
    scanPass_segs tagMatch_splits isTagSeg l1 (scanPass commentMatch st (render segs)).2
      (by
        intro g1 hg1 hE r
        obtain ⟨g, hg, hw, hrel⟩ := horig1 g1 hg1
        rcases hrel with ⟨hEc, hq⟩ | ⟨hEc, m, hq, hms⟩
        · subst hq
          cases g1 with
          | comm b => simp [isCommSeg] at hEc
          | tag sl w a => simp [isTagSeg] at hE
          | esc c =>
            refine noStart_tag_of_chars ?_ r
            intro d hd
            simp only [renderSeg, List.mem_cons, List.not_mem_nil, or_false] at hd
            rcases hd with rfl | rfl
            · decide
            · exact (wfEsc_parts hw).2.1
          | entLt => exact noStart_tag_of_chars (by decide) r
          | entGt => exact noStart_tag_of_chars (by decide) r
          | entAmp => exact noStart_tag_of_chars (by decide) r
          | entNbsp => exact noStart_tag_of_chars (by decide) r
          | chr c =>
            refine noStart_tag_of_chars ?_ r
            intro d hd
            simp only [renderSeg, List.mem_singleton] at hd
            subst hd
            exact (wfChr_parts hw).2.1
          | mk m f => simp [wfInput] at hw
          | lit s => simp [wfInput] at hw
        · subst hq
          obtain ⟨k, hk⟩ := hms
          subst hk
          exact noStart_tag_of_chars (fun c hc => (mkMark_char_ne hc).1) r)
      (by
        intro g1 hg1 hE r
        obtain ⟨g, hg, hw, hrel⟩ := horig1 g1 hg1
        rcases hrel with ⟨hEc, hq⟩ | ⟨hEc, m, hq, hms⟩
        · subst hq
          cases g1 with
          | tag sl w a =>
            obtain ⟨p1, p2, p3, _⟩ := wfTag_parts hw
            exact tagMatch_exact p1 p2 (attrOk_tagMatch p3) r
          | comm b => simp [isCommSeg] at hEc
          | esc c => simp [isTagSeg] at hE
          | entLt => simp [isTagSeg] at hE
          | entGt => simp [isTagSeg] at hE
          | entAmp => simp [isTagSeg] at hE
          | entNbsp => simp [isTagSeg] at hE
          | chr c => simp [isTagSeg] at hE
          | mk m f => simp [wfInput] at hw
          | lit s => simp [wfInput] at hw
        · subst hq
          simp [isTagSeg] at hE)
      (fun g1 hg1 hE => by cases g1 <;> first | rfl | simp [isTagSeg] at hE)
  have horig2 : ∀ h ∈ l2, ∃ y ∈ l1, (∃ g ∈ segs, wfInput g = true ∧ passRel isCommSeg g y) ∧
      passRel isTagSeg y h := by
    intro h hh
    obtain ⟨y, hy, hr2⟩ := forall2_mem_right b5 h hh
    exact ⟨y, hy, horig1 y hy, hr2⟩
  obtain ⟨l3, n3, c1, c2, c3, c4, c5⟩ :=
    scanPass_segs escMatch_splits isEscSeg l2
      (scanPass tagMatch (scanPass commentMatch st (render segs)).2 (render l1)).2
      (by
        intro g2 hg2 hE r
        obtain ⟨y, hy, ⟨g, hg, hw, hr1⟩, hr2⟩ := horig2 g2 hg2
        rcases hr2 with ⟨hEt, hq2⟩ | ⟨hEt, m, hq2, hms⟩
        · subst hq2
          rcases hr1 with ⟨hEc, hq1⟩ | ⟨hEc, m, hq1, hms⟩
          · subst hq1
            cases g2 with
            | comm b => simp [isCommSeg] at hEc
            | tag sl w a => simp [isTagSeg] at hEt
            | esc c => simp [isEscSeg] at hE
            | entLt => exact noStart_esc_of_chars (by decide) r
            | entGt => exact noStart_esc_of_chars (by decide) r
            | entAmp => exact noStart_esc_of_chars (by decide) r
            | entNbsp => exact noStart_esc_of_chars (by decide) r
            | chr c =>
              refine noStart_esc_of_chars ?_ r
              intro d hd
              simp only [renderSeg, List.mem_singleton] at hd
              subst hd
              exact (wfChr_parts hw).2.2.2.1
            | mk m f => simp [wfInput] at hw
            | lit s => simp [wfInput] at hw
          · subst hq1
            obtain ⟨k, hk⟩ := hms
            subst hk
            exact noStart_esc_of_chars (fun c hc => (mkMark_char_ne hc).2.1) r
        · subst hq2
          obtain ⟨k, hk⟩ := hms
          subst hk
          exact noStart_esc_of_chars (fun c hc => (mkMark_char_ne hc).2.1) r)
      (by
        intro g2 hg2 hE r
        obtain ⟨y, hy, ⟨g, hg, hw, hr1⟩, hr2⟩ := horig2 g2 hg2
        rcases hr2 with ⟨hEt, hq2⟩ | ⟨hEt, m, hq2, hms⟩
        · subst hq2
          rcases hr1 with ⟨hEc, hq1⟩ | ⟨hEc, m, hq1, hms⟩
          · subst hq1
            cases g2 with
            | esc c => exact escMatch_exact (wfEsc_parts hw).1 r
            | comm b => simp [isCommSeg] at hEc
            | tag sl w a => simp [isTagSeg] at hEt
            | entLt => simp [isEscSeg] at hE
            | entGt => simp [isEscSeg] at hE
            | entAmp => simp [isEscSeg] at hE
            | entNbsp => simp [isEscSeg] at hE
            | chr c => simp [isEscSeg] at hE
            | mk m f => simp [wfInput] at hw
            | lit s => simp [wfInput] at hw
          · subst hq1
            obtain ⟨k, hk⟩ := hms
            subst hk
            simp [isEscSeg] at hE
        · subst hq2
          obtain ⟨k, hk⟩ := hms
          subst hk
          simp [isEscSeg] at hE)
      (fun g2 hg2 hE => by cases g2 <;> first | rfl | simp [isEscSeg] at hE)
  have hcomp1 : List.Forall₂
      (fun y h => ∃ z, passRel isTagSeg y z ∧ passRel isEscSeg z h) l1 l3 :=
    forall2_chain b5 c5
  have hcomp2 : List.Forall₂
      (fun g h => ∃ y, passRel isCommSeg g y ∧
        ∃ z, passRel isTagSeg y z ∧ passRel isEscSeg z h) segs l3 :=
    forall2_chain a5 hcomp1
  have hforall : List.Forall₂ finRel segs l3 :=
    forall2_imp_mem hcomp2 (fun g hg h hR => chain_to_final (hwf g hg) hR)
  have hchain : ∀ h ∈ l3, ∃ g ∈ segs, wfInput g = true ∧ finRel g h := by
    intro h hh
    obtain ⟨g, hg, hr⟩ := forall2_mem_right hforall h hh
    exact ⟨g, hg, hwf g hg, hr⟩
  refine ⟨l3, n1 ++ (n2 ++ n3), ?_, ?_, ?_, ?_, ?_, hforall⟩
  · rw [digestHTML]
    simp only
    rw [a1, b1, c1]
    refine decode_segs l3 ?_
    intro h hh
    obtain ⟨g, hg, hw, hrel⟩ := hchain h hh
    rcases hrel with ⟨rfl, _, ht⟩ | ⟨m, rfl, hms⟩
    · exact ht
    · exact hms
  · rw [digestHTML]
    simp only
    rw [a1, b1, c2, b2, a2]
    simp
  · have hps : mkPairs segs = [] :=
      List.filterMap_eq_nil_iff.mpr (fun g hg => wf_mpair_none (hwf g hg))
    refine c4.trans ?_
    refine (List.Perm.append_right n3 b4).trans ?_
    refine (List.Perm.append_right n3 (List.Perm.append_right n2 a4)).trans ?_
    rw [hps]
    simp [List.append_assoc]
  · intro h hh
    obtain ⟨g, hg, hw, hrel⟩ := hchain h hh
    rcases hrel with ⟨rfl, _, ht⟩ | ⟨m, rfl, hms⟩
    · exact ht
    · exact hms
  · intro h hh
    obtain ⟨g, hg, hw, hrel⟩ := hchain h hh
    rcases hrel with ⟨hq, _, _⟩ | ⟨m, rfl, hms⟩
    · subst hq
      cases h with
        | comm b => exact wf_render_noMark hw
        | tag sl w a => exact wf_render_noMark hw
        | esc c => exact wf_render_noMark hw
        | entLt => exact wf_render_noMark hw
        | entGt => exact wf_render_noMark hw
        | entAmp => exact wf_render_noMark hw
        | entNbsp => exact wf_render_noMark hw
        | chr c => exact wf_render_noMark hw
        | mk m f => simp [wfInput] at hw
        | lit s => simp [wfInput] at hw
    · exact ⟨hms, wf_render_noMark hw, wf_dollarInert hw⟩


/-- A segment that is not a mark is untouched by substitution. -/
theorem unmk_id {g : Seg} (h : mpair g = none) : unmk g = g := by
  cases g with
  | mk m f => exact absurd h (by simp [mpair])
  | comm b => rfl
  | tag sl w a => rfl
  | esc c => rfl
  | entLt => rfl
  | entGt => rfl
  | entAmp => rfl
  | entNbsp => rfl
  | chr c => rfl
  | lit s => rfl

/-- Substituting every mark of the digested stream back restores the
original markup of the input segments. -/
theorem render_unmk_rel : ∀ {a b : List Seg}, List.Forall₂ finRel a b →
    render (b.map unmk) = render a := by
  intro a b h
  induction h with
  | nil => rfl
  | cons hr hrest ih =>
    rw [List.map_cons, render, render, ih]
    rcases hr with ⟨hq, hmp, _⟩ | ⟨m, hq, _⟩
    · subst hq
      rw [unmk_id hmp]
    · subst hq
      rfl

/-- C1 counterexample: a single raw ampersand.  Digestion extracts nothing
and decodes nothing, but `getHTML` re-encodes the ampersand as its character
reference, so the round-trip is not the identity on arbitrary mark-free
markup strings. -/
theorem setHTML_getHTML_not_roundtrip :
    getHTML (setHTML ⟨[], [], 0⟩ ['&']) ≠ ['&'] := by decide

/-- C1 (amended): round-trip on the well-formed markup grammar.  For every
markup string assembled from well-formed segments — comments with non-empty
single-line bodies free of the terminator, tags with a word name and an
absent or whitespace-led bracket-free attribute part, escapes of
non-line-terminator characters other than the opening bracket, the four
decodable character entities, and plain characters other than raw
ampersand, brackets, backslash and non-breaking space — none containing the
reserved mark code point or an active dollar replacement pattern, loading
the string with `setHTML` and reading it back with `getHTML`, with no
intervening replace call, returns exactly the input string. -/
theorem setHTML_getHTML_roundtrip (st : Chaos) (segs : List Seg)
    (hwf : ∀ g ∈ segs, wfInput g = true) :
    getHTML (setHTML st (render segs)) = render segs := by
  obtain ⟨l3, news, d1, d2, d3, d4, d5, d6⟩ :=
    digest_segs segs ⟨st.text, [], 0⟩ hwf
  have hinv : StInv (digestHTML ⟨st.text, [], 0⟩ (render segs)).2 :=
    (digestHTML_state ⟨st.text, [], 0⟩ (render segs) (StInv_reset st.text)).1
  have hdisk : ((digestHTML ⟨st.text, [], 0⟩ (render segs)).2.storage.map
      Prod.fst).Pairwise (· ≠ ·) := StInv_keys_distinct hinv
  rw [d2] at hdisk
  simp only [List.nil_append] at hdisk
  have hd3m : ((mkPairs l3).map Prod.fst).Perm (news.map Prod.fst) :=
    List.Perm.map Prod.fst d3
  have hdis : ((mkPairs l3).map Prod.fst).Pairwise (· ≠ ·) :=
    (List.Perm.pairwise_iff (fun hab => hab.symm) hd3m).mpr hdisk
  show substMarks (setHTML st (render segs)).storage
    (text2html (setHTML st (render segs)).text) = render segs
  have hstor : (setHTML st (render segs)).storage =
      (digestHTML ⟨st.text, [], 0⟩ (render segs)).2.storage := rfl
  have htext : (setHTML st (render segs)).text =
      (digestHTML ⟨st.text, [], 0⟩ (render segs)).1 := rfl
  rw [hstor, htext, d1, d2]
  simp only [List.nil_append]
  rw [encode_segs l3 d4]
  rw [substMarks_segs news l3 d5 hdis d3.symm]
  exact render_unmk_rel d6

/-- C1 witness: a concrete well-formed markup string containing a tag, a
plain character, an entity, a comment, an escape and a closing tag
round-trips exactly. -/
theorem setHTML_getHTML_roundtrip_witness :
    (∀ g ∈ [Seg.tag false ['b'] none, Seg.chr 'h', Seg.entAmp,
      Seg.comm [' ', 'h', 'i', ' '], Seg.esc '*', Seg.tag true ['b'] none],
      wfInput g = true) ∧
    getHTML (setHTML ⟨[], [], 0⟩
      (render [Seg.tag false ['b'] none, Seg.chr 'h', Seg.entAmp,
        Seg.comm [' ', 'h', 'i', ' '], Seg.esc '*', Seg.tag true ['b'] none])) =
      render [Seg.tag false ['b'] none, Seg.chr 'h', Seg.entAmp,
        Seg.comm [' ', 'h', 'i', ' '], Seg.esc '*', Seg.tag true ['b'] none] :=
  ⟨by decide, setHTML_getHTML_roundtrip ⟨[], [], 0⟩
    [Seg.tag false ['b'] none, Seg.chr 'h', Seg.entAmp,
      Seg.comm [' ', 'h', 'i', ' '], Seg.esc '*', Seg.tag true ['b'] none]
    (by decide)⟩


/-! Header elevation (C7): normalization and tokenization stepping lemmas. -/

theorem nbspNormAux_fuel :
    ∀ m fuel s, s.length ≤ m → s.length < fuel →
      nbspNormAux fuel s = nbspNorm s := by
  intro m
  induction m with
  | zero =>
    intro fuel s hm hf
    match s, hm with
    | [], _ =>
      match fuel, hf with
      | f + 1, _ => rfl
  | succ m ih =>
    intro fuel s hm hf
    match s with
    | [] =>
      cases fuel with
      | zero => omega
      | succ f => rfl
    | c :: t =>
      cases fuel with
      | zero => omega
      | succ f =>
        simp only [List.length_cons] at hm hf
        rw [nbspNorm]
        simp only [List.length_cons]
        rw [nbspNormAux]
        conv_rhs => rw [nbspNormAux]
        by_cases hc : c = '&' ∧ (['n', 'b', 's', 'p', ';']).isPrefixOf t
        · rw [if_pos hc, if_pos hc]
          have hd : (t.drop 5).length ≤ t.length := by
            simp only [List.length_drop]
            omega
          rw [ih f (t.drop 5) (by omega) (by omega),
              ih (t.length + 1) (t.drop 5) (by omega) (by omega)]
        · rw [if_neg hc, if_neg hc,
              ih f t (by omega) (by omega), ih (t.length + 1) t (by omega) (by omega)]

/-- Unfolding of the normalization on a non-ampersand head. -/
theorem nbspNorm_cons_ne {c : Char} (hc : c ≠ '&') (t : Str) :
    nbspNorm (c :: t) = c :: nbspNorm t := by
  rw [nbspNorm]
  simp only [List.length_cons]
  rw [nbspNormAux, if_neg (by simp [hc]),
      nbspNormAux_fuel t.length (t.length + 1) t (by omega) (by omega)]

theorem nbspNorm_append_ne (x r : Str) (h : ∀ c ∈ x, c ≠ '&') :
    nbspNorm (x ++ r) = x ++ nbspNorm r := by
  induction x with
  | nil => rfl
  | cons c t ih =>
    rw [List.cons_append, nbspNorm_cons_ne (h c (by simp)),
        ih (fun d hd => h d (by simp [hd]))]
    rfl

/-- Unfolding of the normalization at an encoded entity other than the
non-breaking space. -/
theorem nbspNorm_ent {d : Char} (hd : d ≠ 'n') (t : Str) :
    nbspNorm ('&' :: d :: t) = '&' :: nbspNorm (d :: t) := by
  rw [nbspNorm]
  simp only [List.length_cons]
  rw [nbspNormAux, if_neg (by
    intro hcon
    obtain ⟨u, hu⟩ := List.isPrefixOf_iff_prefix.mp hcon.2
    simp only [List.cons_append, List.cons.injEq] at hu
    exact hd hu.1.symm)]
  rw [nbspNormAux_fuel (t.length + 1) (t.length + 2) (d :: t) (by simp) (by simp)]

/-- The normalization replaces the non-breaking-space reference. -/
theorem nbspNorm_nbsp (t : Str) :
    nbspNorm ('&' :: 'n' :: 'b' :: 's' :: 'p' :: ';' :: t) =
      Char.ofNat 160 :: nbspNorm t := by
  rw [nbspNorm]
  simp only [List.length_cons]
  rw [nbspNormAux, if_pos (by simp [List.isPrefixOf])]
  simp only [List.drop_succ_cons, List.drop_zero]
  rw [nbspNormAux_fuel t.length (t.length + 6) t (by omega) (by omega)]

/-- Normalizing encoded text yields the plain encoding, and continues
behind it. -/
theorem nbspNorm_text2html (s r : Str) :
    nbspNorm (text2html s ++ r) = encPlain s ++ nbspNorm r := by
  induction s with
  | nil => rfl
  | cons c t ih =>
    rw [text2html, encPlain]
    by_cases h1 : c = '&'
    · rw [if_pos h1, if_pos h1]
      simp only [List.cons_append]
      rw [nbspNorm_ent (by decide), nbspNorm_cons_ne (by decide),
          nbspNorm_cons_ne (by decide), nbspNorm_cons_ne (by decide),
          nbspNorm_cons_ne (by decide), ih]
    · rw [if_neg h1, if_neg h1]
      by_cases h2 : c = '<'
      · rw [if_pos h2, if_pos h2]
        simp only [List.cons_append]
        rw [nbspNorm_ent (by decide), nbspNorm_cons_ne (by decide),
            nbspNorm_cons_ne (by decide), nbspNorm_cons_ne (by decide), ih]
      · rw [if_neg h2, if_neg h2]
        by_cases h3 : c = '>'
        · rw [if_pos h3, if_pos h3]
          simp only [List.cons_append]
          rw [nbspNorm_ent (by decide), nbspNorm_cons_ne (by decide),
              nbspNorm_cons_ne (by decide), nbspNorm_cons_ne (by decide), ih]
        · rw [if_neg h3, if_neg h3]
          by_cases h4 : c = Char.ofNat 160
          · rw [if_pos h4]
            simp only [List.cons_append]
            rw [nbspNorm_nbsp, ih, h4]
          · rw [if_neg h4]
            simp only [List.cons_append]
            rw [nbspNorm_cons_ne h1, ih]


/-! Tokenization of normalized markup. -/

theorem takeTag_rest_lt {t : Str} {q : Bool × Str × Str} (h : takeTag t = some q) :
    q.2.2.length < t.length := by
  rw [takeTag] at h
  rcases hsl : slashSplit t with ⟨s1, s2⟩
  rcases hw : wordRun s2 with ⟨w1, w2⟩
  have h1 : t = s1 ++ s2 := by
    have := slashSplit_decomp t
    rwa [hsl] at this
  have h2 : s2 = w1 ++ w2 := by
    have := wordRun_decomp s2
    rwa [hw] at this
  rw [hsl] at h
  simp only at h
  rw [hw] at h
  simp only at h
  split at h
  · exact absurd h (by simp)
  · split at h
    · next hgt =>
      simp only [Option.some.injEq] at h
      subst h
      have hne : w1 ≠ [] := by assumption
      have hw2 : w2 ≠ [] := by
        match w2, hgt with
        | c :: w3, _ => simp
      simp only
      rw [h1, h2]
      simp only [List.length_append, List.length_drop]
      have : 1 ≤ w1.length := List.length_pos.mpr hne
      have : 1 ≤ w2.length := List.length_pos.mpr hw2
      omega
    · exact absurd h (by simp)

theorem tokenizeAux_fuel :
    ∀ m fuel s, s.length ≤ m → s.length < fuel →
      tokenizeAux fuel s = tokenize s := by
  intro m
  induction m with
  | zero =>
    intro fuel s hm hf
    match s, hm with
    | [], _ =>
      match fuel, hf with
      | f + 1, _ => rfl
  | succ m ih =>
    intro fuel s hm hf
    match s with
    | [] =>
      cases fuel with
      | zero => omega
      | succ f => rfl
    | c :: t =>
      cases fuel with
      | zero => omega
      | succ f =>
        simp only [List.length_cons] at hm hf
        rw [tokenize]
        simp only [List.length_cons]
        rw [tokenizeAux]
        conv_rhs => rw [tokenizeAux]
        by_cases hamp : c = '&'
        · rw [if_pos hamp, if_pos hamp]
          by_cases p1 : (['l', 't', ';']).isPrefixOf t
          · rw [if_pos p1, if_pos p1,
                ih f (t.drop 3) (by simp only [List.length_drop]; omega) (by simp only [List.length_drop]; omega),
                ih (t.length + 1) (t.drop 3) (by simp only [List.length_drop]; omega) (by simp only [List.length_drop]; omega)]
          · rw [if_neg p1, if_neg p1]
            by_cases p2 : (['g', 't', ';']).isPrefixOf t
            · rw [if_pos p2, if_pos p2,
                  ih f (t.drop 3) (by simp only [List.length_drop]; omega) (by simp only [List.length_drop]; omega),
                  ih (t.length + 1) (t.drop 3) (by simp only [List.length_drop]; omega) (by simp only [List.length_drop]; omega)]
            · rw [if_neg p2, if_neg p2]
              by_cases p3 : (['a', 'm', 'p', ';']).isPrefixOf t
              · rw [if_pos p3, if_pos p3,
                    ih f (t.drop 4) (by simp only [List.length_drop]; omega) (by simp only [List.length_drop]; omega),
                    ih (t.length + 1) (t.drop 4) (by simp only [List.length_drop]; omega) (by simp only [List.length_drop]; omega)]
              · rw [if_neg p3, if_neg p3]
                by_cases p4 : (['n', 'b', 's', 'p', ';']).isPrefixOf t
                · rw [if_pos p4, if_pos p4,
                      ih f (t.drop 5) (by simp only [List.length_drop]; omega) (by simp only [List.length_drop]; omega),
                      ih (t.length + 1) (t.drop 5) (by simp only [List.length_drop]; omega) (by simp only [List.length_drop]; omega)]
                · rw [if_neg p4, if_neg p4,
                      ih f t (by omega) (by omega), ih (t.length + 1) t (by omega) (by omega)]
        · rw [if_neg hamp, if_neg hamp]
          by_cases hlt : c = '<'
          · rw [if_pos hlt, if_pos hlt]
            cases htt : takeTag t with
            | none =>
              rw [ih f t (by omega) (by omega), ih (t.length + 1) t (by omega) (by omega)]
            | some q =>
              have hq := takeTag_rest_lt htt
              simp only
              rw [ih f q.2.2 (by omega) (by omega),
                  ih (t.length + 1) q.2.2 (by omega) (by omega)]
          · rw [if_neg hlt, if_neg hlt,
                ih f t (by omega) (by omega), ih (t.length + 1) t (by omega) (by omega)]

/-- Tokenization step at a plain character. -/
theorem tokenize_char {c : Char} (h1 : c ≠ '&') (h2 : c ≠ '<') (t : Str) :
    tokenize (c :: t) = Tok.chTok c :: tokenize t := by
  rw [tokenize]
  simp only [List.length_cons]
  rw [tokenizeAux, if_neg h1, if_neg h2,
      tokenizeAux_fuel t.length (t.length + 1) t (by omega) (by omega)]

/-- Tokenization step at the ampersand entity. -/
theorem tokenize_amp (t : Str) :
    tokenize ('&' :: 'a' :: 'm' :: 'p' :: ';' :: t) = Tok.chTok '&' :: tokenize t := by
  rw [tokenize]
  simp only [List.length_cons]
  rw [tokenizeAux, if_pos rfl, if_neg (by simp [List.isPrefixOf]),
      if_neg (by simp [List.isPrefixOf]), if_pos (by simp [List.isPrefixOf])]
  simp only [List.drop_succ_cons, List.drop_zero]
  rw [tokenizeAux_fuel t.length (t.length + 5) t (by omega) (by omega)]

/-- Tokenization step at the left-bracket entity. -/
theorem tokenize_lt (t : Str) :
    tokenize ('&' :: 'l' :: 't' :: ';' :: t) = Tok.chTok '<' :: tokenize t := by
  rw [tokenize]
  simp only [List.length_cons]
  rw [tokenizeAux, if_pos rfl, if_pos (by simp [List.isPrefixOf])]
  simp only [List.drop_succ_cons, List.drop_zero]
  rw [tokenizeAux_fuel t.length (t.length + 4) t (by omega) (by omega)]

/-- Tokenization step at the right-bracket entity. -/
theorem tokenize_gt (t : Str) :
    tokenize ('&' :: 'g' :: 't' :: ';' :: t) = Tok.chTok '>' :: tokenize t := by
  rw [tokenize]
  simp only [List.length_cons]
  rw [tokenizeAux, if_pos rfl, if_neg (by simp [List.isPrefixOf]),
      if_pos (by simp [List.isPrefixOf])]
  simp only [List.drop_succ_cons, List.drop_zero]
  rw [tokenizeAux_fuel t.length (t.length + 4) t (by omega) (by omega)]

/-- Tokenization step at a bracket starting a well-formed tag. -/
theorem tokenize_lt_tag {t : Str} {q : Bool × Str × Str} (htt : takeTag t = some q) :
    tokenize ('<' :: t) =
      (if q.1 then Tok.closeTok q.2.1 else Tok.openTok q.2.1) :: tokenize q.2.2 := by
  rw [tokenize]
  simp only [List.length_cons]
  rw [tokenizeAux, if_neg (by decide), if_pos rfl, htt]
  simp only
  have hq := takeTag_rest_lt htt
  rw [tokenizeAux_fuel q.2.2.length (t.length + 1) q.2.2 (le_refl _) (by omega)]

/-- Tokenization step at an opening tag with a word name. -/
theorem tokenize_open {tg : Str} (h1 : tg ≠ []) (h2 : ∀ c ∈ tg, isWordChar c = true)
    (t : Str) :
    tokenize ('<' :: (tg ++ '>' :: t)) = Tok.openTok tg :: tokenize t := by
  match tg, h1 with
  | g0 :: g2, _ =>
  have hg0 : isWordChar g0 = true := h2 g0 (by simp)
  have htt : takeTag ((g0 :: g2) ++ '>' :: t) = some (false, g0 :: g2, t) := by
    rw [takeTag]
    rw [List.cons_append, slashSplit, if_neg (bool_class_ne hg0 (by decide))]
    simp only
    rw [← List.cons_append, wordRun_eq_runSplit,
        runSplit_all h2 (by simp only [headIs]; decide)]
    simp only
    rw [if_neg (by simp), if_pos (by simp [headIs])]
    simp
  rw [tokenize_lt_tag htt]
  simp

/-- Tokenization step at a closing tag with a word name. -/
theorem tokenize_close {tg : Str} (h1 : tg ≠ []) (h2 : ∀ c ∈ tg, isWordChar c = true)
    (t : Str) :
    tokenize ('<' :: '/' :: (tg ++ '>' :: t)) = Tok.closeTok tg :: tokenize t := by
  match tg, h1 with
  | g0 :: g2, _ =>
  have htt : takeTag ('/' :: ((g0 :: g2) ++ '>' :: t)) = some (true, g0 :: g2, t) := by
    rw [takeTag, slashSplit, if_pos rfl]
    simp only
    rw [wordRun_eq_runSplit, runSplit_all h2 (by simp only [headIs]; decide)]
    simp only
    rw [if_neg (by simp), if_pos (by simp [headIs])]
    simp
  rw [tokenize_lt_tag htt]
  simp

/-- Tokenizing plain-encoded text yields its characters. -/
theorem tokenize_encPlain (s r : Str) :
    tokenize (encPlain s ++ r) = s.map Tok.chTok ++ tokenize r := by
  induction s with
  | nil => rfl
  | cons c t ih =>
    rw [encPlain, List.map_cons]
    by_cases h1 : c = '&'
    · rw [if_pos h1]
      simp only [List.cons_append]
      rw [tokenize_amp, ih, h1]
    · rw [if_neg h1]
      by_cases h2 : c = '<'
      · rw [if_pos h2]
        simp only [List.cons_append]
        rw [tokenize_lt, ih, h2]
      · rw [if_neg h2]
        by_cases h3 : c = '>'
        · rw [if_pos h3]
          simp only [List.cons_append]
          rw [tokenize_gt, ih, h3]
        · rw [if_neg h3]
          simp only [List.cons_append]
          rw [tokenize_char h1 h2, ih]


/-! Normalization and tokenization of serialized subtrees. -/

mutual

theorem nbspNorm_serializeN : ∀ (n : DomNode), wfN n = true → ∀ r : Str,
    nbspNorm (serializeNode n ++ r) = serializeNormN n ++ nbspNorm r
  | .text i s => by
    intro _ r
    exact nbspNorm_text2html s r
  | .elem i tg cs => by
    intro hw r
    simp only [wfN, Bool.and_eq_true, Bool.not_eq_eq_eq_not, Bool.not_true,
      List.isEmpty_eq_false, List.all_eq_true] at hw
    obtain ⟨⟨htne, htw⟩, hcs⟩ := hw
    have htamp : ∀ c ∈ tg, c ≠ '&' := fun c hc => bool_class_ne (htw c hc) (by decide)
    simp only [serializeNode, serializeNormN, List.cons_append, List.append_assoc]
    rw [nbspNorm_cons_ne (by decide), nbspNorm_append_ne tg _ htamp,
        nbspNorm_cons_ne (by decide), nbspNorm_serializeF cs hcs _,
        nbspNorm_cons_ne (by decide), nbspNorm_cons_ne (by decide),
        nbspNorm_append_ne tg _ htamp, nbspNorm_cons_ne (by decide)]
    simp

theorem nbspNorm_serializeF : ∀ (f : DomForest), wfF f = true → ∀ r : Str,
    nbspNorm (serializeF f ++ r) = serializeNormF f ++ nbspNorm r
  | .nil => by
    intro _ r
    rfl
  | .cons n f => by
    intro hw r
    simp only [wfF, Bool.and_eq_true] at hw
    obtain ⟨⟨hn, hf⟩, _⟩ := hw
    simp only [serializeF, serializeNormF, List.append_assoc]
    rw [nbspNorm_serializeN n hn _, nbspNorm_serializeF f hf r]

end

mutual

theorem tokenize_serializeNormN : ∀ (n : DomNode), wfN n = true → ∀ r : Str,
    tokenize (serializeNormN n ++ r) = tokN n ++ tokenize r
  | .text i s => by
    intro _ r
    exact tokenize_encPlain s r
  | .elem i tg cs => by
    intro hw r
    simp only [wfN, Bool.and_eq_true, Bool.not_eq_eq_eq_not, Bool.not_true,
      List.isEmpty_eq_false, List.all_eq_true] at hw
    obtain ⟨⟨htne, htw⟩, hcs⟩ := hw
    simp only [serializeNormN, tokN, List.cons_append, List.append_assoc]
    rw [tokenize_open htne htw, tokenize_serializeNormF cs hcs _,
        tokenize_close htne htw]
    simp

theorem tokenize_serializeNormF : ∀ (f : DomForest), wfF f = true → ∀ r : Str,
    tokenize (serializeNormF f ++ r) = tokF f ++ tokenize r
  | .nil => by
    intro _ r
    rfl
  | .cons n f => by
    intro hw r
    simp only [wfF, Bool.and_eq_true] at hw
    obtain ⟨⟨hn, hf⟩, _⟩ := hw
    simp only [serializeNormF, tokF, List.append_assoc]
    rw [tokenize_serializeNormN n hn _, tokenize_serializeNormF f hf r]

end


/-! The parser reproduces a parse-stable subtree from its token stream. -/

theorem build_chars_go : ∀ (s : Str) (i : Nat) (u : Str) (r : List DomNode)
    (stack : List (Str × List DomNode)) (nid : Nat),
    List.foldl bstep ⟨stack, .text i u :: r, nid⟩ (s.map Tok.chTok) =
      ⟨stack, .text i (u ++ s) :: r, nid⟩ := by
  intro s
  induction s with
  | nil => intro i u r stack nid; simp
  | cons c s2 ih =>
    intro i u r stack nid
    rw [List.map_cons, List.foldl_cons]
    have hstep : bstep ⟨stack, .text i u :: r, nid⟩ (Tok.chTok c) =
        ⟨stack, .text i (u ++ [c]) :: r, nid⟩ := rfl
    rw [hstep, ih]
    simp

theorem build_chars_fresh : ∀ (s : Str), s ≠ [] →
    ∀ (stack : List (Str × List DomNode)) (acc : List DomNode) (nid : Nat),
    (acc = [] ∨ ∃ a acc2, acc = a :: acc2 ∧ isElem a = true) →
    List.foldl bstep ⟨stack, acc, nid⟩ (s.map Tok.chTok) =
      ⟨stack, .text nid s :: acc, nid + 1⟩ := by
  intro s hne stack acc nid hg
  match s, hne with
  | c :: s2, _ =>
  rw [List.map_cons, List.foldl_cons]
  have hstep : bstep ⟨stack, acc, nid⟩ (Tok.chTok c) =
      ⟨stack, .text nid [c] :: acc, nid + 1⟩ := by
    rcases hg with rfl | ⟨a, acc2, rfl, ha⟩
    · rfl
    · match a, ha with
      | .elem j tg cs, _ => rfl
  rw [hstep, build_chars_go]
  simp

mutual

theorem buildN : ∀ (n : DomNode), wfN n = true →
    ∀ (stack : List (Str × List DomNode)) (acc : List DomNode) (nid : Nat),
    (isElem n = true ∨ acc = [] ∨ ∃ a acc2, acc = a :: acc2 ∧ isElem a = true) →
    ∃ (b : DomNode) (nid2 : Nat),
      List.foldl bstep ⟨stack, acc, nid⟩ (tokN n) = ⟨stack, b :: acc, nid2⟩ ∧
      structEq b n = true ∧ isElem b = isElem n ∧ nid ≤ nid2
  | .text i s => by
    intro hw stack acc nid hg
    simp only [wfN, Bool.not_eq_eq_eq_not, Bool.not_true, List.isEmpty_eq_false] at hw
    have hg2 : acc = [] ∨ ∃ a acc2, acc = a :: acc2 ∧ isElem a = true := by
      rcases hg with hg | hg
      · simp [isElem] at hg
      · exact hg
    refine ⟨.text nid s, nid + 1, ?_, ?_, rfl, by omega⟩
    · exact build_chars_fresh s hw stack acc nid hg2
    · simp [structEq]
  | .elem i tg cs => by
    intro hw stack acc nid _
    simp only [wfN, Bool.and_eq_true, Bool.not_eq_eq_eq_not, Bool.not_true,
      List.isEmpty_eq_false, List.all_eq_true] at hw
    obtain ⟨⟨htne, htw⟩, hcs⟩ := hw
    have hopen : bstep ⟨stack, acc, nid⟩ (Tok.openTok tg) =
        ⟨(tg, acc) :: stack, [], nid⟩ := rfl
    obtain ⟨bs, nid2, hb1, hb2, hb3⟩ :=
      buildF cs hcs ((tg, acc) :: stack) [] nid (Or.inr (Or.inl rfl))
    have hclose : bstep ⟨(tg, acc) :: stack, bs ++ [], nid2⟩ (Tok.closeTok tg) =
        ⟨stack, .elem nid2 tg (ofList (bs ++ []).reverse) :: acc, nid2 + 1⟩ := by
      rw [bstep]
      simp
    refine ⟨.elem nid2 tg (ofList (bs ++ []).reverse), nid2 + 1, ?_, ?_, rfl, by omega⟩
    · rw [tokN, List.foldl_cons, hopen, List.foldl_append, hb1, List.foldl_cons, hclose]
      simp
    · simp only [structEq, Bool.and_eq_true, beq_iff_eq, true_and]
      simpa using hb2

theorem buildF : ∀ (f : DomForest), wfF f = true →
    ∀ (stack : List (Str × List DomNode)) (acc : List DomNode) (nid : Nat),
    (headElemF f = true ∨ acc = [] ∨ ∃ a acc2, acc = a :: acc2 ∧ isElem a = true) →
    ∃ (bs : List DomNode) (nid2 : Nat),
      List.foldl bstep ⟨stack, acc, nid⟩ (tokF f) = ⟨stack, bs ++ acc, nid2⟩ ∧
      structEqF (ofList bs.reverse) f = true ∧ nid ≤ nid2
  | .nil => by
    intro _ stack acc nid _
    exact ⟨[], nid, by simp [tokF], rfl, le_refl _⟩
  | .cons n f => by
    intro hw stack acc nid hg
    simp only [wfF, Bool.and_eq_true] at hw
    obtain ⟨⟨hn, hf⟩, hadj⟩ := hw
    have hg1 : isElem n = true ∨ acc = [] ∨ ∃ a acc2, acc = a :: acc2 ∧ isElem a = true := by
      rcases hg with hg | hg
      · exact Or.inl (by simpa [headElemF] using hg)
      · exact Or.inr hg
    obtain ⟨b, nid1, h1, h2, h3, h4⟩ := buildN n hn stack acc nid hg1
    have hg2 : headElemF f = true ∨ b :: acc = [] ∨
        ∃ a acc2, b :: acc = a :: acc2 ∧ isElem a = true := by
      cases f with
      | nil => exact Or.inl rfl
      | cons m f2 =>
        cases m with
        | elem j tg cs => exact Or.inl rfl
        | text j s =>
          cases n with
          | text k u => simp at hadj
          | elem k tg cs =>
            refine Or.inr (Or.inr ⟨b, acc, rfl, ?_⟩)
            rw [h3]
            rfl
    obtain ⟨bs, nid2, hb1, hb2, hb3⟩ := buildF f hf stack (b :: acc) nid1 hg2
    refine ⟨bs ++ [b], nid2, ?_, ?_, by omega⟩
    · rw [tokF, List.foldl_append, h1, hb1]
      simp
    · have hrev : (bs ++ [b]).reverse = b :: bs.reverse := by simp
      rw [hrev]
      have hof : ofList (b :: bs.reverse) = .cons b (ofList bs.reverse) := rfl
      rw [hof]
      simp only [structEqF, Bool.and_eq_true]
      exact ⟨h2, hb2⟩

end

mutual

theorem structEq_textContent : ∀ (a b : DomNode), structEq a b = true →
    textContent a = textContent b
  | .text _ s, .text _ t => by
    intro h
    simp only [structEq, beq_iff_eq] at h
    simp [textContent, h]
  | .elem _ tg cs, .elem _ tg2 cs2 => by
    intro h
    simp only [structEq, Bool.and_eq_true, beq_iff_eq] at h
    simp only [textContent]
    exact structEqF_textContentF cs cs2 h.2
  | .text _ _, .elem _ _ _ => by intro h; simp [structEq] at h
  | .elem _ _ _, .text _ _ => by intro h; simp [structEq] at h

theorem structEqF_textContentF : ∀ (f g : DomForest), structEqF f g = true →
    textContentF f = textContentF g
  | .nil, .nil => by intro _; rfl
  | .cons n f, .cons m g => by
    intro h
    simp only [structEqF, Bool.and_eq_true] at h
    simp only [textContentF]
    rw [structEq_textContent n m h.1, structEqF_textContentF f g h.2]
  | .nil, .cons _ _ => by intro h; simp [structEqF] at h
  | .cons _ _, .nil => by intro h; simp [structEqF] at h

end


/-! Header elevation: marker matching and stripping on the marker shape. -/

theorem encPlain_append_plain (x r : Str)
    (h : ∀ c ∈ x, c ≠ '&' ∧ c ≠ '<' ∧ c ≠ '>') :
    encPlain (x ++ r) = x ++ encPlain r := by
  induction x with
  | nil => rfl
  | cons c t ih =>
    obtain ⟨h1, h2, h3⟩ := h c (by simp)
    rw [List.cons_append, encPlain, if_neg h1, if_neg h2, if_neg h3,
        ih (fun d hd => h d (by simp [hd]))]
    rfl

/-- The head of plain-encoded non-whitespace-led text is not whitespace. -/
theorem encPlain_head_not_space {t0 : Char} (h : isJsSpace t0 = false)
    (t1 z : Str) : headIs isJsSpace (encPlain (t0 :: t1) ++ z) = false := by
  rw [encPlain]
  by_cases h1 : t0 = '&'
  · rw [if_pos h1]
    simp only [List.cons_append, headIs]
    decide
  · rw [if_neg h1]
    by_cases h2 : t0 = '<'
    · rw [if_pos h2]
      simp only [List.cons_append, headIs]
      decide
    · rw [if_neg h2]
      by_cases h3 : t0 = '>'
      · rw [if_pos h3]
        simp only [List.cons_append, headIs]
        decide
      · rw [if_neg h3]
        simp only [List.cons_append, headIs]
        exact h

/-- The header regex on a marker-led string: it consumes the hash run and
the single following space, capturing the run length. -/
theorem htExec_marker {N : Nat} (hN : 1 ≤ N) {X : Str}
    (hX : headIs isJsSpace X = false) :
    htExec (List.replicate N '#' ++ ' ' :: X) = some (N + 1, N) := by
  rw [htExec]
  have hrun : runSplit (fun c => decide (c = '#')) (List.replicate N '#' ++ ' ' :: X) =
      (List.replicate N '#', ' ' :: X) := by
    refine runSplit_all ?_ (by simp [headIs])
    intro x hx
    rw [List.eq_of_mem_replicate hx]
    simp
  rw [hrun]
  simp only
  rw [if_neg (by
    intro hcon
    have := congrArg List.length hcon
    simp at this
    omega)]
  have hws : runSplit isJsSpace ([' '] ++ X) = ([' '], X) :=
    runSplit_all (by intro x hx; simp at hx; subst hx; decide) hX
  simp only [List.singleton_append] at hws
  rw [hws]
  simp only
  rw [if_neg (by simp)]
  simp

/-- A marker-led string begins with a hash. -/
theorem marker_headIs {N : Nat} (hN : 1 ≤ N) (X : Str) (d : Char) (hd : d ≠ '#') :
    headIs (· = d) (List.replicate N '#' ++ X) = false := by
  obtain ⟨M, rfl⟩ : ∃ M, N = M + 1 := ⟨N - 1, by omega⟩
  rw [List.replicate_succ]
  simp only [List.cons_append, headIs, decide_eq_false_iff_not]
  intro hEq
  exact hd hEq.symm

/-- A marker-led string after the hash run and space. -/
theorem marker_drop {N : Nat} (X : Str) :
    (List.replicate N '#' ++ ' ' :: X).drop (N + 1) = X := by
  have h1 : List.replicate N '#' ++ ' ' :: X = (List.replicate N '#' ++ [' ']) ++ X := by
    simp
  rw [h1, List.drop_left']
  simp


/-- C7 counterexample: a header marker split across inline markup.  The
paragraph has textContent "# x", so the header pattern matches the flattened
text, but in the markup the hash sits inside a nested bold element where the
anchored removal regex cannot reach it: the elevated H1 keeps the marker. -/
theorem header_marker_not_removed_cx :
    BlockRenderer.Elevate markdownContainers
      ⟨[], .elem 0 (("P").toList)
        (.cons (.elem 1 (("B").toList) (.cons (.text 2 (("#").toList)) .nil))
        (.cons (.text 3 ((" x").toList)) .nil)), [], 4⟩ =
      some (HeaderText, ⟨none,
        .elem 7 (("H1").toList)
          (.cons (.elem 5 (("B").toList) (.cons (.text 4 (("#").toList)) .nil))
          (.cons (.text 6 ((" x").toList)) .nil)),
        [.elem 7 (("H1").toList)
          (.cons (.elem 5 (("B").toList) (.cons (.text 4 (("#").toList)) .nil))
          (.cons (.text 6 ((" x").toList)) .nil))], 8⟩) ∧
    headIs (· = '#') (textContent
      (DomNode.elem 7 (("H1").toList)
        (.cons (.elem 5 (("B").toList) (.cons (.text 4 (("#").toList)) .nil))
        (.cons (.text 6 ((" x").toList)) .nil)))) = true := by
  exact ⟨by decide, by decide⟩

/-- C7 (amended): header elevation with the marker leading the markup.  For
a block node whose first child is a text node beginning with a run of `N ≥ 1`
hashes and a space, followed by non-whitespace text and then parse-stable
element-led siblings, elevation by the standard container set selects the
header-text container and succeeds: the result has no parent, the child is a
fresh `H<N>` node placed at the node's position among its siblings, the
marker run and its following space are removed from the content, and the
remaining children are preserved in order up to structural equality. -/
theorem header_elevation_marker_removed
    (before after : List DomNode) (nid0 tid nid : Nat) (tg : Str)
    (N : Nat) (t : Str) (rest : DomForest)
    (hN : 1 ≤ N) (hne : t ≠ []) (hh : headIs isJsSpace t = false)
    (hwf : wfF rest = true) (hhd : headElemF rest = true) :
    ∃ res : ElevRes,
      BlockRenderer.Elevate markdownContainers
        ⟨before,
         .elem nid0 tg (.cons (.text tid (List.replicate N '#' ++ ' ' :: t)) rest),
         after, nid⟩ = some (HeaderText, res) ∧
      res.parent = none ∧
      nodeTag res.child = 'H' :: toBase 10 N ∧
      res.siblings = before ++ res.child :: after ∧
      textContent res.child = t ++ textContentF rest ∧
      structEqF (childrenOf res.child) (.cons (.text 0 t) rest) = true := by
  obtain ⟨t0, t1, rfl⟩ : ∃ t0 t1, t = t0 :: t1 := by
    match t, hne with
    | c :: t2, _ => exact ⟨c, t2, rfl⟩
  have ht0 : isJsSpace t0 = false := by simpa [headIs] using hh
  have htext : textContent
      (DomNode.elem nid0 tg
        (.cons (.text tid (List.replicate N '#' ++ ' ' :: (t0 :: t1))) rest)) =
      List.replicate N '#' ++ ' ' :: ((t0 :: t1) ++ textContentF rest) := by
    simp [textContent, textContentF]
  have htx : htExec (List.replicate N '#' ++ ' ' :: ((t0 :: t1) ++ textContentF rest)) =
      some (N + 1, N) := htExec_marker hN (by simp [headIs, ht0])
  have hbq : bqExec (List.replicate N '#' ++ ' ' :: ((t0 :: t1) ++ textContentF rest)) =
      none := by
    refine bqExec_none ?_ (isPrefixOf_false_of_head ?_)
    · exact marker_headIs hN (' ' :: ((t0 :: t1) ++ textContentF rest)) '>' (by decide)
    · exact marker_headIs hN (' ' :: ((t0 :: t1) ++ textContentF rest)) '&' (by decide)
  -- the normalized stripped markup and its parse
  have hsrest : nbspNorm (serializeF rest) = serializeNormF rest := by
    have h := nbspNorm_serializeF rest hwf []
    rw [List.append_nil, show nbspNorm ([] : Str) = [] from rfl, List.append_nil] at h
    exact h
  have htokrest : tokenize (serializeNormF rest) = tokF rest := by
    have h := tokenize_serializeNormF rest hwf []
    rw [List.append_nil, show tokenize ([] : Str) = [] from rfl, List.append_nil] at h
    exact h
  have hnorm : nbspNorm (text2html (List.replicate N '#' ++ ' ' :: (t0 :: t1)) ++
      serializeF rest) =
      List.replicate N '#' ++ ' ' :: (encPlain (t0 :: t1) ++ serializeNormF rest) := by
    rw [nbspNorm_text2html, hsrest]
    rw [encPlain_append_plain _ _ (by
      intro c hc
      rw [List.eq_of_mem_replicate hc]
      refine ⟨by decide, by decide, by decide⟩)]
    have hsp : encPlain (' ' :: (t0 :: t1)) = ' ' :: encPlain (t0 :: t1) := by
      rw [encPlain, if_neg (by decide), if_neg (by decide), if_neg (by decide)]
    rw [hsp]
    simp
  have hfmH : fmLen FMark.htM
      (List.replicate N '#' ++ ' ' :: (encPlain (t0 :: t1) ++ serializeNormF rest)) =
      some (N + 1) := by
    have hx := htExec_marker hN (encPlain_head_not_space ht0 t1 (serializeNormF rest))
    show (htExec _).map Prod.fst = some (N + 1)
    rw [hx]
    rfl
  have hstripH : fmStrip FMark.htM
      (List.replicate N '#' ++ ' ' :: (encPlain (t0 :: t1) ++ serializeNormF rest)) =
      encPlain (t0 :: t1) ++ serializeNormF rest := by
    rw [fmStrip, hfmH]
    simp only
    exact marker_drop _
  obtain ⟨bs, nid2, hb1, hb2, hb3⟩ :=
    buildF rest hwf [] [DomNode.text nid (t0 :: t1)] (nid + 1) (Or.inl hhd)
  have hparse : parseHTML nid (encPlain (t0 :: t1) ++ serializeNormF rest) =
      (DomNode.text nid (t0 :: t1) :: bs.reverse, nid2) := by
    rw [parseHTML, tokenize_encPlain, htokrest, List.foldl_append,
        build_chars_fresh (t0 :: t1) (by simp) [] [] nid (Or.inl rfl), hb1]
    rw [bfinish]
    simp only [bfinishAux]
    simp
  have hstrip : stripNode FMark.htM true
      (DomNode.elem nid0 tg
        (.cons (.text tid (List.replicate N '#' ++ ' ' :: (t0 :: t1))) rest)) nid =
      (DomNode.elem nid0 tg (ofList (DomNode.text nid (t0 :: t1) :: bs.reverse)), nid2) := by
    rw [stripNode, if_pos rfl]
    have hin : innerHTML
        (DomNode.elem nid0 tg
          (.cons (.text tid (List.replicate N '#' ++ ' ' :: (t0 :: t1))) rest)) =
        text2html (List.replicate N '#' ++ ' ' :: (t0 :: t1)) ++ serializeF rest := rfl
    rw [hin, hnorm, hstripH, hparse]
    rfl
  have hhtC : containerElevate HeaderText
      ⟨before,
       .elem nid0 tg (.cons (.text tid (List.replicate N '#' ++ ' ' :: (t0 :: t1))) rest),
       after, nid⟩ =
      some ⟨none,
        .elem nid2 ('H' :: toBase 10 N) (ofList (DomNode.text nid (t0 :: t1) :: bs.reverse)),
        before ++ (.elem nid2 ('H' :: toBase 10 N)
          (ofList (DomNode.text nid (t0 :: t1) :: bs.reverse))) :: after,
        nid2 + 1⟩ := by
    rw [containerElevate]
    simp only [HeaderText]
    rw [htext, htx]
    simp only
    rw [hstrip]
    rfl
  have hbqC : containerElevate BLOCKQUOTE
      ⟨before,
       .elem nid0 tg (.cons (.text tid (List.replicate N '#' ++ ' ' :: (t0 :: t1))) rest),
       after, nid⟩ = none := by
    rw [containerElevate]
    simp only [BLOCKQUOTE]
    rw [htext]
    show (match bqExec (List.replicate N '#' ++ ' ' :: ((t0 :: t1) ++ textContentF rest)) with
      | none => none
      | some _ => _) = none
    rw [hbq]
  refine ⟨⟨none,
    .elem nid2 ('H' :: toBase 10 N) (ofList (DomNode.text nid (t0 :: t1) :: bs.reverse)),
    before ++ (.elem nid2 ('H' :: toBase 10 N)
      (ofList (DomNode.text nid (t0 :: t1) :: bs.reverse))) :: after,
    nid2 + 1⟩, ?_, rfl, rfl, rfl, ?_, ?_⟩
  · rw [markdownContainers, BRElevate_cons_none hbqC, BRElevate_cons_some hhtC]
  · show textContentF (ofList (DomNode.text nid (t0 :: t1) :: bs.reverse)) =
      (t0 :: t1) ++ textContentF rest
    have hof : ofList (DomNode.text nid (t0 :: t1) :: bs.reverse) =
        .cons (DomNode.text nid (t0 :: t1)) (ofList bs.reverse) := rfl
    rw [hof]
    simp only [textContentF, textContent]
    rw [structEqF_textContentF _ _ hb2]
  · show structEqF (ofList (DomNode.text nid (t0 :: t1) :: bs.reverse))
      (.cons (.text 0 (t0 :: t1)) rest) = true
    have hof : ofList (DomNode.text nid (t0 :: t1) :: bs.reverse) =
        .cons (DomNode.text nid (t0 :: t1)) (ofList bs.reverse) := rfl
    rw [hof]
    simp only [structEqF, structEq, Bool.and_eq_true, beq_iff_eq]
    exact ⟨by trivial, hb2⟩

/-- C7 witness: elevating a paragraph whose markup is the text "# x"
followed by a bold element yields an H1 with the marker removed and the
children preserved. -/
theorem header_elevation_marker_removed_witness :
    (1 ≤ 1 ∧ (("x").toList ≠ [] ∧ headIs isJsSpace (("x").toList) = false) ∧
      wfF (.cons (.elem 1 (("B").toList) (.cons (.text 2 (("y").toList)) .nil)) .nil) = true ∧
      headElemF (.cons (.elem 1 (("B").toList) (.cons (.text 2 (("y").toList)) .nil)) .nil) = true) ∧
    ∃ res : ElevRes,
      BlockRenderer.Elevate markdownContainers
        ⟨[],
         .elem 0 (("P").toList)
           (.cons (.text 3 (List.replicate 1 '#' ++ ' ' :: (("x").toList)))
           (.cons (.elem 1 (("B").toList) (.cons (.text 2 (("y").toList)) .nil)) .nil)),
         [], 4⟩ = some (HeaderText, res) ∧
      res.parent = none ∧
      nodeTag res.child = 'H' :: toBase 10 1 ∧
      res.siblings = [] ++ res.child :: [] ∧
      textContent res.child = (("x").toList) ++ textContentF
        (.cons (.elem 1 (("B").toList) (.cons (.text 2 (("y").toList)) .nil)) .nil) ∧
      structEqF (childrenOf res.child)
        (.cons (.text 0 (("x").toList))
         (.cons (.elem 1 (("B").toList) (.cons (.text 2 (("y").toList)) .nil)) .nil)) = true :=
  ⟨⟨by decide, ⟨by decide, by decide⟩, by decide, by decide⟩,
   header_elevation_marker_removed [] [] 0 3 4 (("P").toList) 1 (("x").toList)
     (.cons (.elem 1 (("B").toList) (.cons (.text 2 (("y").toList)) .nil)) .nil)
     (by decide) (by decide) (by decide) (by decide) (by decide)⟩

end MarkdownIME
